import Mathlib

/-!
# FlatSQL core — verification of the index subsystem

Shallow embedding of the FlatSQL repository's index back-ends and streaming
store, following the C++ sources:

* `src/cpp/src/btree.cpp` — `compareValues` and the in-memory `BTree` back-end;
* `src/unnamed/part_001` (`sqlite_index.cpp`) — the SQLite-backed index
  (`SqliteIndex`), modelled together with SQLite's documented behaviour for
  the index table it creates;
* `src/cpp/include/flatsql/sqlite_index.h` — `StreamingFlatBufferStore`
  (declaration only; the implementation is modelled from the spec, see below).

Machine integers are embedded as `Int`/`Nat`, with the wrap-around of
`static_cast<int64_t>` on `uint64_t` made explicit.  `float`/`double` payloads
are idealised as `Rat`; no theorem in this file depends on rounding, NaN, or
any other property where `Rat` and IEEE doubles differ.  C++ code that can
throw (or that would read out of bounds) is embedded as `Option`-returning
functions, `none` standing for the exceptional outcome.  Recursive procedures
over the node map take an explicit fuel argument; the C++ recursion has no
fuel, so `none` from fuel exhaustion is a model artefact and the theorems
always supply sufficient fuel.
-/

namespace FlatSQL

/-- The tagged cell value (`Value` in `flatsql/types.h`, which is not part of
the provided sources; the variant list and its tag order follow spec §3.1:
Null, Bool, signed 8/16/32/64, unsigned 8/16/32/64, Float32, Float64, String,
Bytes).  Integer payloads carry the mathematical value of the machine word;
float payloads are idealised as rationals; strings and blobs are byte lists. -/
inductive Value where
  | null
  | bool (b : Bool)
  | int8 (n : Int)
  | int16 (n : Int)
  | int32 (n : Int)
  | int64 (n : Int)
  | uint8 (n : Nat)
  | uint16 (n : Nat)
  | uint32 (n : Nat)
  | uint64 (n : Nat)
  | float32 (x : Rat)
  | float64 (x : Rat)
  | str (s : List Nat)
  | bytes (bs : List Nat)
deriving DecidableEq, Repr

/-- `ValueType` enum (declared in the missing `types.h`; constructors taken
from their uses in `sqlite_index.cpp` and spec §3.1). -/
inductive ValueType where
  | Null | Bool
  | Int8 | Int16 | Int32 | Int64
  | UInt8 | UInt16 | UInt32 | UInt64
  | Float32 | Float64
  | String | Bytes
deriving DecidableEq, Repr

/-- `a.index()`: the tag index of the variant, per the §3.1 ordering. -/
def Value.tagIdx : Value → Nat
  | .null => 0
  | .bool _ => 1
  | .int8 _ => 2
  | .int16 _ => 3
  | .int32 _ => 4
  | .int64 _ => 5
  | .uint8 _ => 6
  | .uint16 _ => 7
  | .uint32 _ => 8
  | .uint64 _ => 9
  | .float32 _ => 10
  | .float64 _ => 11
  | .str _ => 12
  | .bytes _ => 13

/-- `static_cast<int64_t>` applied to a `uint64_t`: two's-complement wrap of a
natural below `2^64` into the signed 64-bit range. -/
def toSigned64 (u : Nat) : Int :=
  if u % 2 ^ 64 < 2 ^ 63 then ((u % 2 ^ 64 : Nat) : Int)
  else ((u % 2 ^ 64 : Nat) : Int) - 2 ^ 64

/-- `tryGetInt64` (btree.cpp lines 9–20): succeeds on every integer variant,
widening value-preservingly except `uint64_t`, which is `static_cast` to
`int64_t` (wrap-around). -/
def tryGetInt64 : Value → Option Int
  | .int32 n => some n
  | .int64 n => some n
  | .uint32 n => some (n : Int)
  | .uint64 n => some (toSigned64 n)
  | .int16 n => some n
  | .uint16 n => some (n : Int)
  | .int8 n => some n
  | .uint8 n => some (n : Int)
  | _ => none

/-- `tryGetDouble` (btree.cpp lines 23–38): succeeds on float and integer
variants.  The `static_cast<double>` of the payload is idealised as the exact
rational value (no claim in this file depends on the rounding of wide
integers to `double`). -/
def tryGetDouble : Value → Option Rat
  | .float32 x => some x
  | .float64 x => some x
  | .int8 n => some (n : Rat)
  | .int16 n => some (n : Rat)
  | .int32 n => some (n : Rat)
  | .int64 n => some (n : Rat)
  | .uint8 n => some (n : Rat)
  | .uint16 n => some (n : Rat)
  | .uint32 n => some (n : Rat)
  | .uint64 n => some (n : Rat)
  | _ => none

/-- The three-way comparison idiom `a < b ? -1 : (a > b ? 1 : 0)` on `Int`. -/
def cmpInt (x y : Int) : Int :=
  if x < y then -1 else if x > y then 1 else 0

/-- The same idiom on `Rat` (for the `double` branch). -/
def cmpRat (x y : Rat) : Int :=
  if x < y then -1 else if x > y then 1 else 0

/-- `memcmp` over the common prefix of two byte lists, as implemented by
glibc/libstdc++: the difference of the first differing bytes, `0` if the
common prefix agrees.  (The C standard only guarantees the sign; the
magnitude modelled here is the reference platform's behaviour.) -/
def memcmpBytes : List Nat → List Nat → Int
  | a :: as, b :: bs => if a = b then memcmpBytes as bs else (a : Int) - (b : Int)
  | _, _ => 0

/-- `std::string::compare` (libstdc++/libc++): `memcmp` over the common
prefix, then the length difference.  Only the sign is guaranteed by the C++
standard; the result is not confined to `{-1, 0, 1}`. -/
def stringCompare (a b : List Nat) : Int :=
  let r := memcmpBytes a b
  if r ≠ 0 then r else (a.length : Int) - (b.length : Int)

/-- The blob branch of `compareValues` (btree.cpp lines 72–83): element-wise
comparison returning `±1` at the first mismatch, then comparison of sizes. -/
def blobCompare : List Nat → List Nat → Int
  | a :: as, b :: bs => if a < b then -1 else if a > b then 1 else blobCompare as bs
  | [], [] => 0
  | [], _ :: _ => -1
  | _ :: _, [] => 1

/-- `compareValues` (btree.cpp lines 41–94): null handling, then integer
coercion, then double coercion, then string / blob / bool, then tag order. -/
def compareValues (a b : Value) : Int :=
  if a = Value.null then (if b = Value.null then 0 else -1)
  else if b = Value.null then 1
  else
    match tryGetInt64 a, tryGetInt64 b with
    | some aInt, some bInt => cmpInt aInt bInt
    | _, _ =>
      match tryGetDouble a, tryGetDouble b with
      | some aD, some bD => cmpRat aD bD
      | _, _ =>
        match a, b with
        | .str s, .str t => stringCompare s t
        | .bytes s, .bytes t => blobCompare s t
        | .bool x, .bool y => if x = y then 0 else if x = false then -1 else 1
        | _, _ => if a.tagIdx < b.tagIdx then -1 else 1

/-- `IndexEntry` (spec §3.3; used throughout btree.cpp and sqlite_index.cpp). -/
structure IndexEntry where
  key : Value
  dataOffset : Nat
  dataLength : Nat
  sequence : Nat
deriving DecidableEq, Repr

instance : Inhabited IndexEntry := ⟨⟨Value.null, 0, 0, 0⟩⟩

/-- A `BTreeNode` (declared in the missing `btree.h`; fields taken from their
uses in btree.cpp: `nodeId`, `isLeaf`, `parentId`, `entries`, `children`). -/
structure BTreeNode where
  nodeId : Nat := 0
  isLeaf : Bool := true
  parentId : Nat := 0
  entries : List IndexEntry := []
  children : List Nat := []
deriving DecidableEq, Repr

/-- The node map `nodes_ : std::unordered_map<uint64_t, BTreeNode>`, embedded
as an association list with unique keys (updates replace in place). -/
abbrev NodeMap := List (Nat × BTreeNode)

/-- Map lookup (`nodes_.find`). -/
def NodeMap.find (m : NodeMap) (k : Nat) : Option BTreeNode :=
  (List.find? (fun p => decide (p.1 = k)) m).map (fun p => p.2)

/-- Map store (`nodes_[k] = v`): replaces the existing binding, else appends. -/
def NodeMap.set (m : NodeMap) (k : Nat) (v : BTreeNode) : NodeMap :=
  if m.any (fun p => decide (p.1 = k)) then
    m.map (fun p => if p.1 = k then (k, v) else p)
  else m ++ [(k, v)]

/-- The `BTree` object state (fields from btree.cpp / the `BTree` class). -/
structure BTree where
  nodes : NodeMap
  rootId : Nat
  nextNodeId : Nat
  entryCount : Nat
  keyType : ValueType
  order : Nat
deriving Repr

namespace BTree

/-- `BTree::getNode`: map lookup; `none` models the thrown
`"Node not found"` (the spec's `Corrupted` error). -/
def getNode (t : BTree) (nodeId : Nat) : Option BTreeNode :=
  t.nodes.find nodeId

/-- `BTree::createNode`: allocate a fresh node id and store an empty node. -/
def createNode (t : BTree) (isLeaf : Bool) (parentId : Nat) : BTree × Nat :=
  let nodeId := t.nextNodeId
  let node : BTreeNode :=
    { nodeId := nodeId, isLeaf := isLeaf, parentId := parentId }
  ({ t with nextNodeId := t.nextNodeId + 1, nodes := t.nodes.set nodeId node },
   nodeId)

/-- `vector::insert(begin() + i, e)`. -/
def listInsertAt {α : Type} (l : List α) (i : Nat) (a : α) : List α :=
  l.take i ++ a :: l.drop i

/-- The backwards scan of `insertNonFull` (btree.cpp lines 162–166 and
170–174): starting from the last entry, step left while
`compareValues(key, entries[i].key) < 0`; the resulting insertion /
descent position is `i + 1`, i.e. the length of the list minus the length
of the maximal suffix of entries strictly greater than `key`. -/
def insertPos (entries : List IndexEntry) (key : Value) : Nat :=
  entries.length -
    (entries.reverse.takeWhile (fun e => decide (compareValues key e.key < 0))).length

/-- The parent-pointer fix-up loop of `splitChild` (btree.cpp lines 216–220):
re-parent each moved child to the new sibling. -/
def setParentIds (siblingId : Nat) (l : List Nat) (tt : BTree) : Option BTree :=
  l.foldlM (fun (tt : BTree) cid => do
      let c ← BTree.getNode tt cid
      pure { tt with nodes := tt.nodes.set cid { c with parentId := siblingId } }) tt

/-- `BTree::splitChild` (btree.cpp lines 195–229): split the full child at
`childIndex` of `parentId` around its middle entry, moving the upper half
(and, for internal nodes, the upper children) into a freshly created sibling,
and hoisting the middle entry into the parent. -/
def splitChild (t : BTree) (parentId : Nat) (childIndex : Nat) : Option BTree := do
  let parent ← t.getNode parentId
  let childId ← parent.children.get? childIndex
  let child ← t.getNode childId
  let mid := (t.order - 1) / 2
  let (t₁, siblingId) := createNode t child.isLeaf parentId
  let sibEntries := child.entries.drop (mid + 1)
  let midEntry ← child.entries.get? mid
  let childEntries := child.entries.take mid
  let sibChildren := if child.isLeaf then [] else child.children.drop (mid + 1)
  let childChildren := if child.isLeaf then child.children else child.children.take (mid + 1)
  let sibling ← t₁.getNode siblingId
  let sibling₂ := { sibling with entries := sibEntries, children := sibChildren }
  let t₂ := { t₁ with nodes := t₁.nodes.set siblingId sibling₂ }
  let child₂ := { child with entries := childEntries, children := childChildren }
  let t₃ := { t₂ with nodes := t₂.nodes.set childId child₂ }
  let t₄ ← setParentIds siblingId sibChildren t₃
  let parent₂ ← t₄.getNode parentId
  let pEntries := listInsertAt parent₂.entries childIndex midEntry
  let pChildren := listInsertAt parent₂.children (childIndex + 1) siblingId
  let parent₃ := { parent₂ with entries := pEntries, children := pChildren }
  pure { t₄ with nodes := t₄.nodes.set parentId parent₃ }

/-- `BTree::insertNonFull` (btree.cpp lines 157–193), with explicit fuel for
the descent.  On a leaf the entry is placed at `insertPos`; on an internal
node the descent child is chosen by the same scan, split first if full
(re-choosing left/right of the hoisted separator by a strict comparison). -/
def insertNonFull (entry : IndexEntry) : Nat → BTree → Nat → Option BTree
  | 0, _, _ => none
  | fuel + 1, t, nodeId => do
      let node ← t.getNode nodeId
      if node.isLeaf then
        let newEntries := listInsertAt node.entries (insertPos node.entries entry.key) entry
        let node₂ := { node with entries := newEntries }
        pure { t with nodes := t.nodes.set nodeId node₂ }
      else do
        let i := insertPos node.entries entry.key
        let childId ← node.children.get? i
        let child ← t.getNode childId
        if t.order - 1 ≤ child.entries.length then do
          let t₂ ← splitChild t nodeId i
          let node₂ ← t₂.getNode nodeId
          let sep ← node₂.entries.get? i
          let i₂ := if compareValues entry.key sep.key > 0 then i + 1 else i
          let childId₂ ← node₂.children.get? i₂
          insertNonFull entry fuel t₂ childId₂
        else
          insertNonFull entry fuel t childId

/-- `BTree::insert` (btree.cpp lines 128–155): eager root split when the root
is full, then `insertNonFull` from the (possibly new) root; the entry counter
is incremented at the end. -/
def insert (t : BTree) (key : Value) (dataOffset dataLength sequence : Nat)
    (fuel : Nat) : Option BTree := do
  let entry : IndexEntry :=
    { key := key, dataOffset := dataOffset, dataLength := dataLength, sequence := sequence }
  let root ← t.getNode t.rootId
  let t₁ ←
    if t.order - 1 ≤ root.entries.length then do
      let (ta, newRootId) := createNode t false 0
      let newRoot ← ta.getNode newRootId
      let newRoot₂ := { newRoot with children := [t.rootId] }
      let tb := { ta with nodes := ta.nodes.set newRootId newRoot₂ }
      let oldRoot ← tb.getNode t.rootId
      let oldRoot₂ := { oldRoot with parentId := newRootId }
      let tc := { tb with nodes := tb.nodes.set t.rootId oldRoot₂ }
      let td ← splitChild tc newRootId 0
      pure { td with rootId := newRootId }
    else pure t
  let t₂ ← insertNonFull entry fuel t₁ t₁.rootId
  pure { t₂ with entryCount := t₂.entryCount + 1 }

/-- `BTree::searchNode` (btree.cpp lines 241–263): skip entries strictly
below the key, collect the consecutive run of equal entries, then descend
into the single child left of the first non-smaller entry. -/
def searchNode (t : BTree) (key : Value) : Nat → Nat → Option (List IndexEntry)
  | 0, _ => none
  | fuel + 1, nodeId => do
      let node ← t.getNode nodeId
      let after := node.entries.dropWhile (fun e => decide (compareValues key e.key > 0))
      let matched := after.takeWhile (fun e => decide (compareValues key e.key = 0))
      if node.isLeaf then
        pure matched
      else do
        let childIdx :=
          (node.entries.takeWhile (fun e => decide (compareValues key e.key > 0))).length
        let childId ← node.children.get? childIdx
        let sub ← searchNode t key fuel childId
        pure (matched ++ sub)

/-- `BTree::search` (btree.cpp lines 231–235). -/
def search (t : BTree) (key : Value) (fuel : Nat) : Option (List IndexEntry) :=
  searchNode t key fuel t.rootId

/-- The entry loop of `BTree::rangeSearch` (btree.cpp lines 359–387), with the
child visit abstracted as `visitChild`: at position `i`, visit the left child
when the entry is `≥ minKey`, emit the entry when it is within `[minKey,
maxKey]`, break once an entry exceeds `maxKey`, and after a full loop visit
the child at index `entries.length`. -/
def rangeLoop (visitChild : Nat → Option (List IndexEntry)) (node : BTreeNode)
    (minKey maxKey : Value) : List IndexEntry → Nat → Option (List IndexEntry)
  | [], i =>
      if !node.isLeaf && decide (i < node.children.length) then do
        let childId ← node.children.get? i
        visitChild childId
      else pure []
  | entry :: rest, i => do
      let cmpMin := compareValues entry.key minKey
      let cmpMax := compareValues entry.key maxKey
      let fromChild ←
        if !node.isLeaf && decide (0 ≤ cmpMin) && decide (i < node.children.length) then do
          let childId ← node.children.get? i
          visitChild childId
        else pure []
      let here := if 0 ≤ cmpMin ∧ cmpMax ≤ 0 then [entry] else []
      if 0 < cmpMax then
        pure (fromChild ++ here)
      else do
        let tail ← rangeLoop visitChild node minKey maxKey rest (i + 1)
        pure (fromChild ++ here ++ tail)

/-- `BTree::rangeSearch` per node (btree.cpp lines 355–387). -/
def rangeNode (t : BTree) (minKey maxKey : Value) : Nat → Nat → Option (List IndexEntry)
  | 0, _ => none
  | fuel + 1, nodeId => do
      let node ← t.getNode nodeId
      rangeLoop (fun cid => rangeNode t minKey maxKey fuel cid) node minKey maxKey
        node.entries 0

/-- `BTree::range` (btree.cpp lines 349–353). -/
def range (t : BTree) (minKey maxKey : Value) (fuel : Nat) : Option (List IndexEntry) :=
  rangeNode t minKey maxKey fuel t.rootId

/-- The entry loop of `BTree::collectAll` (btree.cpp lines 395–408): in-order
emission of child `i` then entry `i`, finishing with `children.back()` when
the node has more children than entries. -/
def collectLoop (visitChild : Nat → Option (List IndexEntry)) (node : BTreeNode) :
    List IndexEntry → Nat → Option (List IndexEntry)
  | [], _ =>
      if !node.isLeaf && decide (node.entries.length < node.children.length) then do
        let childId ← node.children.get? (node.children.length - 1)
        visitChild childId
      else pure []
  | entry :: rest, i => do
      let fromChild ←
        if !node.isLeaf then do
          let childId ← node.children.get? i
          visitChild childId
        else pure []
      let tail ← collectLoop visitChild node rest (i + 1)
      pure (fromChild ++ entry :: tail)

/-- `BTree::collectAll` per node. -/
def collectNode (t : BTree) : Nat → Nat → Option (List IndexEntry)
  | 0, _ => none
  | fuel + 1, nodeId => do
      let node ← t.getNode nodeId
      collectLoop (fun cid => collectNode t fuel cid) node node.entries 0

/-- `BTree::all` (btree.cpp lines 389–393). -/
def all (t : BTree) (fuel : Nat) : Option (List IndexEntry) :=
  collectNode t fuel t.rootId

/-- The `lo`/`hi` binary-search loop shared by `searchNodeFirst` and
`searchNodeFirstInt` (btree.cpp lines 270–288 and 324–333): narrow `[lo, hi)`
to the least index whose probe satisfies `f`. -/
def bsearchLoop (f : Nat → Bool) (lo hi : Nat) : Nat :=
  if h : lo < hi then
    let mid := lo + (hi - lo) / 2
    if f mid then bsearchLoop f lo mid else bsearchLoop f (mid + 1) hi
  else lo
termination_by hi - lo
decreasing_by
  · omega
  · omega

/-- The integer read of an entry used by `searchNodeFirstInt` (btree.cpp lines
274–282 and 292–299): `int32`/`int64` directly, otherwise the fallback
`tryGetInt64` whose out-parameter stays uninitialised when it fails (that
read is undefined behaviour in C++; the model returns `0` there, and no
theorem relies on that case).  Out-of-bounds probes (also UB, unreachable at
the call sites) read the default entry. -/
def entryIntAt (entries : List IndexEntry) (i : Nat) : Int :=
  match entries.get? i with
  | some e =>
      match e.key with
      | .int32 n => n
      | .int64 n => n
      | k => (tryGetInt64 k).getD 0
  | none => 0

/-- `BTree::searchNodeFirstInt` (btree.cpp lines 266–312): binary search for
the least position whose entry integer is `≥ keyInt`, return it on an exact
match, else descend into child `lo`.  The outer `Option` is failure
(corrupted node / fuel), the inner one is found / not-found. -/
def searchNodeFirstInt (t : BTree) (keyInt : Int) :
    Nat → Nat → Option (Option IndexEntry)
  | 0, _ => none
  | fuel + 1, nodeId => do
      let node ← t.getNode nodeId
      let lo := bsearchLoop (fun m => decide (keyInt ≤ entryIntAt node.entries m))
        0 node.entries.length
      if lo < node.entries.length ∧ keyInt = entryIntAt node.entries lo then
        pure (node.entries.get? lo)
      else if !node.isLeaf && decide (lo < node.children.length) then do
        let childId ← node.children.get? lo
        searchNodeFirstInt t keyInt fuel childId
      else
        pure none

/-- `BTree::searchNodeFirst` (btree.cpp lines 314–347): integer keys take the
fast path; otherwise binary search with `compareValues`. -/
def searchNodeFirst (t : BTree) (key : Value) :
    Nat → Nat → Option (Option IndexEntry)
  | 0, _ => none
  | fuel + 1, nodeId =>
      match tryGetInt64 key with
      | some keyInt => searchNodeFirstInt t keyInt (fuel + 1) nodeId
      | none => do
          let node ← t.getNode nodeId
          let lo := bsearchLoop
            (fun m => decide (compareValues key (node.entries.getD m default).key ≤ 0))
            0 node.entries.length
          if lo < node.entries.length ∧
              compareValues key (node.entries.getD lo default).key = 0 then
            pure (node.entries.get? lo)
          else if !node.isLeaf && decide (lo < node.children.length) then do
            let childId ← node.children.get? lo
            searchNodeFirst t key fuel childId
          else
            pure none

/-- `BTree::searchFirst` (btree.cpp lines 237–239). -/
def searchFirst (t : BTree) (key : Value) (fuel : Nat) : Option (Option IndexEntry) :=
  searchNodeFirst t key fuel t.rootId

/-- The `BTree` constructor (btree.cpp lines 96–100): an empty leaf root.
`nextNodeId_` starts at `1` (its in-class initialiser is in the missing
`btree.h`; `clear()` resets it to `1`, and no claim depends on the ids). -/
def mkBTree (keyType : ValueType) (order : Nat) : BTree :=
  let t₀ : BTree :=
    { nodes := [], rootId := 0, nextNodeId := 1, entryCount := 0,
      keyType := keyType, order := order }
  let (t₁, rid) := createNode t₀ true 0
  { t₁ with rootId := rid }

/-- `BTree::clear` (btree.cpp lines 422–427). -/
def clear (t : BTree) : BTree :=
  let t₀ := { t with nodes := ([] : NodeMap), entryCount := 0, nextNodeId := 1 }
  let (t₁, rid) := createNode t₀ true 0
  { t₁ with rootId := rid }

/-- `BTree::getEntryCount` (declared in btree.h, backed by `entryCount_`). -/
def getEntryCount (t : BTree) : Nat :=
  t.entryCount

end BTree

/-! ## The SQLite-backed index (`sqlite_index.cpp`, `src/unnamed/part_001`)

The `SqliteIndex` back-end stores entries in a host-SQLite table
`_idx_{table}_{column} (key <affinity> NOT NULL, data_offset INTEGER NOT
NULL, data_length INTEGER NOT NULL, sequence INTEGER NOT NULL, PRIMARY KEY
(key, sequence)) WITHOUT ROWID`.  The SQLite engine itself is external to the
repository; its behaviour for this table shape is modelled from SQLite's
documented semantics: a `WITHOUT ROWID` table is a B-tree ordered by its
primary key, `NOT NULL` rejects a NULL binding, `PRIMARY KEY` rejects
duplicate `(key, sequence)` pairs, comparisons follow the storage-class order
NULL < numeric < TEXT < BLOB with `BINARY` collation on text/blob, and any
comparison with NULL is not true.  Numeric-literal parsing of text and the
decimal rendering of numbers (reachable only by extracting a key through a
mismatched `keyType`) are not modelled; no theorem touches those corners. -/

/-- An SQLite storage value (the value actually held in the `key` column
after binding). -/
inductive SqlVal where
  | nullv
  | intv (n : Int)
  | realv (x : Rat)
  | textv (s : List Nat)
  | blobv (bs : List Nat)
deriving DecidableEq, Repr

/-- Two's-complement wrap of an integer into `w` bits (the effect of a
narrowing `static_cast`). -/
def toSignedW (w : Nat) (n : Int) : Int :=
  let m := n % ((2 : Int) ^ w)
  if m < 2 ^ (w - 1) then m else m - 2 ^ w

/-- Storage-class index for the documented SQLite ordering
NULL < numeric < TEXT < BLOB. -/
def SqlVal.classIdx : SqlVal → Nat
  | .nullv => 0
  | .intv _ => 1
  | .realv _ => 1
  | .textv _ => 2
  | .blobv _ => 3

/-- The documented SQLite comparison on storage values (`BINARY` collation
for text, byte-wise for blobs, numeric across int/real). -/
def sqlCompare (a b : SqlVal) : Int :=
  match a, b with
  | .intv x, .intv y => cmpInt x y
  | .intv x, .realv y => cmpRat (x : Rat) y
  | .realv x, .intv y => cmpRat x (y : Rat)
  | .realv x, .realv y => cmpRat x y
  | .textv s, .textv t => blobCompare s t
  | .blobv s, .blobv t => blobCompare s t
  | .nullv, .nullv => 0
  | _, _ => cmpInt (a.classIdx : Int) (b.classIdx : Int)

namespace SqliteIndex

/-- `SqliteIndex::getSqliteType` (part_001 lines 244–267). -/
def getSqliteType : ValueType → String
  | .Int8 => "INTEGER"
  | .Int16 => "INTEGER"
  | .Int32 => "INTEGER"
  | .Int64 => "INTEGER"
  | .UInt8 => "INTEGER"
  | .UInt16 => "INTEGER"
  | .UInt32 => "INTEGER"
  | .UInt64 => "INTEGER"
  | .Float32 => "REAL"
  | .Float64 => "REAL"
  | .String => "TEXT"
  | .Bool => "INTEGER"
  | .Bytes => "BLOB"
  | .Null => "BLOB"

/-- `indexTableName_` as built by the constructor (part_001 line 102). -/
def indexTableName (tableName columnName : String) : String :=
  "_idx_" ++ tableName ++ "_" ++ columnName

/-- `createSql` as built by the constructor (part_001 lines 108–115). -/
def createTableSql (tableName columnName : String) (keyType : ValueType) : String :=
  "CREATE TABLE IF NOT EXISTS \"" ++ indexTableName tableName columnName ++ "\" ("
    ++ "key " ++ getSqliteType keyType ++ " NOT NULL, "
    ++ "data_offset INTEGER NOT NULL, "
    ++ "data_length INTEGER NOT NULL, "
    ++ "sequence INTEGER NOT NULL, "
    ++ "PRIMARY KEY (key, sequence)"
    ++ ") WITHOUT ROWID"

/-- `SqliteIndex::bindKey` (part_001 lines 269–296): `int8/16/32` and
`uint8/16/32` go through `static_cast<int>` (so a `uint32_t` above
`INT32_MAX` wraps), `int64`/`uint64` through `sqlite3_bind_int64` (so a
`uint64_t` above `INT64_MAX` wraps), bool as 0/1, floats as REAL, strings as
TEXT, byte vectors as BLOB, and `monostate` binds SQL NULL. -/
def bindKey : Value → SqlVal
  | .null => .nullv
  | .bool b => .intv (if b then 1 else 0)
  | .int8 n => .intv n
  | .int16 n => .intv n
  | .int32 n => .intv n
  | .int64 n => .intv n
  | .uint8 n => .intv (n : Int)
  | .uint16 n => .intv (n : Int)
  | .uint32 n => .intv (toSignedW 32 (n : Int))
  | .uint64 n => .intv (toSigned64 n)
  | .float32 x => .realv x
  | .float64 x => .realv x
  | .str s => .textv s
  | .bytes bs => .blobv bs

/-- `sqlite3_column_int64` on a stored value (text/blob numeric parsing not
modelled — unreachable from any theorem here). -/
def columnInt64 : SqlVal → Int
  | .intv n => n
  | .realv x => x.num / (x.den : Int)
  | _ => 0

/-- `sqlite3_column_int`: the 64-bit value narrowed to 32 bits. -/
def columnInt (v : SqlVal) : Int :=
  toSignedW 32 (columnInt64 v)

/-- `sqlite3_column_double` (decimal parsing of text not modelled). -/
def columnDouble : SqlVal → Rat
  | .realv x => x
  | .intv n => (n : Rat)
  | _ => 0

/-- `sqlite3_column_text` (decimal rendering of numbers not modelled). -/
def columnText : SqlVal → List Nat
  | .textv s => s
  | _ => []

/-- `sqlite3_column_blob` (`extractKey` returns the empty vector unless the
blob is non-null with positive size). -/
def columnBlob : SqlVal → List Nat
  | .blobv bs => bs
  | _ => []

/-- `SqliteIndex::extractKey` (part_001 lines 298–341): rebuild a `Value`
from the stored key according to the declared `keyType`, with the narrowing
casts of the source. -/
def extractKey (keyType : ValueType) (v : SqlVal) : Value :=
  match keyType with
  | .Int8 => .int8 (toSignedW 8 (columnInt v))
  | .Int16 => .int16 (toSignedW 16 (columnInt v))
  | .Int32 => .int32 (columnInt v)
  | .Int64 => .int64 (columnInt64 v)
  | .UInt8 => .uint8 ((columnInt v) % (2 : Int) ^ 8).toNat
  | .UInt16 => .uint16 ((columnInt v) % (2 : Int) ^ 16).toNat
  | .UInt32 => .uint32 ((columnInt v) % (2 : Int) ^ 32).toNat
  | .UInt64 => .uint64 ((columnInt64 v) % (2 : Int) ^ 64).toNat
  | .Float32 => .float32 (columnDouble v)
  | .Float64 => .float64 (columnDouble v)
  | .String => .str (columnText v)
  | .Bool => .bool (decide (columnInt v ≠ 0))
  | .Bytes => .bytes (columnBlob v)
  | .Null => .null

/-- One row of the index table. -/
structure SqlRow where
  key : SqlVal
  dataOffset : Nat
  dataLength : Nat
  sequence : Nat
deriving DecidableEq, Repr

/-- Primary-key order `(key, sequence)` on rows (strict). -/
def rowPkLt (a b : SqlRow) : Bool :=
  sqlCompare a.key b.key < 0 ∨ (sqlCompare a.key b.key = 0 ∧ a.sequence < b.sequence)

/-- Insert a row at its primary-key position (the `WITHOUT ROWID` table is
stored as a B-tree ordered by `(key, sequence)`). -/
def pkInsert (r : SqlRow) : List SqlRow → List SqlRow
  | [] => [r]
  | x :: xs => if rowPkLt r x then r :: x :: xs else x :: pkInsert r xs

/-- The `SqliteIndex` object: the declared key type, the index table's rows
in primary-key order, and the `entryCount_` member. -/
structure State where
  keyType : ValueType
  rows : List SqlRow := []
  entryCount : Nat := 0
deriving DecidableEq, Repr

/-- A fresh index (constructor, after `CREATE TABLE`). -/
def mkState (keyType : ValueType) : State :=
  { keyType := keyType }

/-- `SqliteIndex::extractEntry` (part_001 lines 343–350). -/
def extractEntry (keyType : ValueType) (r : SqlRow) : IndexEntry :=
  { key := extractKey keyType r.key,
    dataOffset := r.dataOffset,
    dataLength := r.dataLength,
    sequence := r.sequence }

/-- `SqliteIndex::insert` (part_001 lines 352–368): bind the key and step the
prepared `INSERT`.  `none` models the thrown `runtime_error` when
`sqlite3_step` does not return `SQLITE_DONE` — which SQLite's documented
semantics produce exactly when the bound key is NULL (`NOT NULL` constraint)
or the `(key, sequence)` pair already exists (`PRIMARY KEY` constraint). -/
def insert (st : State) (key : Value) (dataOffset dataLength sequence : Nat) :
    Option State :=
  let k := bindKey key
  if k = SqlVal.nullv then none
  else if st.rows.any (fun r => decide (sqlCompare r.key k = 0) && decide (r.sequence = sequence)) then none
  else some { st with
    rows := pkInsert ⟨k, dataOffset, dataLength, sequence⟩ st.rows,
    entryCount := st.entryCount + 1 }

/-- `SqliteIndex::search` (part_001 lines 370–382): `SELECT … WHERE key = ?`.
A NULL binding matches nothing; otherwise the matching rows are produced in
primary-key order (the query is answered by scanning the `(key, sequence)`
primary-key B-tree). -/
def search (st : State) (key : Value) : List IndexEntry :=
  let k := bindKey key
  if k = SqlVal.nullv then []
  else (st.rows.filter (fun r => decide (sqlCompare r.key k = 0))).map
    (extractEntry st.keyType)

/-- `SqliteIndex::searchFirst` (part_001 lines 384–395): `… LIMIT 1`. -/
def searchFirst (st : State) (key : Value) : Option IndexEntry :=
  (search st key).head?

/-- `SqliteIndex::range` (part_001 lines 429–442):
`WHERE key >= ? AND key <= ? ORDER BY key`, answered in primary-key order; a
NULL bound matches nothing. -/
def range (st : State) (minKey maxKey : Value) : List IndexEntry :=
  let lo := bindKey minKey
  let hi := bindKey maxKey
  if lo = SqlVal.nullv ∨ hi = SqlVal.nullv then []
  else (st.rows.filter
      (fun r => decide (0 ≤ sqlCompare r.key lo) && decide (sqlCompare r.key hi ≤ 0))).map
    (extractEntry st.keyType)

/-- `SqliteIndex::all` (part_001 lines 444–454): `SELECT … ORDER BY key`. -/
def all (st : State) : List IndexEntry :=
  st.rows.map (extractEntry st.keyType)

/-- `SqliteIndex::clear` (part_001 lines 456–466): `DELETE FROM …`. -/
def clear (st : State) : State :=
  { st with rows := [], entryCount := 0 }

/-- `SqliteIndex::getEntryCount` (sqlite_index.h line 64). -/
def getEntryCount (st : State) : Nat :=
  st.entryCount

end SqliteIndex

/-! ## The streaming store (`StreamingFlatBufferStore`)

Only the class declaration (`sqlite_index.h`, storage section) and its tests
are in the provided sources; `storage.cpp` is not.  The ingest loop is
therefore modelled from the spec (§4.1 "Partial-buffer behavior" and §6.1):
walk from offset 0; if at least 4 bytes remain read the little-endian `u32`
size prefix; if `4 + size` bytes remain, commit the payload (append
`[size][payload]` to the buffer, assign the next sequence starting at 1),
else stop and report the current position as `bytesConsumed`. -/

namespace StreamingFlatBufferStore

/-- The little-endian `u32` read of the first four bytes (callers establish
`bytes.length ≥ 4`). -/
def readU32LE (bytes : List Nat) : Nat :=
  bytes.getD 0 0 + 256 * bytes.getD 1 0 + 256 ^ 2 * bytes.getD 2 0 +
    256 ^ 3 * bytes.getD 3 0

/-- The little-endian encoding of a `u32` size. -/
def encodeU32LE (n : Nat) : List Nat :=
  [n % 256, n / 256 % 256, n / 256 ^ 2 % 256, n / 256 ^ 3 % 256]

/-- Modelled from the spec: the frame walk of `ingest` (spec §4.1).  Splits a
byte stream into the complete `[u32 size][payload]` frames at its front and
the unconsumed tail (which starts with an incomplete frame). -/
def parseFrames (bytes : List Nat) : List (List Nat) × List Nat :=
  if bytes.length < 4 then ([], bytes)
  else
    let size := readU32LE bytes
    if bytes.length < 4 + size then ([], bytes)
    else
      let payload := (bytes.drop 4).take size
      let rest := bytes.drop (4 + size)
      let (fs, r) := parseFrames rest
      (payload :: fs, r)
termination_by bytes.length
decreasing_by
  simp only [List.length_drop]
  omega

/-- The tail returned by `parseFrames` cannot start with a complete frame. -/
def incompleteFrame (rest : List Nat) : Prop :=
  rest.length < 4 ∨ rest.length < 4 + readU32LE rest

/-- Modelled from the spec: the store state observable through the public
contract — the raw log buffer (`data_` up to `writeOffset_`), the committed
records with their sequences, and the sequence allocator (`nextSequence_`,
starting at 1). -/
structure State where
  data : List Nat := []
  records : List (Nat × List Nat) := []
  nextSequence : Nat := 1
deriving DecidableEq, Repr

/-- Modelled from the spec: committing one complete frame — append the
size-prefixed payload to the buffer and assign the next sequence. -/
def commitFrame (st : State) (payload : List Nat) : State :=
  { data := st.data ++ encodeU32LE payload.length ++ payload,
    records := st.records ++ [(st.nextSequence, payload)],
    nextSequence := st.nextSequence + 1 }

/-- Modelled from the spec: `StreamingFlatBufferStore::ingest`
(sqlite_index.h lines 136–140): consume the complete frames at the front,
returning the new state, `bytesConsumed` (the walk position where the first
incomplete frame starts), and `recordsProcessed`. -/
def ingest (st : State) (bytes : List Nat) : State × Nat × Nat :=
  ((parseFrames bytes).1.foldl commitFrame st,
   bytes.length - (parseFrames bytes).2.length,
   (parseFrames bytes).1.length)

/-- The byte-at-a-time feeding discipline of the tested property
(roundtrip_test.cpp `testPartialStreamData`): push one byte, call `ingest`,
drop the consumed prefix from the retained buffer, repeat. -/
def dripFeed (st : State) (pending : List Nat) : List Nat → State × List Nat
  | [] => (st, pending)
  | b :: rest =>
      dripFeed (ingest st (pending ++ [b])).1
        ((pending ++ [b]).drop (ingest st (pending ++ [b])).2.1) rest

end StreamingFlatBufferStore

/-! ## Spec-side definitions and shared concrete scenarios -/

/-- The `(key, sequence)` non-decreasing relation of spec §8 ("returned
entries form a sequence that is non-decreasing in `(key, sequence)`"),
with keys compared by the index comparison `compareValues`. -/
def entryPairLE (a b : IndexEntry) : Prop :=
  compareValues a.key b.key < 0 ∨
    (compareValues a.key b.key = 0 ∧ a.sequence ≤ b.sequence)

instance : DecidableRel entryPairLE := fun a b => by
  unfold entryPairLE
  infer_instance

/-- Boolean check that consecutive entries are non-decreasing in
`(key, sequence)` (the computable form of `List.Chain\' entryPairLE`). -/
def entriesSortedPairs : List IndexEntry → Bool
  | a :: b :: rest =>
      (decide (compareValues a.key b.key < 0) ||
        (decide (compareValues a.key b.key = 0) && decide (a.sequence ≤ b.sequence))) &&
      entriesSortedPairs (b :: rest)
  | _ => true

/-- The key-affinity table exactly as the spec states it ("integers →
INTEGER, float → REAL, string → TEXT, bool → INTEGER, bytes → BLOB"); the
spec assigns no affinity to `Null`.  Written from the spec's words, to be
compared against `SqliteIndex.getSqliteType`. -/
def specKeyAffinity : ValueType → Option String
  | .Int8 => some "INTEGER"
  | .Int16 => some "INTEGER"
  | .Int32 => some "INTEGER"
  | .Int64 => some "INTEGER"
  | .UInt8 => some "INTEGER"
  | .UInt16 => some "INTEGER"
  | .UInt32 => some "INTEGER"
  | .UInt64 => some "INTEGER"
  | .Float32 => some "REAL"
  | .Float64 => some "REAL"
  | .String => some "TEXT"
  | .Bool => some "INTEGER"
  | .Bytes => some "BLOB"
  | .Null => none

/-- Shared concrete scenario: a `BTree` of order 4 (a legal configured order,
spec §4.2; the repository's own test `testBTree` uses order 4) receiving six
inserts of the same key `int32 5` with sequences 1…6 — the smallest scenario
in which a node split falls inside a run of duplicate keys. -/
def dupTree : Option BTree :=
  (List.range 6).foldl
    (fun acc i => acc.bind
      (fun t => BTree.insert t (Value.int32 5) ((i + 1) * 100) 50 (i + 1) 100))
    (some (BTree.mkBTree ValueType.Int32 4))

/-- The same six inserts against the SQLite back-end. -/
def dupSqlite : Option SqliteIndex.State :=
  (List.range 6).foldl
    (fun acc i => acc.bind
      (fun st => SqliteIndex.insert st (Value.int32 5) ((i + 1) * 100) 50 (i + 1)))
    (some (SqliteIndex.mkState ValueType.Int32))

/-- A `UInt64`-typed order-4 B-tree holding the two keys `2 ^ 63` and `5`
(inserted in that order, each with its own sequence number).  `compareValues`
orders these keys through `tryGetInt64`, so insertion places `2 ^ 63` — whose
`static_cast<int64_t>` is `-2 ^ 63` — *before* `5`; a range query with
`float64` bounds instead compares them through `tryGetDouble`, where `2 ^ 63`
is huge.  The two coercions disagree, which defeats the range pruning. -/
def u64Tree : Option BTree :=
  (BTree.insert (BTree.mkBTree ValueType.UInt64 4) (Value.uint64 (2 ^ 63)) 100 50 1 100).bind
    (fun t => BTree.insert t (Value.uint64 5) 200 50 2 100)

/-- One concrete public insert into a fresh order-4 int32 B-tree (used to
instantiate the structural-invariant theorems on a non-empty tree). -/
def wInsert : Option BTree :=
  BTree.insert (BTree.mkBTree ValueType.Int32 4) (Value.int32 5) 100 50 1 10

/-- The tree produced by `wInsert`. -/
def wTree : BTree := wInsert.getD (BTree.mkBTree ValueType.Int32 4)

/-- Run a sequence of `(key, dataOffset, dataLength, sequence)` inserts
against a fresh B-tree back-end (every insert given the same fuel). -/
def btreeRun (keyType : ValueType) (order fuel : Nat)
    (ops : List (Value × Nat × Nat × Nat)) : Option BTree :=
  ops.foldl (fun acc op => acc.bind
    (fun t => BTree.insert t op.1 op.2.1 op.2.2.1 op.2.2.2 fuel))
    (some (BTree.mkBTree keyType order))

/-- Run the same insert sequence against a fresh SQLite back-end. -/
def sqlRun (keyType : ValueType) (ops : List (Value × Nat × Nat × Nat)) :
    Option SqliteIndex.State :=
  ops.foldl (fun acc op => acc.bind
    (fun st => SqliteIndex.insert st op.1 op.2.1 op.2.2.1 op.2.2.2))
    (some (SqliteIndex.mkState keyType))

/-- The fields of a node the algorithms read (everything except the
`parentId` back-pointer, which no query or descent ever consults). -/
def nodeShape (n : BTreeNode) : Bool × List IndexEntry × List Nat :=
  (n.isLeaf, n.entries, n.children)

/-- Two tree states agree on node `k` up to the `parentId` back-pointer. -/
def shapeAgree (t t' : BTree) (k : Nat) : Prop :=
  (BTree.getNode t k).map nodeShape = (BTree.getNode t' k).map nodeShape

/-- Fold a subtree visitor over a children list, concatenating the visited
node-id lists and adding the entry counts. -/
def scanChildren (visit : Nat → Option (List Nat × Nat)) :
    List Nat → Option (List Nat × Nat)
  | [] => some ([], 0)
  | c :: cs => do
      let r ← visit c
      let rest ← scanChildren visit cs
      pure (r.1 ++ rest.1, r.2 + rest.2)

/-- Structural well-formedness scan of the subtree rooted at `nodeId`: every
reachable node exists in the map, leaves have no children, internal nodes
have one more child than entries.  Returns the list of visited node ids (in
pre-order) and the total number of entries stored in the subtree. -/
def scan (t : BTree) : Nat → Nat → Option (List Nat × Nat)
  | 0, _ => none
  | fuel + 1, nodeId => do
      let node ← BTree.getNode t nodeId
      if node.isLeaf then
        if node.children.isEmpty then pure ([nodeId], node.entries.length) else none
      else
        if node.children.length = node.entries.length + 1 then do
          let r ← scanChildren (scan t fuel) node.children
          pure (nodeId :: r.1, node.entries.length + r.2)
        else none

/-- The full well-formedness invariant of a `BTree` state: the subtree of the
root scans successfully, with pairwise-distinct node ids all below the
allocator, and the entry counter equals the stored entry total. -/
def TreeWF (t : BTree) (fuel : Nat) : Prop :=
  ∃ ids, scan t fuel t.rootId = some (ids, t.entryCount) ∧ ids.Nodup ∧
    (∀ i ∈ ids, i < t.nextNodeId) ∧ 2 ≤ t.order

/-- The trees reachable from the constructor through successful public
`insert` and `clear` calls, indexed by the number of inserts since the
construction or the last `clear`. -/
inductive Built : BTree → Nat → Prop where
  | base (keyType : ValueType) (order : Nat) (horder : 2 ≤ order) :
      Built (BTree.mkBTree keyType order) 0
  | step (t : BTree) (n : Nat) (key : Value) (dataOffset dataLength sequence fuel : Nat)
      (t' : BTree) (hb : Built t n)
      (hi : BTree.insert t key dataOffset dataLength sequence fuel = some t') :
      Built t' (n + 1)
  | clearStep (t : BTree) (n : Nat) (hb : Built t n) : Built (BTree.clear t) 0

/-- The fresh sibling node as allocated by `createNode` inside `splitChild`. -/
def sibNode₀ (t : BTree) (isLeaf : Bool) (parentId : Nat) : BTreeNode :=
  { nodeId := t.nextNodeId, isLeaf := isLeaf, parentId := parentId }

/-- The children moved to the sibling by `splitChild` (empty for a leaf). -/
def splitSibChildren (child : BTreeNode) (mid : Nat) : List Nat :=
  if child.isLeaf then [] else child.children.drop (mid + 1)

/-- The children kept by the split child. -/
def splitChildChildren (child : BTreeNode) (mid : Nat) : List Nat :=
  if child.isLeaf then child.children else child.children.take (mid + 1)

/-- The sibling node after receiving the upper half of the split child. -/
def splitSib₂ (t : BTree) (parentId : Nat) (child : BTreeNode) : BTreeNode :=
  { sibNode₀ t child.isLeaf parentId with
      entries := child.entries.drop ((t.order - 1) / 2 + 1),
      children := splitSibChildren child ((t.order - 1) / 2) }

/-- The split child after being truncated to its lower half. -/
def splitChild₂ (t : BTree) (child : BTreeNode) : BTreeNode :=
  { child with
      entries := child.entries.take ((t.order - 1) / 2),
      children := splitChildChildren child ((t.order - 1) / 2) }

/-- The tree state reached by `splitChild` just before the re-parenting fold:
sibling allocated and filled, child truncated. -/
def splitT₃ (t : BTree) (parentId childId : Nat) (child : BTreeNode) : BTree :=
  { t with
      nextNodeId := t.nextNodeId + 1,
      nodes := NodeMap.set (NodeMap.set
        (NodeMap.set t.nodes t.nextNodeId (sibNode₀ t child.isLeaf parentId))
        t.nextNodeId (splitSib₂ t parentId child)) childId (splitChild₂ t child) }

/-- The final state of `splitChild`: the separator and the sibling link are
inserted into the parent as re-read from the post-fold state `t₄`. -/
def splitT₅ (t₄ : BTree) (parentId childIndex sib : Nat) (midE : IndexEntry)
    (p₂ : BTreeNode) : BTree :=
  { t₄ with
      nodes := NodeMap.set t₄.nodes parentId
        { p₂ with
            entries := BTree.listInsertAt p₂.entries childIndex midE,
            children := BTree.listInsertAt p₂.children (childIndex + 1) sib } }

/-- The state reached by `insert`'s root-split prelude: fresh internal node
over the old root, old root re-parented. -/
def rootSplitTc (t : BTree) (root : BTreeNode) : BTree :=
  { t with
      nextNodeId := t.nextNodeId + 1,
      nodes := NodeMap.set (NodeMap.set
        (NodeMap.set t.nodes t.nextNodeId (sibNode₀ t false 0))
        t.nextNodeId { sibNode₀ t false 0 with children := [t.rootId] })
        t.rootId { root with parentId := t.nextNodeId } }

/-! ## Helper lemmas -/

theorem cmpInt_mem (x y : Int) : cmpInt x y = -1 ∨ cmpInt x y = 0 ∨ cmpInt x y = 1 := by
  unfold cmpInt
  split_ifs <;> simp

theorem cmpRat_mem (x y : Rat) : cmpRat x y = -1 ∨ cmpRat x y = 0 ∨ cmpRat x y = 1 := by
  unfold cmpRat
  split_ifs <;> simp

theorem blobCompare_mem (s t : List Nat) :
    blobCompare s t = -1 ∨ blobCompare s t = 0 ∨ blobCompare s t = 1 := by
  induction s generalizing t with
  | nil => cases t <;> simp [blobCompare]
  | cons x xs ih =>
      cases t with
      | nil => simp [blobCompare]
      | cons y ys =>
          simp only [blobCompare]
          split_ifs <;> simp [ih]

theorem searchNode_sound (t : BTree) (key : Value) :
    ∀ fuel nodeId results, BTree.searchNode t key fuel nodeId = some results →
      ∀ e ∈ results, compareValues key e.key = 0 := by
  intro fuel
  induction fuel with
  | zero =>
      intro nodeId results h
      simp [BTree.searchNode] at h
  | succ n ih =>
      intro nodeId results h
      rw [BTree.searchNode] at h
      cases hn : t.getNode nodeId with
      | none => rw [hn] at h; simp at h
      | some node =>
          rw [hn] at h
          simp only [Option.bind_eq_bind, Option.some_bind] at h
          by_cases hl : node.isLeaf
          · rw [if_pos hl] at h
            have hres : results =
                (node.entries.dropWhile (fun e => decide (compareValues key e.key > 0))).takeWhile
                  (fun e => decide (compareValues key e.key = 0)) := by
              exact (Option.some.injEq _ _ ▸ h).symm
            intro e he
            rw [hres] at he
            have := List.mem_takeWhile_imp he
            simpa using this
          · rw [if_neg hl] at h
            cases hc : node.children.get?
                ((node.entries.takeWhile (fun e => decide (compareValues key e.key > 0))).length) with
            | none => rw [hc] at h; simp at h
            | some childId =>
                rw [hc] at h
                simp only [Option.some_bind] at h
                cases hs : BTree.searchNode t key n childId with
                | none => rw [hs] at h; simp at h
                | some sub =>
                    rw [hs] at h
                    simp only [Option.some_bind, Option.pure_def, Option.some.injEq] at h
                    intro e he
                    rw [← h] at he
                    rcases List.mem_append.mp he with hm | hm
                    · have := List.mem_takeWhile_imp hm
                      simpa using this
                    · exact ih childId sub hs e hm

theorem rangeLoopTail_sound (visitChild : Nat → Option (List IndexEntry))
    (node : BTreeNode) (minKey maxKey : Value) (entry : IndexEntry)
    (rest : List IndexEntry) (i : Nat) (fromChild results : List IndexEntry)
    (hfrom : ∀ e ∈ fromChild,
      0 ≤ compareValues e.key minKey ∧ compareValues e.key maxKey ≤ 0)
    (ihrest : ∀ r, BTree.rangeLoop visitChild node minKey maxKey rest (i + 1) = some r →
      ∀ e ∈ r, 0 ≤ compareValues e.key minKey ∧ compareValues e.key maxKey ≤ 0)
    (h : (if 0 < compareValues entry.key maxKey then
            pure (fromChild ++
              if 0 ≤ compareValues entry.key minKey ∧ compareValues entry.key maxKey ≤ 0
              then [entry] else [])
          else
            (BTree.rangeLoop visitChild node minKey maxKey rest (i + 1)).bind fun tail =>
              pure ((fromChild ++
                if 0 ≤ compareValues entry.key minKey ∧ compareValues entry.key maxKey ≤ 0
                then [entry] else []) ++ tail)
          : Option (List IndexEntry)) = some results) :
    ∀ e ∈ results, 0 ≤ compareValues e.key minKey ∧ compareValues e.key maxKey ≤ 0 := by
  have hhere : ∀ e ∈ (if 0 ≤ compareValues entry.key minKey ∧
      compareValues entry.key maxKey ≤ 0 then [entry] else []),
      0 ≤ compareValues e.key minKey ∧ compareValues e.key maxKey ≤ 0 := by
    by_cases hin : 0 ≤ compareValues entry.key minKey ∧ compareValues entry.key maxKey ≤ 0
    · rw [if_pos hin]
      intro e he
      simp at he
      subst he
      exact hin
    · rw [if_neg hin]
      intro e he
      simp at he
  by_cases hmax : 0 < compareValues entry.key maxKey
  · rw [if_pos hmax] at h
    simp only [Option.pure_def, Option.some.injEq] at h
    subst h
    intro e he
    rcases List.mem_append.mp he with hm | hm
    · exact hfrom e hm
    · exact hhere e hm
  · rw [if_neg hmax] at h
    cases htl : BTree.rangeLoop visitChild node minKey maxKey rest (i + 1) with
    | none => rw [htl] at h; simp at h
    | some tail =>
        rw [htl] at h
        simp only [Option.some_bind, Option.pure_def, Option.some.injEq] at h
        subst h
        intro e he
        rcases List.mem_append.mp he with hm | hm
        · rcases List.mem_append.mp hm with hm2 | hm2
          · exact hfrom e hm2
          · exact hhere e hm2
        · exact ihrest tail htl e hm

theorem rangeLoop_sound (visitChild : Nat → Option (List IndexEntry)) (node : BTreeNode)
    (minKey maxKey : Value)
    (hvc : ∀ cid l, visitChild cid = some l →
      ∀ e ∈ l, 0 ≤ compareValues e.key minKey ∧ compareValues e.key maxKey ≤ 0) :
    ∀ rest i results,
      BTree.rangeLoop visitChild node minKey maxKey rest i = some results →
      ∀ e ∈ results, 0 ≤ compareValues e.key minKey ∧ compareValues e.key maxKey ≤ 0 := by
  intro rest
  induction rest with
  | nil =>
      intro i results h
      rw [BTree.rangeLoop] at h
      by_cases hcond : (!node.isLeaf && decide (i < node.children.length)) = true
      · rw [if_pos hcond] at h
        cases hc : node.children.get? i with
        | none => rw [hc] at h; simp at h
        | some childId =>
            rw [hc] at h
            simp only [Option.bind_eq_bind, Option.some_bind] at h
            exact hvc childId results h
      · rw [if_neg hcond] at h
        simp only [Option.pure_def, Option.some.injEq] at h
        subst h
        intro e he
        simp at he
  | cons entry rest ih =>
      intro i results h
      rw [BTree.rangeLoop] at h
      simp only [Option.bind_eq_bind] at h
      by_cases hcond : (!node.isLeaf && decide (0 ≤ compareValues entry.key minKey) &&
          decide (i < node.children.length)) = true
      · rw [if_pos hcond] at h
        cases hc : node.children.get? i with
        | none => rw [hc] at h; simp at h
        | some childId =>
            rw [hc] at h
            simp only [Option.some_bind] at h
            cases hv : visitChild childId with
            | none => rw [hv] at h; simp at h
            | some fromChild =>
                rw [hv] at h
                simp only [Option.some_bind] at h
                exact rangeLoopTail_sound visitChild node minKey maxKey entry rest i
                  fromChild results (hvc childId fromChild hv)
                  (fun r hr => ih (i + 1) r hr) h
      · rw [if_neg hcond] at h
        simp only [Option.pure_def, Option.some_bind] at h
        exact rangeLoopTail_sound visitChild node minKey maxKey entry rest i
          [] results (by intro e he; simp at he)
          (fun r hr => ih (i + 1) r hr) (by simpa using h)

theorem rangeNode_sound (t : BTree) (minKey maxKey : Value) :
    ∀ fuel nodeId results,
      BTree.rangeNode t minKey maxKey fuel nodeId = some results →
      ∀ e ∈ results, 0 ≤ compareValues e.key minKey ∧ compareValues e.key maxKey ≤ 0 := by
  intro fuel
  induction fuel with
  | zero =>
      intro nodeId results h
      simp [BTree.rangeNode] at h
  | succ n ih =>
      intro nodeId results h
      rw [BTree.rangeNode] at h
      cases hn : t.getNode nodeId with
      | none => rw [hn] at h; simp at h
      | some node =>
          rw [hn] at h
          simp only [Option.bind_eq_bind, Option.some_bind] at h
          exact rangeLoop_sound _ node minKey maxKey (fun cid l hl => ih cid l hl)
            node.entries 0 results h

theorem compareValues_notStr_mem (a b : Value)
    (h : ¬ (∃ s t, a = Value.str s ∧ b = Value.str t)) :
    compareValues a b = -1 ∨ compareValues a b = 0 ∨ compareValues a b = 1 := by
  cases a <;> cases b
  case str.str s t => exact absurd ⟨s, t, rfl, rfl⟩ h
  all_goals
    simp only [compareValues, tryGetInt64, tryGetDouble, Value.tagIdx, reduceCtorEq,
      if_false, reduceIte]
  all_goals
    first
      | exact cmpInt_mem _ _
      | exact cmpRat_mem _ _
      | exact blobCompare_mem _ _
      | (split_ifs <;> simp)
      | simp

/-! ## C2 -/

/-- C2, counterexample: `compareValues` on the Strings "a" and "c" returns
`std::string::compare`'s raw value `-2` (byte difference of the first
mismatch), which is outside `{-1, 0, 1}`. -/
theorem C2_counterexample :
    compareValues (Value.str [97]) (Value.str [99]) = -2 ∧
    ¬(compareValues (Value.str [97]) (Value.str [99]) = -1 ∨
      compareValues (Value.str [97]) (Value.str [99]) = 0 ∨
      compareValues (Value.str [97]) (Value.str [99]) = 1) := by
  decide

/-- C2, amended: `compareValues(a, b)` returns one of exactly -1, 0, or 1
whenever `a` and `b` are not both Strings; for two Strings it returns the raw
`std::string::compare` value, of which only the sign is meaningful. -/
theorem C2_amended_thm (a b : Value) :
    (compareValues a b = -1 ∨ compareValues a b = 0 ∨ compareValues a b = 1) ∨
    (∃ s t, a = Value.str s ∧ b = Value.str t) := by
  by_cases h : ∃ s t, a = Value.str s ∧ b = Value.str t
  · exact Or.inr h
  · exact Or.inl (compareValues_notStr_mem a b h)

/-! ## C3 -/

/-- C3: the index table declares `key … NOT NULL` while `bindKey` binds SQL
NULL for a Null `Value`, so `SqliteIndex::insert` with a Null key throws
(models as `none`) instead of producing a dense-index entry — whereas the
B-tree back-end accepts the same insert. -/
theorem C3_thm :
    SqliteIndex.insert (SqliteIndex.mkState ValueType.Int32) Value.null 0 0 1 = none ∧
    (BTree.insert (BTree.mkBTree ValueType.Int32 4) Value.null 0 0 1 100).isSome = true := by
  constructor
  · rfl
  · rfl

/-! ## C7 -/

/-- C7: Null sorts strictly below every non-null value (two Nulls equal), and
whenever `tryGetInt64` succeeds on both sides — i.e. both are integer
variants — `compareValues` is exactly the signed-64-bit comparison of the
converted values, with `uint64` payloads at or above `2^63` wrapping to
negative. -/
theorem C7_thm :
    compareValues Value.null Value.null = 0 ∧
    (∀ b : Value, b ≠ Value.null →
      compareValues Value.null b = -1 ∧ compareValues b Value.null = 1) ∧
    (∀ a b : Value, ∀ x y : Int, tryGetInt64 a = some x → tryGetInt64 b = some y →
      compareValues a b = cmpInt x y) ∧
    (∀ u : Nat, 2 ^ 63 ≤ u → u < 2 ^ 64 →
      tryGetInt64 (Value.uint64 u) = some ((u : Int) - 2 ^ 64) ∧ (u : Int) - 2 ^ 64 < 0) := by
  refine ⟨by decide, ?_, ?_, ?_⟩
  · intro b hb
    constructor
    · unfold compareValues
      rw [if_pos rfl, if_neg hb]
    · unfold compareValues
      rw [if_neg hb, if_pos rfl]
  · intro a b x y hx hy
    have ha : ¬ a = Value.null := by
      rintro rfl
      simp [tryGetInt64] at hx
    have hb : ¬ b = Value.null := by
      rintro rfl
      simp [tryGetInt64] at hy
    unfold compareValues
    rw [if_neg ha, if_neg hb, hx, hy]
  · intro u h₁ h₂
    have hm : u % 2 ^ 64 = u := Nat.mod_eq_of_lt h₂
    have hlt : ¬ u % 2 ^ 64 < 2 ^ 63 := by
      rw [hm]
      omega
    constructor
    · simp only [tryGetInt64, toSigned64, hm]
      rw [if_neg (by omega : ¬ u < 2 ^ 63)]
    · have : (u : Int) < 2 ^ 64 := by exact_mod_cast h₂
      omega

/-- C7 witness: concrete instances — Null below `int32 7`, and
`uint64 2^63` comparing as the negative `-(2^63)` against `int64 0`. -/
theorem C7_thm_witness :
    compareValues Value.null (Value.int32 7) = -1 ∧
    compareValues (Value.uint64 (2 ^ 63)) (Value.int64 0) = cmpInt ((2 ^ 63 : Int) - 2 ^ 64) 0 ∧
    tryGetInt64 (Value.uint64 (2 ^ 63)) = some ((2 ^ 63 : Int) - 2 ^ 64) := by
  refine ⟨(C7_thm.2.1 (Value.int32 7) (by decide)).1,
          C7_thm.2.2.1 _ _ _ _ ?_ (by decide), ?_⟩
  · have h := (C7_thm.2.2.2 (2 ^ 63) (by norm_num) (by norm_num)).1
    simpa using h
  · have h := (C7_thm.2.2.2 (2 ^ 63) (by norm_num) (by norm_num)).1
    simpa using h

/-! ## C8 -/

/-- C8: for every table name, column name, and key type to which the spec
assigns an affinity, the `CREATE TABLE` statement issued by the `SqliteIndex`
constructor creates `_idx_{T}_{C}` with columns `(key, data_offset,
data_length, sequence)`, `PRIMARY KEY (key, sequence) WITHOUT ROWID`, and the
spec's key affinity. -/
theorem C8_thm (T C : String) (kt : ValueType) (s : String)
    (h : specKeyAffinity kt = some s) :
    SqliteIndex.createTableSql T C kt =
      "CREATE TABLE IF NOT EXISTS \"" ++ ("_idx_" ++ T ++ "_" ++ C) ++ "\" (key " ++ s
        ++ " NOT NULL, data_offset INTEGER NOT NULL, data_length INTEGER NOT NULL, "
        ++ "sequence INTEGER NOT NULL, PRIMARY KEY (key, sequence)) WITHOUT ROWID" := by
  have htail :
      (" NOT NULL, " ++ ("data_offset INTEGER NOT NULL, " ++ ("data_length INTEGER NOT NULL, "
        ++ ("sequence INTEGER NOT NULL, " ++ ("PRIMARY KEY (key, sequence)" ++ ") WITHOUT ROWID"))))
        : String) =
      (" NOT NULL, data_offset INTEGER NOT NULL, data_length INTEGER NOT NULL, "
        ++ "sequence INTEGER NOT NULL, PRIMARY KEY (key, sequence)) WITHOUT ROWID" : String) := by
    decide
  have hhead : ("\" (" ++ "key " : String) = "\" (key " := by decide
  cases kt <;> simp only [specKeyAffinity, Option.some.injEq, reduceCtorEq] at h <;>
    subst h <;>
    simp only [SqliteIndex.createTableSql, SqliteIndex.indexTableName,
      SqliteIndex.getSqliteType, String.append_assoc] <;>
    rw [← htail, ← hhead] <;>
    simp only [String.append_assoc]

/-- C8 witness: the concrete statement for table `User`, column `id`,
key type `Int32`. -/
theorem C8_thm_witness :
    SqliteIndex.createTableSql "User" "id" ValueType.Int32 =
      "CREATE TABLE IF NOT EXISTS \"" ++ ("_idx_" ++ "User" ++ "_" ++ "id") ++ "\" (key "
        ++ "INTEGER"
        ++ " NOT NULL, data_offset INTEGER NOT NULL, data_length INTEGER NOT NULL, "
        ++ "sequence INTEGER NOT NULL, PRIMARY KEY (key, sequence)) WITHOUT ROWID" :=
  C8_thm "User" "id" ValueType.Int32 "INTEGER" (by decide)

/-! ## C1 -/

/-- C1, counterexample: on the order-4 tree built by six inserts of the same
key `int32 5` with monotonically increasing sequences 1…6, `search` returns
only the three entries with sequences `[2, 4, 1]` — it misses sequences 3, 5
and 6 (which ended up to the right of duplicate separator keys) and is not in
ascending sequence order. -/
theorem C1_counterexample :
    (dupTree.bind (fun t => BTree.search t (Value.int32 5) 100)).map
        (fun l => l.map IndexEntry.sequence) = some [2, 4, 1] ∧
    dupTree.map BTree.getEntryCount = some 6 := by
  constructor
  · rfl
  · rfl

/-- C1, amended: every entry returned by `searchAll(k)` matches `k` under the
index comparison (soundness); but the result can miss duplicate entries and
need not be in ascending sequence order once a node split has fallen inside a
run of duplicates. -/
theorem C1_amended_thm (t : BTree) (key : Value) (fuel : Nat)
    (results : List IndexEntry) (h : BTree.search t key fuel = some results) :
    ∀ e ∈ results, compareValues key e.key = 0 :=
  searchNode_sound t key fuel t.rootId results h

/-- C1 witness: the one-entry tree built by a single insert of `int32 5`:
the entry returned by `search` matches the searched key. -/
theorem C1_amended_thm_witness :
    compareValues (Value.int32 5)
      ({ key := Value.int32 5, dataOffset := 100, dataLength := 50,
         sequence := 1 } : IndexEntry).key = 0 :=
  C1_amended_thm
    ((BTree.insert (BTree.mkBTree ValueType.Int32 4) (Value.int32 5) 100 50 1 10).getD
      (BTree.mkBTree ValueType.Int32 4))
    (Value.int32 5) 10
    [{ key := Value.int32 5, dataOffset := 100, dataLength := 50, sequence := 1 }]
    (by rfl)
    { key := Value.int32 5, dataOffset := 100, dataLength := 50, sequence := 1 }
    (by simp)

/-! ## C5 -/

/-- C5, counterexample — both the ordering conjunct and the completeness
conjunct of the claim fail.  Ordering: on the order-4 tree built by six
inserts of the same key with sequences 1…6, `range(k, k)` returns the
sequences `[1, 2, 3, 6, 4, 5]` — not non-decreasing in `(key, sequence)`
(6 precedes 4 under equal keys).  Completeness: `u64Tree` stores exactly the
keys `uint64 (2 ^ 63)` and `uint64 5` (in that in-order position, per `all`),
and `uint64 5` lies within the bounds `[float64 0, float64 10]` under the
index comparison — yet `range(float64 0, float64 10)` returns the empty list:
the first entry `2 ^ 63` compares above `maxKey` through the `double`
coercion (unsigned, huge) although insertion ordered it *below* `5` through
the `int64_t` coercion (signed, `-2 ^ 63`), so the `cmpMax > 0` break at
btree.cpp line 379 stops the scan before the in-range entry is reached. -/
theorem C5_counterexample :
    (dupTree.bind (fun t => BTree.range t (Value.int32 5) (Value.int32 5) 100)).map
        (fun l => (l.map IndexEntry.sequence, entriesSortedPairs l)) =
      some ([1, 2, 3, 6, 4, 5], false) ∧
    (u64Tree.bind (fun t => BTree.all t 100)).map (fun l => l.map IndexEntry.key) =
      some [Value.uint64 (2 ^ 63), Value.uint64 5] ∧
    0 ≤ compareValues (Value.uint64 5) (Value.float64 0) ∧
    compareValues (Value.uint64 5) (Value.float64 10) ≤ 0 ∧
    u64Tree.bind (fun t => BTree.range t (Value.float64 0) (Value.float64 10) 100) =
      some [] := by
  exact ⟨by rfl, by rfl, by decide, by decide, by rfl⟩

/-- C5, amended: every entry returned by `rangeSearch(lo, hi)` satisfies
`lo ≤ key ≤ hi` under the index comparison (both bounds inclusive).  The
other two conjuncts of the original claim are refuted by the counterexample:
the output need not be non-decreasing in `(key, sequence)` once a node split
has fallen inside a run of duplicate keys, and it need not contain every
stored in-range entry, because `compareValues` orders `uint64` keys at and
above `2 ^ 63` signed against integer values but unsigned against `double`
bounds, so the early-break pruning can stop before an in-range entry. -/
theorem C5_amended_thm (t : BTree) (lo hi : Value) (fuel : Nat)
    (results : List IndexEntry) (h : BTree.range t lo hi fuel = some results) :
    ∀ e ∈ results, 0 ≤ compareValues e.key lo ∧ compareValues e.key hi ≤ 0 :=
  rangeNode_sound t lo hi fuel t.rootId results h

/-- C5 witness: a range query on the one-entry tree: the returned entry lies
within both bounds. -/
theorem C5_amended_thm_witness :
    0 ≤ compareValues
        ({ key := Value.int32 5, dataOffset := 100, dataLength := 50,
           sequence := 1 } : IndexEntry).key (Value.int32 0) ∧
      compareValues
        ({ key := Value.int32 5, dataOffset := 100, dataLength := 50,
           sequence := 1 } : IndexEntry).key (Value.int32 9) ≤ 0 :=
  C5_amended_thm
    ((BTree.insert (BTree.mkBTree ValueType.Int32 4) (Value.int32 5) 100 50 1 10).getD
      (BTree.mkBTree ValueType.Int32 4))
    (Value.int32 0) (Value.int32 9) 10
    [{ key := Value.int32 5, dataOffset := 100, dataLength := 50, sequence := 1 }]
    (by rfl)
    { key := Value.int32 5, dataOffset := 100, dataLength := 50, sequence := 1 }
    (by simp)

/-! ## C4 (counterexample) -/

/-- C4, counterexample: on the same six duplicate-key inserts, the B-tree
back-end's `search` returns 3 entries while the SQLite back-end returns all
6, so the two back-ends do not return identical results. -/
theorem C4_counterexample :
    (dupTree.bind (fun t => BTree.search t (Value.int32 5) 100)).map List.length =
      some 3 ∧
    dupSqlite.map (fun st => (SqliteIndex.search st (Value.int32 5)).length) =
      some 6 := by
  constructor
  · rfl
  · rfl

/-! ## B-tree structural invariant: map and scan lemmas -/

theorem NodeMap.find_map_replace_ne (m : NodeMap) (k : Nat) (v : BTreeNode)
    (k' : Nat) (hne : k' ≠ k) :
    NodeMap.find (m.map (fun p => if p.1 = k then (k, v) else p)) k' =
      NodeMap.find m k' := by
  induction m with
  | nil => rfl
  | cons p rest ih =>
      by_cases hp : p.1 = k
      · simp only [NodeMap.find, List.map_cons, if_pos hp, List.find?]
        have h₁ : (decide ((k, v).1 = k')) = false := by
          simp
          omega
        have h₂ : (decide (p.1 = k')) = false := by
          simp
          omega
        rw [h₁, h₂]
        exact ih
      · simp only [NodeMap.find, List.map_cons, if_neg hp, List.find?]
        cases hd : decide (p.1 = k')
        · exact ih
        · rfl

theorem NodeMap.find_set (m : NodeMap) (k : Nat) (v : BTreeNode) (k' : Nat) :
    (NodeMap.set m k v).find k' = if k' = k then some v else NodeMap.find m k' := by
  induction m with
  | nil =>
      simp only [NodeMap.set, List.any_nil, if_neg Bool.false_ne_true, List.nil_append]
      by_cases h : k' = k
      · subst h
        simp [NodeMap.find, List.find?]
      · have hd : (decide (k = k')) = false := by
          simp
          omega
        simp [NodeMap.find, List.find?, h, hd]
  | cons p rest ih =>
      by_cases hp : p.1 = k
      · have hany : ((p :: rest).any fun q => decide (q.1 = k)) = true := by
          simp [List.any_cons, hp]
        simp only [NodeMap.set, hany, if_pos rfl, List.map_cons, if_pos hp]
        by_cases h : k' = k
        · subst h
          simp [NodeMap.find, List.find?]
        · simp only [if_neg h, NodeMap.find, List.find?]
          have h₁ : (decide ((k, v).1 = k')) = false := by
            simp
            omega
          have h₂ : (decide (p.1 = k')) = false := by
            simp
            rw [hp]
            omega
          rw [h₁, h₂]
          have := NodeMap.find_map_replace_ne rest k v k' h
          simpa [NodeMap.find] using this
      · have hset : NodeMap.set (p :: rest) k v = p :: NodeMap.set rest k v := by
          simp only [NodeMap.set, List.any_cons]
          have hpd : (decide (p.1 = k)) = false := by simp [hp]
          simp only [hpd, Bool.false_or]
          by_cases hr : (rest.any fun q => decide (q.1 = k)) = true
          · rw [if_pos hr, if_pos hr, List.map_cons, if_neg hp]
          · rw [if_neg hr, if_neg hr, List.cons_append]
        rw [hset]
        by_cases hh : p.1 = k'
        · subst hh
          simp [NodeMap.find, List.find?, if_neg hp]
        · have hhd : (decide (p.1 = k')) = false := by simp [hh]
          simp only [NodeMap.find, List.find?, hhd] at ih ⊢
          exact ih

theorem getNode_set (t : BTree) (k : Nat) (v : BTreeNode) (k' : Nat) :
    BTree.getNode { t with nodes := NodeMap.set t.nodes k v } k' =
      if k' = k then some v else BTree.getNode t k' := by
  simp only [BTree.getNode]
  exact NodeMap.find_set t.nodes k v k'

theorem getNode_mem_keys (t : BTree) (k : Nat) (n : BTreeNode)
    (h : BTree.getNode t k = some n) : (k, n) ∈ t.nodes := by
  simp only [BTree.getNode, NodeMap.find, Option.map_eq_some'] at h
  obtain ⟨p, hp, hpn⟩ := h
  have hmem := List.mem_of_find?_eq_some hp
  have hk := List.find?_some hp
  simp at hk
  obtain ⟨p1, p2⟩ := p
  simp at hk hpn
  subst hk
  subst hpn
  exact hmem

/-- Characterisation of a successful `scanChildren`. -/
theorem scanChildren_iff (visit : Nat → Option (List Nat × Nat)) (l : List Nat)
    (J : List Nat) (s : Nat) :
    scanChildren visit l = some (J, s) ↔
      ∃ rs : List (List Nat × Nat), List.Forall₂ (fun c r => visit c = some r) l rs ∧
        J = (rs.map Prod.fst).join ∧ s = (rs.map Prod.snd).sum := by
  induction l generalizing J s with
  | nil =>
      constructor
      · intro h
        simp only [scanChildren, Option.some.injEq, Prod.mk.injEq] at h
        exact ⟨[], List.Forall₂.nil, by simp [← h.1], by simp [← h.2]⟩
      · rintro ⟨rs, hf, hJ, hs⟩
        cases hf
        simp [scanChildren, hJ, hs]
  | cons c cs ih =>
      constructor
      · intro h
        simp only [scanChildren, Option.bind_eq_bind] at h
        cases hv : visit c with
        | none => rw [hv] at h; simp at h
        | some r =>
            rw [hv] at h
            simp only [Option.some_bind] at h
            cases hrest : scanChildren visit cs with
            | none => rw [hrest] at h; simp at h
            | some rest =>
                rw [hrest] at h
                simp only [Option.some_bind, Option.pure_def, Option.some.injEq,
                  Prod.mk.injEq] at h
                obtain ⟨rs, hf, hJ, hs⟩ := (ih rest.1 rest.2).mp (by
                  cases rest
                  exact hrest)
                refine ⟨r :: rs, List.Forall₂.cons hv hf, ?_, ?_⟩
                · simp [← h.1, hJ]
                · simp [← h.2, hs]
      · rintro ⟨rs, hf, hJ, hs⟩
        cases hf with
        | cons hv hf2 =>
            rename_i r rs2
            simp only [scanChildren, Option.bind_eq_bind, hv, Option.some_bind]
            have : scanChildren visit cs = some ((rs2.map Prod.fst).join,
                (rs2.map Prod.snd).sum) := (ih _ _).mpr ⟨rs2, hf2, rfl, rfl⟩
            rw [this]
            simp [hJ, hs]

/-- Pointwise congruence for `scanChildren`. -/
theorem scanChildren_congr (visit visit' : Nat → Option (List Nat × Nat))
    (l : List Nat) (J : List Nat) (s : Nat)
    (h : scanChildren visit l = some (J, s))
    (hpt : ∀ c r, visit c = some r → visit' c = some r) :
    scanChildren visit' l = some (J, s) := by
  obtain ⟨rs, hf, hJ, hs⟩ := (scanChildren_iff visit l J s).mp h
  exact (scanChildren_iff visit' l J s).mpr
    ⟨rs, hf.imp (fun a b hab => hpt a b hab), hJ, hs⟩

/-- Fuel monotonicity of `scan`. -/
theorem scan_mono (t : BTree) :
    ∀ fuel nodeId r, scan t fuel nodeId = some r → scan t (fuel + 1) nodeId = some r := by
  intro fuel
  induction fuel with
  | zero =>
      intro nodeId r h
      simp [scan] at h
  | succ n ih =>
      intro nodeId r h
      rw [scan] at h ⊢
      cases hn : BTree.getNode t nodeId with
      | none => rw [hn] at h; simp at h
      | some node =>
          rw [hn] at h
          simp only [Option.bind_eq_bind, Option.some_bind] at h ⊢
          by_cases hl : node.isLeaf
          · rw [if_pos hl] at h ⊢
            exact h
          · rw [if_neg hl] at h ⊢
            by_cases ha : node.children.length = node.entries.length + 1
            · rw [if_pos ha] at h ⊢
              cases hsc : scanChildren (scan t n) node.children with
              | none => rw [hsc] at h; simp at h
              | some rr =>
                  rw [hsc] at h
                  have : scanChildren (scan t (n + 1)) node.children = some rr := by
                    cases rr
                    exact scanChildren_congr _ _ _ _ _ hsc
                      (fun c r2 hr2 => ih c r2 hr2)
                  rw [this]
                  exact h
            · rw [if_neg ha] at h
              simp at h

theorem scan_le_mono (t : BTree) (f g : Nat) (hfg : f ≤ g) :
    ∀ nodeId r, scan t f nodeId = some r → scan t g nodeId = some r := by
  induction g with
  | zero =>
      intro nodeId r h
      have : f = 0 := by omega
      subst this
      exact h
  | succ n ih =>
      intro nodeId r h
      by_cases hf : f = n + 1
      · subst hf
        exact h
      · exact scan_mono t n nodeId r (ih (by omega) nodeId r h)

/-- Framing for `scanChildren`, given framing for each subtree. -/
theorem scanChildren_frame (t t' : BTree) (n : Nat)
    (ih : ∀ nodeId ids cnt, scan t n nodeId = some (ids, cnt) →
      (∀ k ∈ ids, shapeAgree t t' k) → scan t' n nodeId = some (ids, cnt)) :
    ∀ (l : List Nat) (J : List Nat) (s : Nat),
      scanChildren (scan t n) l = some (J, s) →
      (∀ k ∈ J, shapeAgree t t' k) →
      scanChildren (scan t' n) l = some (J, s) := by
  intro l
  induction l with
  | nil =>
      intro J s h hagree
      simpa [scanChildren] using h
  | cons c cs ihl =>
      intro J s h hagree
      simp only [scanChildren, Option.bind_eq_bind] at h ⊢
      cases hv : scan t n c with
      | none => rw [hv] at h; simp at h
      | some r =>
          rw [hv] at h
          simp only [Option.some_bind] at h
          cases hrest : scanChildren (scan t n) cs with
          | none => rw [hrest] at h; simp at h
          | some rest =>
              rw [hrest] at h
              simp only [Option.some_bind, Option.pure_def, Option.some.injEq,
                Prod.mk.injEq] at h
              have hJ : J = r.1 ++ rest.1 := h.1.symm
              have hv2 : scan t' n c = some r := by
                cases r with
                | mk rids rcnt =>
                    refine ih c rids rcnt hv ?_
                    intro k hk
                    refine hagree k ?_
                    rw [hJ]
                    exact List.mem_append.mpr (Or.inl hk)
              have hrest2 : scanChildren (scan t' n) cs = some rest := by
                cases rest with
                | mk rids rcnt =>
                    refine ihl rids rcnt hrest ?_
                    intro k hk
                    refine hagree k ?_
                    rw [hJ]
                    exact List.mem_append.mpr (Or.inr hk)
              rw [hv2]
              simp only [Option.some_bind]
              rw [hrest2]
              simp [h.1, h.2]

/-- Framing: a scan is unaffected by changes outside its subtree (and by
`parentId`-only changes anywhere). -/
theorem scan_frame (t t' : BTree) :
    ∀ fuel nodeId ids cnt, scan t fuel nodeId = some (ids, cnt) →
      (∀ k ∈ ids, shapeAgree t t' k) →
      scan t' fuel nodeId = some (ids, cnt) := by
  intro fuel
  induction fuel with
  | zero =>
      intro nodeId ids cnt h
      simp [scan] at h
  | succ n ih =>
      intro nodeId ids cnt h hagree
      rw [scan] at h ⊢
      cases hn : BTree.getNode t nodeId with
      | none => rw [hn] at h; simp at h
      | some node =>
          rw [hn] at h
          simp only [Option.bind_eq_bind, Option.some_bind] at h
          have hnidmem : nodeId ∈ ids := by
            by_cases hl : node.isLeaf
            · rw [if_pos hl] at h
              by_cases hc : node.children.isEmpty
              · rw [if_pos hc] at h
                simp only [Option.pure_def, Option.some.injEq, Prod.mk.injEq] at h
                rw [← h.1]
                simp
              · rw [if_neg hc] at h
                simp at h
            · rw [if_neg hl] at h
              by_cases ha : node.children.length = node.entries.length + 1
              · rw [if_pos ha] at h
                cases hsc : scanChildren (scan t n) node.children with
                | none => rw [hsc] at h; simp at h
                | some rr =>
                    rw [hsc] at h
                    simp only [Option.some_bind, Option.pure_def, Option.some.injEq,
                      Prod.mk.injEq] at h
                    rw [← h.1]
                    simp
              · rw [if_neg ha] at h
                simp at h
          have hsame := hagree nodeId hnidmem
          unfold shapeAgree at hsame
          rw [hn] at hsame
          cases hn2 : BTree.getNode t' nodeId with
          | none => rw [hn2] at hsame; simp at hsame
          | some node2 =>
              rw [hn2] at hsame
              simp only [Option.map_some', Option.some.injEq, nodeShape,
                Prod.mk.injEq] at hsame
              obtain ⟨hleaf, hentries, hchildren⟩ := hsame
              simp only [Option.bind_eq_bind, Option.some_bind, ← hleaf, ← hentries,
                ← hchildren]
              by_cases hl : node.isLeaf
              · rw [if_pos hl] at h ⊢
                exact h
              · rw [if_neg hl] at h ⊢
                by_cases ha : node.children.length = node.entries.length + 1
                · rw [if_pos ha] at h ⊢
                  cases hsc : scanChildren (scan t n) node.children with
                  | none => rw [hsc] at h; simp at h
                  | some rr =>
                      rw [hsc] at h
                      simp only [Option.some_bind, Option.pure_def, Option.some.injEq,
                        Prod.mk.injEq] at h
                      have hsub : rr.1 ⊆ ids := by
                        intro x hx
                        rw [← h.1]
                        simp [hx]
                      have : scanChildren (scan t' n) node.children = some (rr.1, rr.2) := by
                        refine scanChildren_frame t t' n ih node.children rr.1 rr.2
                          (by cases rr; exact hsc) ?_
                        intro k hk
                        exact hagree k (hsub hk)
                      rw [this]
                      simp [h.1, h.2]
                · rw [if_neg ha] at h
                  simp at h

theorem list_decomp {α : Type} (l : List α) (i : Nat) (a : α) (h : l.get? i = some a) :
    l = l.take i ++ a :: l.drop (i + 1) := by
  induction l generalizing i with
  | nil => simp at h
  | cons x xs ih =>
      cases i with
      | zero =>
          simp at h
          subst h
          simp
      | succ n =>
          simp only [List.get?] at h
          have := ih n h
          rw [List.take_succ_cons, List.drop_succ_cons, List.cons_append]
          exact congrArg (List.cons x) this

theorem scanChildren_cons_elim (visit : Nat → Option (List Nat × Nat)) (c : Nat)
    (cs : List Nat) (J : List Nat) (s : Nat)
    (h : scanChildren visit (c :: cs) = some (J, s)) :
    ∃ r rest, visit c = some r ∧ scanChildren visit cs = some rest ∧
      J = r.1 ++ rest.1 ∧ s = r.2 + rest.2 := by
  simp only [scanChildren, Option.bind_eq_bind] at h
  cases hv : visit c with
  | none => rw [hv] at h; simp at h
  | some r =>
      rw [hv] at h
      simp only [Option.some_bind] at h
      cases hrest : scanChildren visit cs with
      | none => rw [hrest] at h; simp at h
      | some rest =>
          rw [hrest] at h
          simp only [Option.some_bind, Option.pure_def, Option.some.injEq,
            Prod.mk.injEq] at h
          exact ⟨r, rest, rfl, rfl, h.1.symm, h.2.symm⟩

theorem scanChildren_cons_intro (visit : Nat → Option (List Nat × Nat)) (c : Nat)
    (cs : List Nat) (r rest : List Nat × Nat)
    (hv : visit c = some r) (hrest : scanChildren visit cs = some rest) :
    scanChildren visit (c :: cs) = some (r.1 ++ rest.1, r.2 + rest.2) := by
  simp only [scanChildren, Option.bind_eq_bind, hv, Option.some_bind, hrest]
  rfl

theorem scanChildren_append_elim (visit : Nat → Option (List Nat × Nat))
    (l₁ l₂ : List Nat) (J : List Nat) (s : Nat)
    (h : scanChildren visit (l₁ ++ l₂) = some (J, s)) :
    ∃ r₁ r₂, scanChildren visit l₁ = some r₁ ∧ scanChildren visit l₂ = some r₂ ∧
      J = r₁.1 ++ r₂.1 ∧ s = r₁.2 + r₂.2 := by
  induction l₁ generalizing J s with
  | nil =>
      exact ⟨([], 0), (J, s), by simp [scanChildren], h, by simp, by simp⟩
  | cons c cs ih =>
      rw [List.cons_append] at h
      obtain ⟨r, rest, hv, hrest, hJ, hs⟩ := scanChildren_cons_elim _ _ _ _ _ h
      obtain ⟨r₁, r₂, h₁, h₂, hJ2, hs2⟩ := ih rest.1 rest.2 (by
        cases rest
        exact hrest)
      refine ⟨(r.1 ++ r₁.1, r.2 + r₁.2), r₂, ?_, h₂, ?_, ?_⟩
      · have := scanChildren_cons_intro visit c cs r r₁ hv h₁
        simpa using this
      · rw [hJ, hJ2, List.append_assoc]
      · rw [hs, hs2]
        omega

theorem scanChildren_append_intro (visit : Nat → Option (List Nat × Nat))
    (l₁ l₂ : List Nat) (r₁ r₂ : List Nat × Nat)
    (h₁ : scanChildren visit l₁ = some r₁) (h₂ : scanChildren visit l₂ = some r₂) :
    scanChildren visit (l₁ ++ l₂) = some (r₁.1 ++ r₂.1, r₁.2 + r₂.2) := by
  obtain ⟨J₁, s₁⟩ := r₁
  obtain ⟨J₂, s₂⟩ := r₂
  induction l₁ generalizing J₁ s₁ with
  | nil =>
      simp only [scanChildren, Option.some.injEq, Prod.mk.injEq] at h₁
      rw [List.nil_append, ← h₁.1, ← h₁.2]
      simpa using h₂
  | cons c cs ih =>
      obtain ⟨r, rest, hv, hrest, hJ, hs⟩ := scanChildren_cons_elim visit c cs J₁ s₁ h₁
      obtain ⟨Jr, sr⟩ := rest
      have hmid := ih Jr sr hrest
      have h3 := scanChildren_cons_intro visit c (cs ++ l₂) r (Jr ++ J₂, sr + s₂) hv hmid
      rw [List.cons_append, h3]
      simp only [hJ, hs, Option.some.injEq, Prod.mk.injEq]
      constructor
      · simp [List.append_assoc]
      · omega

theorem scan_leaf_elim (t : BTree) (f : Nat) (nodeId : Nat) (node : BTreeNode)
    (ids : List Nat) (cnt : Nat)
    (h : scan t (f + 1) nodeId = some (ids, cnt))
    (hn : BTree.getNode t nodeId = some node) (hl : node.isLeaf = true) :
    node.children = [] ∧ ids = [nodeId] ∧ cnt = node.entries.length := by
  rw [scan] at h
  rw [hn] at h
  simp only [Option.bind_eq_bind, Option.some_bind, if_pos hl] at h
  by_cases hc : node.children.isEmpty
  · rw [if_pos hc] at h
    simp only [Option.pure_def, Option.some.injEq, Prod.mk.injEq] at h
    exact ⟨List.isEmpty_iff.mp hc, h.1.symm, h.2.symm⟩
  · rw [if_neg hc] at h
    simp at h

theorem scan_internal_elim (t : BTree) (f : Nat) (nodeId : Nat) (node : BTreeNode)
    (ids : List Nat) (cnt : Nat)
    (h : scan t (f + 1) nodeId = some (ids, cnt))
    (hn : BTree.getNode t nodeId = some node) (hl : node.isLeaf = false) :
    node.children.length = node.entries.length + 1 ∧
    ∃ r, scanChildren (scan t f) node.children = some r ∧
      ids = nodeId :: r.1 ∧ cnt = node.entries.length + r.2 := by
  rw [scan] at h
  rw [hn] at h
  simp only [Option.bind_eq_bind, Option.some_bind, hl, Bool.false_eq_true,
    if_false] at h
  by_cases ha : node.children.length = node.entries.length + 1
  · rw [if_pos ha] at h
    refine ⟨ha, ?_⟩
    cases hsc : scanChildren (scan t f) node.children with
    | none => rw [hsc] at h; simp at h
    | some r =>
        rw [hsc] at h
        simp only [Option.some_bind, Option.pure_def, Option.some.injEq,
          Prod.mk.injEq] at h
        exact ⟨r, rfl, h.1.symm, h.2.symm⟩
  · rw [if_neg ha] at h
    simp at h

theorem scan_leaf_intro (t : BTree) (f : Nat) (nodeId : Nat) (node : BTreeNode)
    (hn : BTree.getNode t nodeId = some node) (hl : node.isLeaf = true)
    (hc : node.children = []) :
    scan t (f + 1) nodeId = some ([nodeId], node.entries.length) := by
  rw [scan, hn]
  simp [hl, hc]

theorem scan_internal_intro (t : BTree) (f : Nat) (nodeId : Nat) (node : BTreeNode)
    (r : List Nat × Nat)
    (hn : BTree.getNode t nodeId = some node) (hl : node.isLeaf = false)
    (ha : node.children.length = node.entries.length + 1)
    (hsc : scanChildren (scan t f) node.children = some r) :
    scan t (f + 1) nodeId = some (nodeId :: r.1, node.entries.length + r.2) := by
  rw [scan, hn]
  simp only [Option.bind_eq_bind, Option.some_bind, hl, Bool.false_eq_true, if_false,
    if_pos ha, hsc, Option.pure_def, Option.some_bind]

theorem shapeAgree_refl (t : BTree) (k : Nat) : shapeAgree t t k := rfl

theorem shapeAgree_trans (t₁ t₂ t₃ : BTree) (k : Nat) (h₁ : shapeAgree t₁ t₂ k)
    (h₂ : shapeAgree t₂ t₃ k) : shapeAgree t₁ t₃ k :=
  h₁.trans h₂

/-- `setParentIds` succeeds when every listed node exists, changes no node
shape, and touches no other state component. -/
theorem setParentIds_spec (sib : Nat) (l : List Nat) :
    ∀ tt : BTree, (∀ cid ∈ l, ∃ nd, BTree.getNode tt cid = some nd) →
      ∃ tt', BTree.setParentIds sib l tt = some tt' ∧ (∀ k, shapeAgree tt tt' k) ∧
        tt'.nextNodeId = tt.nextNodeId ∧ tt'.rootId = tt.rootId ∧
        tt'.order = tt.order ∧ tt'.entryCount = tt.entryCount ∧
        tt'.keyType = tt.keyType ∧
        (∀ cid ∈ l, ∃ nd, BTree.getNode tt' cid = some nd) := by
  induction l with
  | nil =>
      intro tt hmem
      exact ⟨tt, rfl, fun k => shapeAgree_refl tt k, rfl, rfl, rfl, rfl, rfl, by simp⟩
  | cons c cs ih =>
      intro tt hmem
      obtain ⟨nd, hnd⟩ := hmem c (by simp)
      set tt₁ : BTree := { tt with nodes := tt.nodes.set c { nd with parentId := sib } }
        with htt₁
      have hagree₁ : ∀ k, shapeAgree tt tt₁ k := by
        intro k
        unfold shapeAgree
        rw [htt₁, getNode_set]
        by_cases hk : k = c
        · subst hk
          rw [if_pos rfl, hnd]
          rfl
        · rw [if_neg hk]
      have hmem₁ : ∀ cid ∈ cs, ∃ nd₂, BTree.getNode tt₁ cid = some nd₂ := by
        intro cid hcid
        obtain ⟨nd₂, hnd₂⟩ := hmem cid (by simp [hcid])
        have := hagree₁ cid
        unfold shapeAgree at this
        rw [hnd₂] at this
        cases hg : BTree.getNode tt₁ cid with
        | none => rw [hg] at this; simp at this
        | some x => exact ⟨x, rfl⟩
      obtain ⟨tt', hfold, hagree₂, hnext, hroot, horder, hcount, hkt, hmem'⟩ := ih tt₁ hmem₁
      refine ⟨tt', ?_, ?_, ?_, ?_, ?_, ?_, ?_, ?_⟩
      · simp only [BTree.setParentIds, List.foldlM_cons, Option.bind_eq_bind, hnd,
          Option.some_bind]
        exact hfold
      · intro k
        exact shapeAgree_trans _ _ _ k (hagree₁ k) (hagree₂ k)
      · rw [hnext, htt₁]
      · rw [hroot, htt₁]
      · rw [horder, htt₁]
      · rw [hcount, htt₁]
      · rw [hkt, htt₁]
      · intro cid hcid
        by_cases hc : cid = c
        · subst hc
          have := hagree₂ cid
          unfold shapeAgree at this
          have hg₁ : BTree.getNode tt₁ cid = some { nd with parentId := sib } := by
            rw [htt₁, getNode_set, if_pos rfl]
          rw [hg₁] at this
          cases hg : BTree.getNode tt' cid with
          | none => rw [hg] at this; simp at this
          | some x => exact ⟨x, rfl⟩
        · exact hmem' cid (by
            cases List.mem_cons.mp hcid with
            | inl h => exact absurd h hc
            | inr h => exact h)

theorem scan_getNode (t : BTree) (f : Nat) (nid : Nat) (r : List Nat × Nat)
    (h : scan t f nid = some r) : ∃ node, BTree.getNode t nid = some node := by
  cases f with
  | zero => simp [scan] at h
  | succ n =>
      rw [scan] at h
      cases hn : BTree.getNode t nid with
      | none => rw [hn] at h; simp at h
      | some node => exact ⟨node, rfl⟩

theorem scanChildren_mem_scan (t : BTree) (f : Nat) :
    ∀ (l : List Nat) (r : List Nat × Nat), scanChildren (scan t f) l = some r →
      ∀ c ∈ l, ∃ rc, scan t f c = some rc ∧ rc.1 ⊆ r.1 := by
  intro l
  induction l with
  | nil =>
      intro r h c hc
      simp at hc
  | cons x xs ih =>
      intro r h c hc
      obtain ⟨J, s⟩ := r
      obtain ⟨rx, rest, hv, hrest, hJ, hs⟩ := scanChildren_cons_elim _ _ _ _ _ h
      cases List.mem_cons.mp hc with
      | inl hcx =>
          subst hcx
          refine ⟨rx, hv, ?_⟩
          intro y hy
          rw [hJ]
          exact List.mem_append.mpr (Or.inl hy)
      | inr hcs =>
          obtain ⟨rc, hrc, hsub⟩ := ih rest hrest c hcs
          refine ⟨rc, hrc, ?_⟩
          intro y hy
          rw [hJ]
          exact List.mem_append.mpr (Or.inr (hsub hy))

theorem listInsertAt_length {α : Type} (l : List α) (i : Nat) (a : α)
    (h : i ≤ l.length) :
    (BTree.listInsertAt l i a).length = l.length + 1 := by
  unfold BTree.listInsertAt
  simp [List.length_take, List.length_drop]
  omega

theorem listInsertAt_append_cons {α : Type} (A B : List α) (b x : α) :
    BTree.listInsertAt (A ++ b :: B) (A.length + 1) x = A ++ b :: x :: B := by
  induction A with
  | nil => simp [BTree.listInsertAt]
  | cons y ys ih =>
      simp only [List.cons_append, BTree.listInsertAt, List.length_cons] at ih ⊢
      rw [List.take_succ_cons, List.drop_succ_cons, List.cons_append]
      exact congrArg (List.cons y) ih

theorem take_length_append_cons {α : Type} (A B : List α) (b : α) :
    (A ++ b :: B).take A.length = A := by
  induction A with
  | nil => simp
  | cons y ys ih => simp [ih]

theorem drop_length_append_cons {α : Type} (A B : List α) (b : α) :
    (A ++ b :: B).drop (A.length + 1) = B := by
  induction A with
  | nil => simp
  | cons y ys ih => simpa using ih

theorem getNode_set2 (t : BTree) (nn : Nat) (k : Nat) (v : BTreeNode) (k' : Nat) :
    BTree.getNode { t with nextNodeId := nn, nodes := NodeMap.set t.nodes k v } k' =
      if k' = k then some v else BTree.getNode t k' := by
  simp only [BTree.getNode]
  exact NodeMap.find_set t.nodes k v k'

theorem getNode_mk_set (m : NodeMap) (r nn ec : Nat) (kt : ValueType) (od : Nat)
    (k : Nat) (v : BTreeNode) (k' : Nat) :
    BTree.getNode
      { nodes := NodeMap.set m k v
        rootId := r
        nextNodeId := nn
        entryCount := ec
        keyType := kt
        order := od } k' =
      if k' = k then some v else
        BTree.getNode
          { nodes := m
            rootId := r
            nextNodeId := nn
            entryCount := ec
            keyType := kt
            order := od } k' := by
  simp only [BTree.getNode]
  exact NodeMap.find_set m k v k'

theorem nodeShape_eq (n m : BTreeNode) (h : nodeShape n = nodeShape m) :
    n.isLeaf = m.isLeaf ∧ n.entries = m.entries ∧ n.children = m.children := by
  simp only [nodeShape, Prod.mk.injEq] at h
  exact h

theorem shapeAgree_some (t t' : BTree) (k : Nat) (n : BTreeNode)
    (h : shapeAgree t t' k) (hn : BTree.getNode t k = some n) :
    ∃ m, BTree.getNode t' k = some m ∧ m.isLeaf = n.isLeaf ∧
      m.entries = n.entries ∧ m.children = n.children := by
  unfold shapeAgree at h
  rw [hn] at h
  cases hm : BTree.getNode t' k with
  | none => rw [hm] at h; simp at h
  | some m =>
      rw [hm] at h
      simp only [Option.map_some', Option.some.injEq] at h
      obtain ⟨h1, h2, h3⟩ := nodeShape_eq n m h
      exact ⟨m, rfl, h1.symm, h2.symm, h3.symm⟩

theorem scan_mem_self (t : BTree) (f : Nat) (nid : Nat) (r : List Nat × Nat)
    (h : scan t f nid = some r) : nid ∈ r.1 := by
  cases f with
  | zero => simp [scan] at h
  | succ n =>
      rw [scan] at h
      cases hn : BTree.getNode t nid with
      | none => rw [hn] at h; simp at h
      | some node =>
          rw [hn] at h
          simp only [Option.bind_eq_bind, Option.some_bind] at h
          by_cases hl : node.isLeaf = true
          · rw [if_pos hl] at h
            by_cases hc : node.children.isEmpty
            · rw [if_pos hc] at h
              simp only [Option.pure_def, Option.some.injEq] at h
              rw [← h]
              simp
            · rw [if_neg hc] at h; simp at h
          · rw [if_neg hl] at h
            by_cases ha : node.children.length = node.entries.length + 1
            · rw [if_pos ha] at h
              cases hsc : scanChildren (scan t n) node.children with
              | none => rw [hsc] at h; simp at h
              | some rr =>
                  rw [hsc] at h
                  simp only [Option.pure_def, Option.some_bind, Option.some.injEq] at h
                  rw [← h]
                  simp
            · rw [if_neg ha] at h; simp at h

/-- Unfolding of `splitChild` up to the re-parenting fold, in terms of the
explicit intermediate state `splitT₃`. -/
theorem splitChild_eq (t : BTree) (parentId childIndex : Nat)
    (parent child : BTreeNode) (childId : Nat) (midE : IndexEntry)
    (hp : BTree.getNode t parentId = some parent)
    (hchild : parent.children.get? childIndex = some childId)
    (hcnode : BTree.getNode t childId = some child)
    (hmid : child.entries.get? ((t.order - 1) / 2) = some midE) :
    BTree.splitChild t parentId childIndex =
      (do
        let t₄ ← BTree.setParentIds t.nextNodeId
          (splitSibChildren child ((t.order - 1) / 2)) (splitT₃ t parentId childId child)
        let p₂ ← BTree.getNode t₄ parentId
        pure (splitT₅ t₄ parentId childIndex t.nextNodeId midE p₂)) := by
  rw [BTree.splitChild]
  simp only [Option.bind_eq_bind, hp, Option.some_bind, hchild, hcnode, hmid,
    BTree.createNode]
  rw [getNode_set2, if_pos rfl]
  simp only [Option.some_bind, splitT₃, splitSibChildren, splitChildChildren,
    splitSib₂, splitChild₂, splitT₅, sibNode₀]

theorem getNode_splitT₃ (t : BTree) (parentId childId : Nat) (child : BTreeNode)
    (k' : Nat) :
    BTree.getNode (splitT₃ t parentId childId child) k' =
      if k' = childId then some (splitChild₂ t child)
      else if k' = t.nextNodeId then some (splitSib₂ t parentId child)
      else BTree.getNode t k' := by
  simp only [splitT₃, BTree.getNode, NodeMap.find_set]
  by_cases h1 : k' = childId
  · subst h1
    simp
  · rw [if_neg h1, if_neg h1]
    by_cases h2 : k' = t.nextNodeId
    · subst h2
      simp
    · rw [if_neg h2, if_neg h2, if_neg h2]

theorem getNode_splitT₅ (t₄ : BTree) (parentId childIndex sib : Nat)
    (midE : IndexEntry) (p₂ : BTreeNode) (k' : Nat) :
    BTree.getNode (splitT₅ t₄ parentId childIndex sib midE p₂) k' =
      if k' = parentId then
        some { p₂ with
          entries := BTree.listInsertAt p₂.entries childIndex midE,
          children := BTree.listInsertAt p₂.children (childIndex + 1) sib }
      else BTree.getNode t₄ k' := by
  simp only [splitT₅, BTree.getNode, NodeMap.find_set]

/-- Effect of `splitChild` on a well-scanned internal parent: it succeeds,
preserves the subtree entry total, adds exactly the fresh sibling id to the
visited set, bumps the allocator by one, widens the parent by one separator
and one child link, and changes no node shape outside the parent, the split
child and the new sibling. -/
theorem splitChild_effect (t : BTree) (parentId childIndex f : Nat)
    (parent child : BTreeNode) (childId : Nat) (ids : List Nat) (cnt : Nat)
    (hp : BTree.getNode t parentId = some parent)
    (hpleaf : parent.isLeaf = false)
    (hchild : parent.children.get? childIndex = some childId)
    (hcnode : BTree.getNode t childId = some child)
    (hfull : t.order - 1 ≤ child.entries.length)
    (horder : 2 ≤ t.order)
    (hscan : scan t (f + 1 + 1) parentId = some (ids, cnt))
    (hnodup : ids.Nodup)
    (hfresh : ∀ i ∈ ids, i < t.nextNodeId) :
    ∃ t' ids' p',
      BTree.splitChild t parentId childIndex = some t' ∧
      scan t' (f + 1 + 1) parentId = some (ids', cnt) ∧
      ids'.Perm (t.nextNodeId :: ids) ∧
      t'.nextNodeId = t.nextNodeId + 1 ∧
      t'.rootId = t.rootId ∧ t'.order = t.order ∧
      t'.entryCount = t.entryCount ∧ t'.keyType = t.keyType ∧
      BTree.getNode t' parentId = some p' ∧
      p'.isLeaf = false ∧
      p'.entries.length = parent.entries.length + 1 ∧
      p'.children = parent.children.take childIndex ++
        childId :: t.nextNodeId :: parent.children.drop (childIndex + 1) ∧
      (∀ k, k ∉ ids → k ≠ t.nextNodeId → shapeAgree t t' k) := by
  have hmidlt : (t.order - 1) / 2 < child.entries.length := by omega
  have hmidE : child.entries.get? ((t.order - 1) / 2) =
      some (child.entries.get ⟨(t.order - 1) / 2, hmidlt⟩) :=
    List.get?_eq_get hmidlt
  -- decompose the parent scan
  obtain ⟨ha, ⟨Jp, sp⟩, hsc, hids, hcnt⟩ :=
    scan_internal_elim t (f + 1) parentId parent ids cnt hscan hp hpleaf
  have hcidx : childIndex < parent.children.length := by
    obtain ⟨hlt, -⟩ := List.get?_eq_some.mp hchild
    exact hlt
  set A := parent.children.take childIndex with hAdef
  set B := parent.children.drop (childIndex + 1) with hBdef
  have hdec : parent.children = A ++ childId :: B :=
    list_decomp parent.children childIndex childId hchild
  rw [hdec] at hsc
  obtain ⟨⟨JA, sA⟩, ⟨Jcb, scb⟩, hA, hCB, hJ1, hS1⟩ :=
    scanChildren_append_elim _ _ _ _ _ hsc
  obtain ⟨⟨Jc, sc⟩, ⟨JB, sB⟩, hcscan, hB, hJ2, hS2⟩ :=
    scanChildren_cons_elim _ _ _ _ _ hCB
  simp only at hids hcnt hJ1 hS1 hJ2 hS2 hcscan hB hA
  have hidseq : ids = parentId :: (JA ++ (Jc ++ JB)) := by
    rw [hids, hJ1, hJ2]
  -- nodup dissection
  have hnd := hidseq ▸ hnodup
  have hpni : parentId ∉ JA ++ (Jc ++ JB) := (List.nodup_cons.mp hnd).1
  have hnd1 : (JA ++ (Jc ++ JB)).Nodup := (List.nodup_cons.mp hnd).2
  have hdisA : JA.Disjoint (Jc ++ JB) := List.disjoint_of_nodup_append hnd1
  have hndcb : (Jc ++ JB).Nodup := hnd1.of_append_right
  have hndc : Jc.Nodup := hndcb.of_append_left
  have hdiscB : Jc.Disjoint JB := List.disjoint_of_nodup_append hndcb
  have hmemids : ∀ k, k ∈ JA ∨ k ∈ Jc ∨ k ∈ JB → k ∈ ids := by
    intro k hk
    rw [hidseq]
    rcases hk with h | h | h <;> simp [h]
  have hcidJc : childId ∈ Jc := scan_mem_self t (f + 1) childId (Jc, sc) hcscan
  have hsibid : ∀ k, k ∈ ids → k ≠ t.nextNodeId := fun k hk => Nat.ne_of_lt (hfresh k hk)
  have hpidmem : parentId ∈ ids := by rw [hidseq]; simp
  have hpidsib : parentId ≠ t.nextNodeId := hsibid parentId hpidmem
  have hcidmem : childId ∈ ids := hmemids childId (Or.inr (Or.inl hcidJc))
  have hcidsib : childId ≠ t.nextNodeId := hsibid childId hcidmem
  have hpc : parentId ≠ childId := by
    intro h
    apply hpni
    rw [h]
    exact List.mem_append.mpr (Or.inr (List.mem_append.mpr (Or.inl hcidJc)))
  -- existence of the moved grandchildren
  have hgc : ∀ cid ∈ splitSibChildren child ((t.order - 1) / 2),
      ∃ nd, BTree.getNode t cid = some nd ∧ cid ∈ Jc ∧ cid ≠ childId := by
    intro cid hcid
    unfold splitSibChildren at hcid
    by_cases hleafc : child.isLeaf = true
    · rw [if_pos hleafc] at hcid; simp at hcid
    · rw [if_neg hleafc] at hcid
      have hlf : child.isLeaf = false := by simpa using hleafc
      obtain ⟨hac, ⟨Jg, sg⟩, hg, hJcInt, hscInt⟩ :=
        scan_internal_elim t f childId child Jc sc hcscan hcnode hlf
      simp only at hg hJcInt hscInt
      obtain ⟨⟨Jcc, scc⟩, hscanc, hsubc⟩ :=
        scanChildren_mem_scan t f child.children (Jg, sg) hg cid
          ((List.drop_sublist _ _).subset hcid)
      have hcidJg : cid ∈ Jg := hsubc (scan_mem_self t f cid (Jcc, scc) hscanc)
      obtain ⟨nd, hnd⟩ := scan_getNode t f cid (Jcc, scc) hscanc
      refine ⟨nd, hnd, ?_, ?_⟩
      · rw [hJcInt]; exact List.mem_cons_of_mem _ hcidJg
      · have hni := (List.nodup_cons.mp (hJcInt ▸ hndc)).1
        intro h; rw [h] at hcidJg; exact hni hcidJg
  -- run the re-parenting fold
  have hmem3 : ∀ cid ∈ splitSibChildren child ((t.order - 1) / 2),
      ∃ nd, BTree.getNode (splitT₃ t parentId childId child) cid = some nd := by
    intro cid hcid
    obtain ⟨nd, hnd, hcidJc2, hcidne⟩ := hgc cid hcid
    refine ⟨nd, ?_⟩
    rw [getNode_splitT₃, if_neg hcidne,
      if_neg (hsibid cid (hmemids cid (Or.inr (Or.inl hcidJc2)))), hnd]
  obtain ⟨t₄, hspi, hsp4, hnn4, hri4, hor4, hec4, hkt4, -⟩ :=
    setParentIds_spec t.nextNodeId (splitSibChildren child ((t.order - 1) / 2))
      (splitT₃ t parentId childId child) hmem3
  -- evaluate splitChild
  have hsplit0 := splitChild_eq t parentId childIndex parent child childId
    (child.entries.get ⟨(t.order - 1) / 2, hmidlt⟩) hp hchild hcnode hmidE
  rw [hspi] at hsplit0
  simp only [Option.bind_eq_bind, Option.some_bind] at hsplit0
  have h3p : BTree.getNode (splitT₃ t parentId childId child) parentId = some parent := by
    rw [getNode_splitT₃, if_neg hpc, if_neg hpidsib]
    exact hp
  obtain ⟨p₂, hp₂, hp₂l, hp₂e, hp₂c⟩ :=
    shapeAgree_some _ t₄ parentId parent (hsp4 parentId) h3p
  rw [hp₂] at hsplit0
  simp only [Option.some_bind, Option.pure_def] at hsplit0
  set midE := child.entries.get ⟨(t.order - 1) / 2, hmidlt⟩ with hmidEdef
  set tF := splitT₅ t₄ parentId childIndex t.nextNodeId midE p₂ with htF
  -- framing
  have hframe : ∀ k, k ≠ parentId → k ≠ childId → k ≠ t.nextNodeId →
      shapeAgree t tF k := by
    intro k hk1 hk2 hk3
    have e3 : BTree.getNode (splitT₃ t parentId childId child) k = BTree.getNode t k := by
      rw [getNode_splitT₃, if_neg hk2, if_neg hk3]
    have e5 : BTree.getNode tF k = BTree.getNode t₄ k := by
      rw [htF, getNode_splitT₅, if_neg hk1]
    have h4 := hsp4 k
    unfold shapeAgree at h4 ⊢
    rw [e5, ← h4, e3]
  have hagreeJA : ∀ k, k ∈ JA → shapeAgree t tF k := by
    intro k hk
    refine hframe k ?_ ?_ (hsibid k (hmemids k (Or.inl hk)))
    · intro h; rw [h] at hk; exact hpni (List.mem_append.mpr (Or.inl hk))
    · intro h; rw [h] at hk
      exact hdisA hk (List.mem_append.mpr (Or.inl hcidJc))
  have hagreeJB : ∀ k, k ∈ JB → shapeAgree t tF k := by
    intro k hk
    refine hframe k ?_ ?_ (hsibid k (hmemids k (Or.inr (Or.inr hk))))
    · intro h; rw [h] at hk
      exact hpni (List.mem_append.mpr (Or.inr (List.mem_append.mpr (Or.inr hk))))
    · intro h; rw [h] at hk
      exact hdiscB hcidJc hk
  -- the rebuilt child and the sibling in the final state
  have h3c : BTree.getNode (splitT₃ t parentId childId child) childId =
      some (splitChild₂ t child) := by
    rw [getNode_splitT₃, if_pos rfl]
  obtain ⟨c₄, hc₄, hc₄l, hc₄e, hc₄c⟩ :=
    shapeAgree_some _ t₄ childId _ (hsp4 childId) h3c
  have hgc4 : BTree.getNode tF childId = some c₄ := by
    rw [htF, getNode_splitT₅, if_neg (Ne.symm hpc)]
    exact hc₄
  have h3s : BTree.getNode (splitT₃ t parentId childId child) t.nextNodeId =
      some (splitSib₂ t parentId child) := by
    rw [getNode_splitT₃, if_neg (Ne.symm hcidsib), if_pos rfl]
  obtain ⟨s₄, hs₄, hs₄l, hs₄e, hs₄c⟩ :=
    shapeAgree_some _ t₄ t.nextNodeId _ (hsp4 t.nextNodeId) h3s
  have hgs4 : BTree.getNode tF t.nextNodeId = some s₄ := by
    rw [htF, getNode_splitT₅, if_neg (Ne.symm hpidsib)]
    exact hs₄
  have hc₄l' : c₄.isLeaf = child.isLeaf := hc₄l
  have hc₄e' : c₄.entries = child.entries.take ((t.order - 1) / 2) := hc₄e
  have hc₄c' : c₄.children = splitChildChildren child ((t.order - 1) / 2) := hc₄c
  have hs₄l' : s₄.isLeaf = child.isLeaf := hs₄l
  have hs₄e' : s₄.entries = child.entries.drop ((t.order - 1) / 2 + 1) := hs₄e
  have hs₄c' : s₄.children = splitSibChildren child ((t.order - 1) / 2) := hs₄c
  have hc4len : c₄.entries.length = (t.order - 1) / 2 := by
    rw [hc₄e', List.length_take]; omega
  have hs4len : s₄.entries.length = child.entries.length - ((t.order - 1) / 2 + 1) := by
    rw [hs₄e', List.length_drop]
  -- the new parent node
  have hgp : BTree.getNode tF parentId = some { p₂ with
      entries := BTree.listInsertAt p₂.entries childIndex midE,
      children := BTree.listInsertAt p₂.children (childIndex + 1) t.nextNodeId } := by
    rw [htF, getNode_splitT₅, if_pos rfl]
  have hAlen : A.length = childIndex := by
    rw [hAdef, List.length_take]; omega
  have hle1 : childIndex + 1 ≤ p₂.children.length := by rw [hp₂c]; omega
  have hle2 : childIndex ≤ p₂.entries.length := by rw [hp₂e]; omega
  have hpch : BTree.listInsertAt p₂.children (childIndex + 1) t.nextNodeId =
      A ++ childId :: t.nextNodeId :: B := by
    rw [hp₂c, hdec, ← hAlen]
    exact listInsertAt_append_cons A B childId t.nextNodeId
  have hplen : (BTree.listInsertAt p₂.entries childIndex midE).length =
      parent.entries.length + 1 := by
    rw [listInsertAt_length _ _ _ hle2, hp₂e]
  have hp3l : ({ p₂ with
      entries := BTree.listInsertAt p₂.entries childIndex midE,
      children := BTree.listInsertAt p₂.children (childIndex + 1) t.nextNodeId } :
      BTreeNode).isLeaf = false := by
    show p₂.isLeaf = false
    rw [hp₂l]; exact hpleaf
  have harity : (BTree.listInsertAt p₂.children (childIndex + 1) t.nextNodeId).length =
      (BTree.listInsertAt p₂.entries childIndex midE).length + 1 := by
    rw [listInsertAt_length _ _ _ hle1, listInsertAt_length _ _ _ hle2, hp₂c, hp₂e]
    omega
  -- framed scans of the untouched flanks
  have hA2 : scanChildren (scan tF (f + 1)) A = some (JA, sA) :=
    scanChildren_frame t tF (f + 1) (scan_frame t tF (f + 1)) A JA sA hA hagreeJA
  have hB2 : scanChildren (scan tF (f + 1)) B = some (JB, sB) :=
    scanChildren_frame t tF (f + 1) (scan_frame t tF (f + 1)) B JB sB hB hagreeJB
  by_cases hleafc : child.isLeaf = true
  · -- leaf child: no grandchildren move
    obtain ⟨hcc, hJcleaf, hscleaf⟩ :=
      scan_leaf_elim t f childId child Jc sc hcscan hcnode hleafc
    have hscanc2 : scan tF (f + 1) childId = some ([childId], (t.order - 1) / 2) := by
      have hl2 : c₄.isLeaf = true := by rw [hc₄l']; exact hleafc
      have hch2 : c₄.children = [] := by
        rw [hc₄c']; unfold splitChildChildren; rw [if_pos hleafc]; exact hcc
      have h0 := scan_leaf_intro tF f childId c₄ hgc4 hl2 hch2
      rw [hc4len] at h0
      exact h0
    have hscans2 : scan tF (f + 1) t.nextNodeId =
        some ([t.nextNodeId], child.entries.length - ((t.order - 1) / 2 + 1)) := by
      have hl2 : s₄.isLeaf = true := by rw [hs₄l']; exact hleafc
      have hch2 : s₄.children = [] := by
        rw [hs₄c']; unfold splitSibChildren; rw [if_pos hleafc]
      have h0 := scan_leaf_intro tF f t.nextNodeId s₄ hgs4 hl2 hch2
      rw [hs4len] at h0
      exact h0
    have hconsS := scanChildren_cons_intro (scan tF (f + 1)) t.nextNodeId B
      ([t.nextNodeId], child.entries.length - ((t.order - 1) / 2 + 1)) (JB, sB) hscans2 hB2
    have hconsC := scanChildren_cons_intro (scan tF (f + 1)) childId (t.nextNodeId :: B)
      ([childId], (t.order - 1) / 2) _ hscanc2 hconsS
    have hchain := scanChildren_append_intro (scan tF (f + 1)) A (childId :: t.nextNodeId :: B)
      (JA, sA) _ hA2 hconsC
    simp only [List.singleton_append] at hchain
    have hchain2 : scanChildren (scan tF (f + 1))
        (BTree.listInsertAt p₂.children (childIndex + 1) t.nextNodeId) =
        some (JA ++ childId :: t.nextNodeId :: JB,
          sA + ((t.order - 1) / 2 +
            (child.entries.length - ((t.order - 1) / 2 + 1) + sB))) := by
      rw [hpch]; exact hchain
    have hfinal := scan_internal_intro tF (f + 1) parentId _ _ hgp hp3l harity hchain2
    simp only [hplen] at hfinal
    have hcnteq : parent.entries.length + 1 +
        (sA + ((t.order - 1) / 2 +
          (child.entries.length - ((t.order - 1) / 2 + 1) + sB))) = cnt := by
      rw [hcnt, hS1, hS2, hscleaf]; omega
    rw [hcnteq] at hfinal
    refine ⟨tF, _, _, hsplit0, hfinal, ?_, ?_, ?_, ?_, ?_, ?_, hgp, hp3l, hplen, ?_, ?_⟩
    · -- permutation
      rw [hidseq, hJcleaf]
      have e1 : parentId :: (JA ++ childId :: t.nextNodeId :: JB) =
          (parentId :: (JA ++ [childId])) ++ t.nextNodeId :: JB := by simp
      have e2 : t.nextNodeId :: (parentId :: (JA ++ ([childId] ++ JB))) =
          t.nextNodeId :: ((parentId :: (JA ++ [childId])) ++ JB) := by simp
      rw [e1, e2]
      exact List.perm_middle
    · show t₄.nextNodeId = t.nextNodeId + 1
      rw [hnn4]; rfl
    · show t₄.rootId = t.rootId
      rw [hri4]; rfl
    · show t₄.order = t.order
      rw [hor4]; rfl
    · show t₄.entryCount = t.entryCount
      rw [hec4]; rfl
    · show t₄.keyType = t.keyType
      rw [hkt4]; rfl
    · show BTree.listInsertAt p₂.children (childIndex + 1) t.nextNodeId =
        A ++ childId :: t.nextNodeId :: B
      exact hpch
    · intro k hk hksib
      refine hframe k ?_ ?_ hksib
      · intro h; rw [h] at hk; exact hk hpidmem
      · intro h; rw [h] at hk; exact hk hcidmem
  · -- internal child: grandchildren split between child and sibling
    have hlf : child.isLeaf = false := by simpa using hleafc
    obtain ⟨hac, ⟨Jg, sg⟩, hg, hJcInt, hscInt⟩ :=
      scan_internal_elim t f childId child Jc sc hcscan hcnode hlf
    simp only at hg hJcInt hscInt
    have hcdec : child.children =
        child.children.take ((t.order - 1) / 2 + 1) ++
          child.children.drop ((t.order - 1) / 2 + 1) :=
      (List.take_append_drop _ _).symm
    rw [hcdec] at hg
    obtain ⟨⟨JgT, sgT⟩, ⟨JgD, sgD⟩, hgT, hgD, hJg, hsg⟩ :=
      scanChildren_append_elim _ _ _ _ _ hg
    simp only at hgT hgD hJg hsg
    have hndJg : Jg.Nodup := (List.nodup_cons.mp (hJcInt ▸ hndc)).2
    have hcniJg : childId ∉ Jg := (List.nodup_cons.mp (hJcInt ▸ hndc)).1
    have hagreeJg : ∀ k, k ∈ Jg → shapeAgree t tF k := by
      intro k hk
      have hkJc : k ∈ Jc := by rw [hJcInt]; exact List.mem_cons_of_mem _ hk
      refine hframe k ?_ ?_ (hsibid k (hmemids k (Or.inr (Or.inl hkJc))))
      · intro h; rw [h] at hkJc
        exact hpni (List.mem_append.mpr (Or.inr (List.mem_append.mpr (Or.inl hkJc))))
      · intro h; rw [h] at hk; exact hcniJg hk
    have hgT2 : scanChildren (scan tF f) (child.children.take ((t.order - 1) / 2 + 1)) =
        some (JgT, sgT) :=
      scanChildren_frame t tF f (scan_frame t tF f) _ JgT sgT hgT
        (fun k hk => hagreeJg k (by rw [hJg]; exact List.mem_append.mpr (Or.inl hk)))
    have hgD2 : scanChildren (scan tF f) (child.children.drop ((t.order - 1) / 2 + 1)) =
        some (JgD, sgD) :=
      scanChildren_frame t tF f (scan_frame t tF f) _ JgD sgD hgD
        (fun k hk => hagreeJg k (by rw [hJg]; exact List.mem_append.mpr (Or.inr hk)))
    have hscanc2 : scan tF (f + 1) childId =
        some (childId :: JgT, (t.order - 1) / 2 + sgT) := by
      have hl2 : c₄.isLeaf = false := by rw [hc₄l']; exact hlf
      have hch2 : c₄.children = child.children.take ((t.order - 1) / 2 + 1) := by
        rw [hc₄c']; unfold splitChildChildren; rw [if_neg hleafc]
      have harc : c₄.children.length = c₄.entries.length + 1 := by
        rw [hch2, hc4len, List.length_take]
        omega
      have h0 := scan_internal_intro tF f childId c₄ (JgT, sgT) hgc4 hl2 harc
        (by rw [hch2]; exact hgT2)
      rw [hc4len] at h0
      exact h0
    have hscans2 : scan tF (f + 1) t.nextNodeId =
        some (t.nextNodeId :: JgD,
          child.entries.length - ((t.order - 1) / 2 + 1) + sgD) := by
      have hl2 : s₄.isLeaf = false := by rw [hs₄l']; exact hlf
      have hch2 : s₄.children = child.children.drop ((t.order - 1) / 2 + 1) := by
        rw [hs₄c']; unfold splitSibChildren; rw [if_neg hleafc]
      have harc : s₄.children.length = s₄.entries.length + 1 := by
        rw [hch2, hs4len, List.length_drop]
        omega
      have h0 := scan_internal_intro tF f t.nextNodeId s₄ (JgD, sgD) hgs4 hl2 harc
        (by rw [hch2]; exact hgD2)
      rw [hs4len] at h0
      exact h0
    have hconsS := scanChildren_cons_intro (scan tF (f + 1)) t.nextNodeId B
      (t.nextNodeId :: JgD, child.entries.length - ((t.order - 1) / 2 + 1) + sgD)
      (JB, sB) hscans2 hB2
    have hconsC := scanChildren_cons_intro (scan tF (f + 1)) childId (t.nextNodeId :: B)
      (childId :: JgT, (t.order - 1) / 2 + sgT) _ hscanc2 hconsS
    have hchain := scanChildren_append_intro (scan tF (f + 1)) A (childId :: t.nextNodeId :: B)
      (JA, sA) _ hA2 hconsC
    simp only [List.cons_append] at hchain
    have hchain2 : scanChildren (scan tF (f + 1))
        (BTree.listInsertAt p₂.children (childIndex + 1) t.nextNodeId) =
        some (JA ++ childId :: (JgT ++ t.nextNodeId :: (JgD ++ JB)),
          sA + ((t.order - 1) / 2 + sgT +
            (child.entries.length - ((t.order - 1) / 2 + 1) + sgD + sB))) := by
      rw [hpch]
      exact hchain
    have hfinal := scan_internal_intro tF (f + 1) parentId _ _ hgp hp3l harity hchain2
    simp only [hplen] at hfinal
    have hcnteq : parent.entries.length + 1 +
        (sA + ((t.order - 1) / 2 + sgT +
          (child.entries.length - ((t.order - 1) / 2 + 1) + sgD + sB))) = cnt := by
      rw [hcnt, hS1, hS2, hscInt, hsg]; omega
    rw [hcnteq] at hfinal
    refine ⟨tF, _, _, hsplit0, hfinal, ?_, ?_, ?_, ?_, ?_, ?_, hgp, hp3l, hplen, ?_, ?_⟩
    · -- permutation
      rw [hidseq, hJcInt, hJg]
      have e1 : parentId :: (JA ++ childId :: (JgT ++ t.nextNodeId :: (JgD ++ JB))) =
          (parentId :: (JA ++ childId :: JgT)) ++ t.nextNodeId :: (JgD ++ JB) := by
        simp
      have e2 : t.nextNodeId :: (parentId :: (JA ++ (childId :: (JgT ++ JgD) ++ JB))) =
          t.nextNodeId :: ((parentId :: (JA ++ childId :: JgT)) ++ (JgD ++ JB)) := by
        simp
      rw [e1, e2]
      exact List.perm_middle
    · show t₄.nextNodeId = t.nextNodeId + 1
      rw [hnn4]; rfl
    · show t₄.rootId = t.rootId
      rw [hri4]; rfl
    · show t₄.order = t.order
      rw [hor4]; rfl
    · show t₄.entryCount = t.entryCount
      rw [hec4]; rfl
    · show t₄.keyType = t.keyType
      rw [hkt4]; rfl
    · show BTree.listInsertAt p₂.children (childIndex + 1) t.nextNodeId =
        A ++ childId :: t.nextNodeId :: B
      exact hpch
    · intro k hk hksib
      refine hframe k ?_ ?_ hksib
      · intro h; rw [h] at hk; exact hk hpidmem
      · intro h; rw [h] at hk; exact hk hcidmem

/-- Replacing one child-subtree id block by a rewritten block keeps the
pre-order id list duplicate-free, provided the new block is duplicate-free
and each of its ids is either an id of the old block or freshly allocated. -/
theorem nodup_graft (nodeId : Nat) (JA Jc JB Jc' : List Nat) (bound : Nat)
    (hnd : (nodeId :: (JA ++ (Jc ++ JB))).Nodup)
    (hndc' : Jc'.Nodup)
    (hmix : ∀ x ∈ Jc', x ∈ Jc ∨ bound ≤ x)
    (hlow : ∀ x ∈ nodeId :: (JA ++ (Jc ++ JB)), x < bound) :
    (nodeId :: (JA ++ (Jc' ++ JB))).Nodup := by
  have hni := (List.nodup_cons.mp hnd).1
  have hnd1 := (List.nodup_cons.mp hnd).2
  have hndA : JA.Nodup := hnd1.of_append_left
  have hndcb : (Jc ++ JB).Nodup := hnd1.of_append_right
  have hndB : JB.Nodup := hndcb.of_append_right
  have hdisA : JA.Disjoint (Jc ++ JB) := List.disjoint_of_nodup_append hnd1
  have hdiscB : Jc.Disjoint JB := List.disjoint_of_nodup_append hndcb
  refine List.nodup_cons.mpr ⟨?_, ?_⟩
  · intro hmem
    rcases List.mem_append.mp hmem with h | h
    · exact hni (List.mem_append.mpr (Or.inl h))
    · rcases List.mem_append.mp h with h2 | h2
      · rcases hmix nodeId h2 with h3 | h3
        · exact hni (List.mem_append.mpr (Or.inr (List.mem_append.mpr (Or.inl h3))))
        · have := hlow nodeId (by simp)
          omega
      · exact hni (List.mem_append.mpr (Or.inr (List.mem_append.mpr (Or.inr h2))))
  · refine List.nodup_append.mpr ⟨hndA, List.nodup_append.mpr ⟨hndc', hndB, ?_⟩, ?_⟩
    · intro x hx hx2
      rcases hmix x hx with h3 | h3
      · exact hdiscB h3 hx2
      · have := hlow x (by simp [hx2])
        omega
    · intro x hx hx2
      rcases List.mem_append.mp hx2 with h | h
      · rcases hmix x h with h3 | h3
        · exact hdisA hx (List.mem_append.mpr (Or.inl h3))
        · have := hlow x (by simp [hx])
          omega
      · exact hdisA hx (List.mem_append.mpr (Or.inr h))

/-- Reassemble a parent scan after one child subtree has been rewritten
(gaining exactly one entry) and the flanking subtrees have been re-scanned
unchanged. -/
theorem graft_scan (t₃ : BTree) (g nodeId childId₂ : Nat) (p' p₃ : BTreeNode)
    (A₂ B₂ : List Nat) (JA₂ Jc₃ JB₂ : List Nat) (sA₂ sc₂ sB₂ : Nat) (cnt : Nat)
    (hdec₂ : p'.children = A₂ ++ childId₂ :: B₂)
    (ha₂ : p'.children.length = p'.entries.length + 1)
    (hgp₃ : BTree.getNode t₃ nodeId = some p₃)
    (hp₃l : p₃.isLeaf = false)
    (hp₃e : p₃.entries.length = p'.entries.length)
    (hp₃c : p₃.children = p'.children)
    (hA₂ : scanChildren (scan t₃ g) A₂ = some (JA₂, sA₂))
    (hB₂ : scanChildren (scan t₃ g) B₂ = some (JB₂, sB₂))
    (hscan₃c : scan t₃ g childId₂ = some (Jc₃, sc₂ + 1))
    (hcnt₂ : cnt = p'.entries.length + (sA₂ + (sc₂ + sB₂))) :
    scan t₃ (g + 1) nodeId = some (nodeId :: (JA₂ ++ (Jc₃ ++ JB₂)), cnt + 1) := by
  have hchain := scanChildren_append_intro (scan t₃ g) A₂ (childId₂ :: B₂) (JA₂, sA₂) _
    hA₂ (scanChildren_cons_intro _ _ _ _ _ hscan₃c hB₂)
  have harp : p₃.children.length = p₃.entries.length + 1 := by
    rw [hp₃c, hp₃e]; exact ha₂
  have h0 := scan_internal_intro t₃ g nodeId p₃ _ hgp₃ hp₃l harp
    (by rw [hp₃c, hdec₂]; exact hchain)
  have hcq : p₃.entries.length + (sA₂ + ((sc₂ + 1) + sB₂)) = cnt + 1 := by
    rw [hp₃e, hcnt₂]; omega
  rw [show cnt + 1 = p₃.entries.length + (sA₂ + ((sc₂ + 1) + sB₂)) from hcq.symm]
  exact h0

/-- Effect of `insertNonFull` on a well-scanned subtree, with the scan fuel
doubling as the recursion fuel: it succeeds, the subtree gains exactly one
entry, ids stay duplicate-free and below the allocator, every new id is
freshly allocated, and nothing outside the subtree changes shape. -/
theorem insertNonFull_effect (entry : IndexEntry) :
    ∀ (fuel : Nat) (t : BTree) (nodeId : Nat) (ids : List Nat) (cnt : Nat),
      scan t fuel nodeId = some (ids, cnt) → ids.Nodup →
      (∀ i ∈ ids, i < t.nextNodeId) → 2 ≤ t.order →
      ∃ t' ids',
        BTree.insertNonFull entry fuel t nodeId = some t' ∧
        scan t' fuel nodeId = some (ids', cnt + 1) ∧
        t.nextNodeId ≤ t'.nextNodeId ∧
        t'.rootId = t.rootId ∧ t'.order = t.order ∧
        t'.entryCount = t.entryCount ∧ t'.keyType = t.keyType ∧
        ids'.Nodup ∧ (∀ i ∈ ids', i < t'.nextNodeId) ∧
        (∀ i ∈ ids', i ∈ ids ∨ t.nextNodeId ≤ i) ∧
        (∀ k, k ∉ ids → k < t.nextNodeId → shapeAgree t t' k) := by
  intro fuel
  induction fuel with
  | zero =>
      intro t nodeId ids cnt h
      simp [scan] at h
  | succ n ih =>
      intro t nodeId ids cnt hscan hnodup hfresh horder
      obtain ⟨node, hnode⟩ := scan_getNode t (n + 1) nodeId (ids, cnt) hscan
      by_cases hleaf : node.isLeaf = true
      · -- leaf: insert in place
        obtain ⟨hcc, hidseq, hcnteq⟩ :=
          scan_leaf_elim t n nodeId node ids cnt hscan hnode hleaf
        have hple : BTree.insertPos node.entries entry.key ≤ node.entries.length :=
          Nat.sub_le _ _
        set node₂ : BTreeNode := { node with
          entries := BTree.listInsertAt node.entries
            (BTree.insertPos node.entries entry.key) entry } with hnode₂def
        set t' : BTree := { t with nodes := NodeMap.set t.nodes nodeId node₂ } with htdef
        have hg' : BTree.getNode t' nodeId = some node₂ := by
          rw [htdef, getNode_set, if_pos rfl]
        have hl₂ : node₂.isLeaf = true := hleaf
        have hc₂ : node₂.children = [] := hcc
        have hlen : node₂.entries.length = node.entries.length + 1 :=
          listInsertAt_length _ _ _ hple
        have h0 := scan_leaf_intro t' n nodeId node₂ hg' hl₂ hc₂
        rw [hlen] at h0
        refine ⟨t', ids, ?_, ?_, Nat.le_refl _, rfl, rfl, rfl, rfl, hnodup, hfresh,
          fun i hi => Or.inl hi, ?_⟩
        · rw [BTree.insertNonFull]
          simp only [Option.bind_eq_bind, hnode, Option.some_bind, if_pos hleaf,
            Option.pure_def, hnode₂def, htdef]
        · rw [hidseq, hcnteq]
          exact h0
        · intro k hk hklow
          have hkne : k ≠ nodeId := by
            intro h; rw [h] at hk; exact hk (by rw [hidseq]; simp)
          unfold shapeAgree
          rw [htdef, getNode_set, if_neg hkne]
      · -- internal: descend
        have hlf : node.isLeaf = false := by simpa using hleaf
        obtain ⟨ha, ⟨Jp, sp⟩, hsc, hids, hcnt⟩ :=
          scan_internal_elim t n nodeId node ids cnt hscan hnode hlf
        simp only at hsc hids hcnt
        have hple : BTree.insertPos node.entries entry.key ≤ node.entries.length :=
          Nat.sub_le _ _
        have hilt : BTree.insertPos node.entries entry.key < node.children.length := by
          omega
        have hch : node.children.get? (BTree.insertPos node.entries entry.key) =
            some (node.children.get ⟨BTree.insertPos node.entries entry.key, hilt⟩) :=
          List.get?_eq_get hilt
        set childId := node.children.get ⟨BTree.insertPos node.entries entry.key, hilt⟩
          with hcdef
        have hdec : node.children =
            node.children.take (BTree.insertPos node.entries entry.key) ++
              childId :: node.children.drop (BTree.insertPos node.entries entry.key + 1) :=
          list_decomp _ _ _ hch
        rw [hdec] at hsc
        obtain ⟨⟨JA, sA⟩, ⟨Jcb, scb⟩, hA, hCB, hJ1, hS1⟩ :=
          scanChildren_append_elim _ _ _ _ _ hsc
        obtain ⟨⟨Jc, sc⟩, ⟨JB, sB⟩, hcscan, hB, hJ2, hS2⟩ :=
          scanChildren_cons_elim _ _ _ _ _ hCB
        simp only at hA hCB hJ1 hS1 hcscan hB hJ2 hS2
        have hidseq : ids = nodeId :: (JA ++ (Jc ++ JB)) := by
          rw [hids, hJ1, hJ2]
        have hnd' : (nodeId :: (JA ++ (Jc ++ JB))).Nodup := hidseq ▸ hnodup
        have hmemids : ∀ k, k ∈ JA ∨ k ∈ Jc ∨ k ∈ JB → k ∈ ids := by
          intro k hk
          rw [hidseq]
          rcases hk with h | h | h <;> simp [h]
        have hndJc : Jc.Nodup :=
          ((List.nodup_cons.mp hnd').2.of_append_right).of_append_left
        have hdisA : JA.Disjoint (Jc ++ JB) :=
          List.disjoint_of_nodup_append (List.nodup_cons.mp hnd').2
        have hdiscB : Jc.Disjoint JB :=
          List.disjoint_of_nodup_append ((List.nodup_cons.mp hnd').2.of_append_right)
        have hnidni : nodeId ∉ JA ++ (Jc ++ JB) := (List.nodup_cons.mp hnd').1
        obtain ⟨child, hcn⟩ := scan_getNode t n childId (Jc, sc) hcscan
        by_cases hfull : t.order - 1 ≤ child.entries.length
        · -- full child: split, then descend into the chosen half
          cases n with
          | zero => simp [scan] at hcscan
          | succ m =>
              obtain ⟨t₂, ids₂, p', hsplit, hscan₂, hperm₂, hnn₂, hri₂, hor₂, hec₂,
                hkt₂, hgp', hp'l, hp'len, hp'ch, hframe₂⟩ :=
                splitChild_effect t nodeId (BTree.insertPos node.entries entry.key) m
                  node child childId ids cnt hnode hlf hch hcn hfull horder hscan
                  hnodup hfresh
              have hnd₂ : ids₂.Nodup := hperm₂.nodup_iff.mpr
                (List.nodup_cons.mpr
                  ⟨fun hmem => absurd (hfresh _ hmem) (by omega), hnodup⟩)
              have hfresh₂ : ∀ k ∈ ids₂, k < t₂.nextNodeId := by
                intro k hk
                rw [hnn₂]
                rcases List.mem_cons.mp (hperm₂.mem_iff.mp hk) with h | h
                · omega
                · exact Nat.lt_succ_of_lt (hfresh k h)
              have hmem₂ids : ∀ x, x ∈ ids₂ → x ∈ ids ∨ t.nextNodeId ≤ x := by
                intro x hx
                rcases List.mem_cons.mp (hperm₂.mem_iff.mp hx) with h | h
                · right; omega
                · left; exact h
              -- locate the descent child in the widened parent
              have hseplt : BTree.insertPos node.entries entry.key < p'.entries.length := by
                rw [hp'len]; omega
              have hsep : p'.entries.get? (BTree.insertPos node.entries entry.key) =
                  some (p'.entries.get ⟨BTree.insertPos node.entries entry.key, hseplt⟩) :=
                List.get?_eq_get hseplt
              set sep := p'.entries.get ⟨BTree.insertPos node.entries entry.key, hseplt⟩
                with hsepdef
              have hp'chlen : p'.children.length = node.entries.length + 2 := by
                rw [hp'ch]
                simp only [List.length_append, List.length_cons, List.length_take,
                  List.length_drop]
                omega
              have hi₂lt : (if compareValues entry.key sep.key > 0 then
                  BTree.insertPos node.entries entry.key + 1 else
                  BTree.insertPos node.entries entry.key) < p'.children.length := by
                rw [hp'chlen]
                split <;> omega
              have hch₂ : p'.children.get? (if compareValues entry.key sep.key > 0 then
                  BTree.insertPos node.entries entry.key + 1 else
                  BTree.insertPos node.entries entry.key) =
                  some (p'.children.get ⟨_, hi₂lt⟩) := List.get?_eq_get hi₂lt
              set childId₂ := p'.children.get ⟨_, hi₂lt⟩ with hc₂def
              -- decompose the widened parent's scan
              obtain ⟨ha₂, ⟨Jp₂, sp₂⟩, hsc₂, hids₂, hcnt₂⟩ :=
                scan_internal_elim t₂ (m + 1) nodeId p' ids₂ cnt hscan₂ hgp' hp'l
              simp only at hsc₂ hids₂ hcnt₂
              have hdec₂ : p'.children =
                  p'.children.take (if compareValues entry.key sep.key > 0 then
                    BTree.insertPos node.entries entry.key + 1 else
                    BTree.insertPos node.entries entry.key) ++
                  childId₂ :: p'.children.drop ((if compareValues entry.key sep.key > 0 then
                    BTree.insertPos node.entries entry.key + 1 else
                    BTree.insertPos node.entries entry.key) + 1) :=
                list_decomp _ _ _ hch₂
              rw [hdec₂] at hsc₂
              obtain ⟨⟨JA₂, sA₂⟩, ⟨Jcb₂, scb₂⟩, hA₂, hCB₂, hJ1₂, hS1₂⟩ :=
                scanChildren_append_elim _ _ _ _ _ hsc₂
              obtain ⟨⟨Jc₂, sc₂v⟩, ⟨JB₂, sB₂⟩, hcscan₂, hB₂, hJ2₂, hS2₂⟩ :=
                scanChildren_cons_elim _ _ _ _ _ hCB₂
              simp only at hA₂ hCB₂ hJ1₂ hS1₂ hcscan₂ hB₂ hJ2₂ hS2₂
              have hids₂eq : ids₂ = nodeId :: (JA₂ ++ (Jc₂ ++ JB₂)) := by
                rw [hids₂, hJ1₂, hJ2₂]
              have hnd₂' : (nodeId :: (JA₂ ++ (Jc₂ ++ JB₂))).Nodup := hids₂eq ▸ hnd₂
              have hmem₂ : ∀ k, k ∈ JA₂ ∨ k ∈ Jc₂ ∨ k ∈ JB₂ → k ∈ ids₂ := by
                intro k hk
                rw [hids₂eq]
                rcases hk with h | h | h <;> simp [h]
              have hndJc₂ : Jc₂.Nodup :=
                ((List.nodup_cons.mp hnd₂').2.of_append_right).of_append_left
              have hdisA₂ : JA₂.Disjoint (Jc₂ ++ JB₂) :=
                List.disjoint_of_nodup_append (List.nodup_cons.mp hnd₂').2
              have hdiscB₂ : Jc₂.Disjoint JB₂ :=
                List.disjoint_of_nodup_append
                  ((List.nodup_cons.mp hnd₂').2.of_append_right)
              have hnidni₂ : nodeId ∉ JA₂ ++ (Jc₂ ++ JB₂) := (List.nodup_cons.mp hnd₂').1
              -- recurse
              obtain ⟨t₃, Jc₃, heval₃, hscan₃, hnn₃, hri₃, hor₃, hec₃, hkt₃, hndc₃,
                hfresh₃, hmix₃, hframe₃⟩ :=
                ih t₂ childId₂ Jc₂ sc₂v hcscan₂ hndJc₂
                  (fun k hk => hfresh₂ k (hmem₂ k (Or.inr (Or.inl hk))))
                  (by rw [hor₂]; exact horder)
              -- reassemble
              have hfrA₂ : ∀ k ∈ JA₂, shapeAgree t₂ t₃ k := by
                intro k hk
                refine hframe₃ k ?_ (hfresh₂ k (hmem₂ k (Or.inl hk)))
                intro hc
                exact hdisA₂ hk (List.mem_append.mpr (Or.inl hc))
              have hfrB₂ : ∀ k ∈ JB₂, shapeAgree t₂ t₃ k := by
                intro k hk
                refine hframe₃ k ?_ (hfresh₂ k (hmem₂ k (Or.inr (Or.inr hk))))
                intro hc
                exact hdiscB₂ hc hk
              have hA₃ : scanChildren (scan t₃ (m + 1))
                  (p'.children.take (if compareValues entry.key sep.key > 0 then
                    BTree.insertPos node.entries entry.key + 1 else
                    BTree.insertPos node.entries entry.key)) = some (JA₂, sA₂) :=
                scanChildren_frame t₂ t₃ (m + 1) (scan_frame t₂ t₃ (m + 1)) _ _ _ hA₂ hfrA₂
              have hB₃ : scanChildren (scan t₃ (m + 1))
                  (p'.children.drop ((if compareValues entry.key sep.key > 0 then
                    BTree.insertPos node.entries entry.key + 1 else
                    BTree.insertPos node.entries entry.key) + 1)) = some (JB₂, sB₂) :=
                scanChildren_frame t₂ t₃ (m + 1) (scan_frame t₂ t₃ (m + 1)) _ _ _ hB₂ hfrB₂
              have hnidfr : shapeAgree t₂ t₃ nodeId := by
                refine hframe₃ nodeId ?_ (hfresh₂ nodeId (by rw [hids₂eq]; simp))
                intro hc
                exact hnidni₂ (List.mem_append.mpr (Or.inr (List.mem_append.mpr (Or.inl hc))))
              obtain ⟨p₃, hgp₃, hp₃l0, hp₃e0, hp₃c0⟩ :=
                shapeAgree_some t₂ t₃ nodeId p' hnidfr hgp'
              have hfinalscan := graft_scan t₃ (m + 1) nodeId childId₂ p' p₃ _ _
                JA₂ Jc₃ JB₂ sA₂ sc₂v sB₂ cnt hdec₂ ha₂ hgp₃
                (by rw [hp₃l0]; exact hp'l)
                (by rw [hp₃e0]) (by rw [hp₃c0]) hA₃ hB₃ hscan₃
                (by rw [hcnt₂, hS1₂, hS2₂])
              refine ⟨t₃, nodeId :: (JA₂ ++ (Jc₃ ++ JB₂)), ?_, hfinalscan, ?_, ?_, ?_,
                ?_, ?_, ?_, ?_, ?_, ?_⟩
              · -- evaluation
                rw [BTree.insertNonFull]
                simp only [Option.bind_eq_bind, hnode, Option.some_bind, hlf,
                  Bool.false_eq_true, if_false]
                rw [hch]
                simp only [Option.some_bind]
                rw [hcn]
                simp only [Option.some_bind]
                rw [if_pos hfull, hsplit]
                simp only [Option.some_bind]
                rw [hgp']
                simp only [Option.some_bind]
                rw [hsep]
                simp only [Option.some_bind]
                rw [hch₂]
                simp only [Option.some_bind]
                exact heval₃
              · rw [hnn₂] at hnn₃
                omega
              · rw [hri₃, hri₂]
              · rw [hor₃, hor₂]
              · rw [hec₃, hec₂]
              · rw [hkt₃, hkt₂]
              · exact nodup_graft nodeId JA₂ Jc₂ JB₂ Jc₃ t₂.nextNodeId hnd₂' hndc₃
                  hmix₃ (fun x hx => hfresh₂ x (hids₂eq ▸ hx))
              · intro x hx
                rcases List.mem_cons.mp hx with h | h
                · subst h
                  exact lt_of_lt_of_le (hfresh₂ _ (by rw [hids₂eq]; simp)) hnn₃
                · rcases List.mem_append.mp h with h2 | h2
                  · exact lt_of_lt_of_le
                      (hfresh₂ _ (hmem₂ _ (Or.inl h2))) hnn₃
                  · rcases List.mem_append.mp h2 with h3 | h3
                    · exact hfresh₃ _ h3
                    · exact lt_of_lt_of_le
                        (hfresh₂ _ (hmem₂ _ (Or.inr (Or.inr h3)))) hnn₃
              · intro x hx
                rcases List.mem_cons.mp hx with h | h
                · subst h
                  exact hmem₂ids _ (by rw [hids₂eq]; simp)
                · rcases List.mem_append.mp h with h2 | h2
                  · exact hmem₂ids _ (hmem₂ _ (Or.inl h2))
                  · rcases List.mem_append.mp h2 with h3 | h3
                    · rcases hmix₃ _ h3 with h4 | h4
                      · exact hmem₂ids _ (hmem₂ _ (Or.inr (Or.inl h4)))
                      · right; rw [hnn₂] at h4; omega
                    · exact hmem₂ids _ (hmem₂ _ (Or.inr (Or.inr h3)))
              · intro k hk hklow
                refine shapeAgree_trans t t₂ t₃ k
                  (hframe₂ k hk (by omega)) (hframe₃ k ?_ (by rw [hnn₂]; omega))
                intro hc
                rcases hmem₂ids k (hmem₂ k (Or.inr (Or.inl hc))) with h | h
                · exact hk h
                · omega
        · -- non-full child: plain descent
          obtain ⟨t₃, Jc₃, heval₃, hscan₃, hnn₃, hri₃, hor₃, hec₃, hkt₃, hndc₃,
            hfresh₃, hmix₃, hframe₃⟩ :=
            ih t childId Jc sc hcscan hndJc
              (fun k hk => hfresh k (hmemids k (Or.inr (Or.inl hk)))) horder
          have hfrA : ∀ k ∈ JA, shapeAgree t t₃ k := by
            intro k hk
            refine hframe₃ k ?_ (hfresh k (hmemids k (Or.inl hk)))
            intro hc
            exact hdisA hk (List.mem_append.mpr (Or.inl hc))
          have hfrB : ∀ k ∈ JB, shapeAgree t t₃ k := by
            intro k hk
            refine hframe₃ k ?_ (hfresh k (hmemids k (Or.inr (Or.inr hk))))
            intro hc
            exact hdiscB hc hk
          have hA₃ : scanChildren (scan t₃ n)
              (node.children.take (BTree.insertPos node.entries entry.key)) =
              some (JA, sA) :=
            scanChildren_frame t t₃ n (scan_frame t t₃ n) _ _ _ hA hfrA
          have hB₃ : scanChildren (scan t₃ n)
              (node.children.drop (BTree.insertPos node.entries entry.key + 1)) =
              some (JB, sB) :=
            scanChildren_frame t t₃ n (scan_frame t t₃ n) _ _ _ hB hfrB
          have hnidfr : shapeAgree t t₃ nodeId := by
            refine hframe₃ nodeId ?_ (hfresh nodeId (by rw [hidseq]; simp))
            intro hc
            exact hnidni (List.mem_append.mpr (Or.inr (List.mem_append.mpr (Or.inl hc))))
          obtain ⟨p₃, hgp₃, hp₃l0, hp₃e0, hp₃c0⟩ :=
            shapeAgree_some t t₃ nodeId node hnidfr hnode
          have hfinalscan := graft_scan t₃ n nodeId childId node p₃ _ _
            JA Jc₃ JB sA sc sB cnt hdec ha hgp₃
            (by rw [hp₃l0]; exact hlf)
            (by rw [hp₃e0]) (by rw [hp₃c0]) hA₃ hB₃ hscan₃
            (by rw [hcnt, hS1, hS2])
          refine ⟨t₃, nodeId :: (JA ++ (Jc₃ ++ JB)), ?_, hfinalscan, hnn₃, hri₃,
            hor₃, hec₃, hkt₃, ?_, ?_, ?_, ?_⟩
          · rw [BTree.insertNonFull]
            simp only [Option.bind_eq_bind, hnode, Option.some_bind, hlf,
              Bool.false_eq_true, if_false]
            rw [hch]
            simp only [Option.some_bind]
            rw [hcn]
            simp only [Option.some_bind]
            rw [if_neg hfull]
            exact heval₃
          · exact nodup_graft nodeId JA Jc JB Jc₃ t.nextNodeId hnd' hndc₃ hmix₃
              (fun x hx => hfresh x (hidseq ▸ hx))
          · intro x hx
            rcases List.mem_cons.mp hx with h | h
            · subst h
              exact lt_of_lt_of_le (hfresh _ (by rw [hidseq]; simp)) hnn₃
            · rcases List.mem_append.mp h with h2 | h2
              · exact lt_of_lt_of_le (hfresh _ (hmemids _ (Or.inl h2))) hnn₃
              · rcases List.mem_append.mp h2 with h3 | h3
                · exact hfresh₃ _ h3
                · exact lt_of_lt_of_le (hfresh _ (hmemids _ (Or.inr (Or.inr h3)))) hnn₃
          · intro x hx
            rcases List.mem_cons.mp hx with h | h
            · subst h
              exact Or.inl (by rw [hidseq]; simp)
            · rcases List.mem_append.mp h with h2 | h2
              · exact Or.inl (hmemids _ (Or.inl h2))
              · rcases List.mem_append.mp h2 with h3 | h3
                · rcases hmix₃ _ h3 with h4 | h4
                  · exact Or.inl (hmemids _ (Or.inr (Or.inl h4)))
                  · exact Or.inr h4
                · exact Or.inl (hmemids _ (Or.inr (Or.inr h3)))
          · intro k hk hklow
            refine hframe₃ k ?_ hklow
            intro hc
            exact hk (hmemids k (Or.inr (Or.inl hc)))

theorem scan_nodes_congr (t t' : BTree) (hnodes : t'.nodes = t.nodes) :
    ∀ f nid, scan t' f nid = scan t f nid := by
  intro f
  induction f with
  | zero => intro nid; simp [scan]
  | succ n ih =>
      intro nid
      rw [scan, scan]
      rw [show BTree.getNode t' nid = BTree.getNode t nid from by
        simp [BTree.getNode, hnodes]]
      rw [show scan t' n = scan t n from funext ih]

/-- `insertNonFull` is monotone in its fuel. -/
theorem insertNonFull_le_mono (entry : IndexEntry) :
    ∀ (f : Nat) (t : BTree) (nodeId : Nat) (t' : BTree) (g : Nat), f ≤ g →
      BTree.insertNonFull entry f t nodeId = some t' →
      BTree.insertNonFull entry g t nodeId = some t' := by
  intro f
  induction f with
  | zero =>
      intro t nodeId t' g hle h
      simp [BTree.insertNonFull] at h
  | succ n ih =>
      intro t nodeId t' g hle h
      obtain ⟨g', rfl⟩ : ∃ g', g = g' + 1 := ⟨g - 1, by omega⟩
      rw [BTree.insertNonFull] at h ⊢
      simp only [Option.bind_eq_bind] at h ⊢
      rw [Option.bind_eq_some] at h ⊢
      obtain ⟨node, hnode, h⟩ := h
      refine ⟨node, hnode, ?_⟩
      by_cases hleaf : node.isLeaf = true
      · rw [if_pos hleaf] at h ⊢
        exact h
      · rw [if_neg hleaf] at h ⊢
        rw [Option.bind_eq_some] at h ⊢
        obtain ⟨childId, hch, h⟩ := h
        refine ⟨childId, hch, ?_⟩
        rw [Option.bind_eq_some] at h ⊢
        obtain ⟨child, hcn, h⟩ := h
        refine ⟨child, hcn, ?_⟩
        by_cases hfull : t.order - 1 ≤ child.entries.length
        · rw [if_pos hfull] at h ⊢
          rw [Option.bind_eq_some] at h ⊢
          obtain ⟨t₂, hsp, h⟩ := h
          refine ⟨t₂, hsp, ?_⟩
          rw [Option.bind_eq_some] at h ⊢
          obtain ⟨node₂, hn₂, h⟩ := h
          refine ⟨node₂, hn₂, ?_⟩
          rw [Option.bind_eq_some] at h ⊢
          obtain ⟨sep, hsep, h⟩ := h
          refine ⟨sep, hsep, ?_⟩
          rw [Option.bind_eq_some] at h ⊢
          obtain ⟨childId₂, hch₂, h⟩ := h
          exact ⟨childId₂, hch₂, ih t₂ childId₂ t' g' (by omega) h⟩
        · rw [if_neg hfull] at h ⊢
          exact ih t childId t' g' (by omega) h

/-- `insert` is monotone in its fuel. -/
theorem insert_le_mono (t : BTree) (key : Value) (dOff dLen seqn : Nat) :
    ∀ (f g : Nat) (t' : BTree), f ≤ g →
      BTree.insert t key dOff dLen seqn f = some t' →
      BTree.insert t key dOff dLen seqn g = some t' := by
  intro f g t' hle h
  rw [BTree.insert] at h ⊢
  simp only [Option.bind_eq_bind] at h ⊢
  rw [Option.bind_eq_some] at h ⊢
  obtain ⟨root, hroot, h⟩ := h
  refine ⟨root, hroot, ?_⟩
  by_cases hrf : t.order - 1 ≤ root.entries.length
  · rw [if_pos hrf] at h ⊢
    rw [Option.bind_eq_some] at h ⊢
    obtain ⟨newRoot, hnr, h⟩ := h
    refine ⟨newRoot, hnr, ?_⟩
    rw [Option.bind_eq_some] at h ⊢
    obtain ⟨oldRoot, hold, h⟩ := h
    refine ⟨oldRoot, hold, ?_⟩
    rw [Option.bind_eq_some] at h ⊢
    obtain ⟨td, htd, h⟩ := h
    refine ⟨td, htd, ?_⟩
    rw [Option.bind_eq_some] at h ⊢
    obtain ⟨t₁, ht₁, h⟩ := h
    refine ⟨t₁, ht₁, ?_⟩
    rw [Option.bind_eq_some] at h ⊢
    obtain ⟨t₂, ht₂, h⟩ := h
    exact ⟨t₂, insertNonFull_le_mono _ f t₁ t₁.rootId t₂ g hle ht₂, h⟩
  · rw [if_neg hrf] at h ⊢
    rw [Option.bind_eq_some] at h ⊢
    obtain ⟨t₁, ht₁, h⟩ := h
    refine ⟨t₁, ht₁, ?_⟩
    rw [Option.bind_eq_some] at h ⊢
    obtain ⟨t₂, ht₂, h⟩ := h
    exact ⟨t₂, insertNonFull_le_mono _ f t₁ t₁.rootId t₂ g hle ht₂, h⟩

theorem getNode_rootSplitTc (t : BTree) (root : BTreeNode) (k' : Nat) :
    BTree.getNode (rootSplitTc t root) k' =
      if k' = t.rootId then some { root with parentId := t.nextNodeId }
      else if k' = t.nextNodeId then
        some { sibNode₀ t false 0 with children := [t.rootId] }
      else BTree.getNode t k' := by
  simp only [rootSplitTc, BTree.getNode, NodeMap.find_set]
  by_cases h1 : k' = t.rootId
  · subst h1
    simp
  · rw [if_neg h1, if_neg h1]
    by_cases h2 : k' = t.nextNodeId
    · subst h2
      simp
    · rw [if_neg h2, if_neg h2, if_neg h2]

/-- Unfolding of `insert` in the root-split case, in terms of the explicit
prelude state `rootSplitTc`. -/
theorem insert_eq (t : BTree) (key : Value) (dOff dLen seqn fuel : Nat)
    (root : BTreeNode)
    (hroot : BTree.getNode t t.rootId = some root)
    (hrf : t.order - 1 ≤ root.entries.length)
    (hRN : t.rootId ≠ t.nextNodeId) :
    BTree.insert t key dOff dLen seqn fuel =
      (do
        let td ← BTree.splitChild (rootSplitTc t root) t.nextNodeId 0
        let t₂ ← BTree.insertNonFull ⟨key, dOff, dLen, seqn⟩
          fuel { td with rootId := t.nextNodeId } t.nextNodeId
        pure { t₂ with entryCount := t₂.entryCount + 1 }) := by
  rw [BTree.insert]
  simp only [Option.bind_eq_bind, hroot, Option.some_bind, if_pos hrf,
    BTree.createNode]
  rw [getNode_set2, if_pos rfl]
  simp only [Option.some_bind]
  rw [getNode_mk_set, if_neg hRN, getNode_mk_set, if_neg hRN]
  rw [show BTree.getNode
    { nodes := t.nodes
      rootId := t.rootId
      nextNodeId := t.nextNodeId + 1
      entryCount := t.entryCount
      keyType := t.keyType
      order := t.order } t.rootId = some root from hroot]
  simp only [Option.some_bind, Option.pure_def, rootSplitTc, sibNode₀]

/-- Effect of `insert` on a well-scanned tree: it succeeds given fuel at
least one more than the scan fuel, the tree gains exactly one entry, and the
well-scannedness is preserved (one more fuel covers a possible root split). -/
theorem insert_effect (t : BTree) (key : Value) (dOff dLen seqn : Nat)
    (sf fuel : Nat) (ids : List Nat) (cnt : Nat)
    (hscan : scan t sf t.rootId = some (ids, cnt))
    (hnodup : ids.Nodup)
    (hfresh : ∀ i ∈ ids, i < t.nextNodeId)
    (horder : 2 ≤ t.order)
    (hfuel : sf + 1 ≤ fuel) :
    ∃ t' ids',
      BTree.insert t key dOff dLen seqn fuel = some t' ∧
      scan t' (sf + 1) t'.rootId = some (ids', cnt + 1) ∧
      ids'.Nodup ∧ (∀ i ∈ ids', i < t'.nextNodeId) ∧
      t'.order = t.order ∧ t'.keyType = t.keyType ∧
      t'.entryCount = t.entryCount + 1 := by
  cases sf with
  | zero => simp [scan] at hscan
  | succ sf0 =>
  obtain ⟨root, hroot⟩ := scan_getNode t (sf0 + 1) t.rootId (ids, cnt) hscan
  have hRmem : t.rootId ∈ ids := scan_mem_self t (sf0 + 1) t.rootId (ids, cnt) hscan
  have hRN : t.rootId ≠ t.nextNodeId := Nat.ne_of_lt (hfresh _ hRmem)
  by_cases hrf : t.order - 1 ≤ root.entries.length
  · -- root split
    have hgtc := getNode_rootSplitTc t root
    have hagree : ∀ k, k ≠ t.nextNodeId → shapeAgree t (rootSplitTc t root) k := by
      intro k hk
      unfold shapeAgree
      rw [hgtc k]
      by_cases hkR : k = t.rootId
      · subst hkR
        rw [if_pos rfl, hroot]
        rfl
      · rw [if_neg hkR, if_neg hk]
    have hscanc : scan (rootSplitTc t root) (sf0 + 1) t.rootId = some (ids, cnt) :=
      scan_frame t _ (sf0 + 1) t.rootId ids cnt hscan
        (fun k hk => hagree k (Nat.ne_of_lt (hfresh k hk)))
    have hgN : BTree.getNode (rootSplitTc t root) t.nextNodeId =
        some { sibNode₀ t false 0 with children := [t.rootId] } := by
      rw [hgtc, if_neg (Ne.symm hRN), if_pos rfl]
    have hgR : BTree.getNode (rootSplitTc t root) t.rootId =
        some { root with parentId := t.nextNodeId } := by
      rw [hgtc, if_pos rfl]
    have hscanN : scan (rootSplitTc t root) (sf0 + 1 + 1) t.nextNodeId =
        some (t.nextNodeId :: ids, cnt) := by
      have h1 := scanChildren_cons_intro (scan (rootSplitTc t root) (sf0 + 1))
        t.rootId [] (ids, cnt) ([], 0) hscanc rfl
      have h2 := scan_internal_intro (rootSplitTc t root) (sf0 + 1) t.nextNodeId
        { sibNode₀ t false 0 with children := [t.rootId] } _ hgN rfl rfl h1
      simpa [sibNode₀] using h2
    have hndN : (t.nextNodeId :: ids).Nodup :=
      List.nodup_cons.mpr ⟨fun hm => absurd (hfresh _ hm) (by omega), hnodup⟩
    have hfreshN : ∀ i ∈ t.nextNodeId :: ids, i < (rootSplitTc t root).nextNodeId := by
      intro i hi
      rcases List.mem_cons.mp hi with h | h
      · subst h
        show t.nextNodeId < t.nextNodeId + 1
        omega
      · exact lt_trans (hfresh i h) (by show t.nextNodeId < t.nextNodeId + 1; omega)
    obtain ⟨td, ids₂, p', hsplit, hscan₂, hperm₂, hnn₂, hri₂, hor₂, hec₂, hkt₂,
      hgp', hp'l, hp'len, hp'ch, hframe₂⟩ :=
      splitChild_effect (rootSplitTc t root) t.nextNodeId 0 sf0
        { sibNode₀ t false 0 with children := [t.rootId] }
        { root with parentId := t.nextNodeId } t.rootId
        (t.nextNodeId :: ids) cnt hgN rfl rfl hgR hrf horder hscanN hndN hfreshN
    have htcN : (rootSplitTc t root).nextNodeId = t.nextNodeId + 1 := rfl
    rw [htcN] at hperm₂ hnn₂
    have hnd₂ : ids₂.Nodup := hperm₂.nodup_iff.mpr
      (List.nodup_cons.mpr
        ⟨fun hm => by
          rcases List.mem_cons.mp hm with h | h
          · omega
          · exact absurd (hfresh _ h) (by omega), hndN⟩)
    have hfresh₂ : ∀ k ∈ ids₂, k < td.nextNodeId := by
      intro k hk
      rw [hnn₂]
      rcases List.mem_cons.mp (hperm₂.mem_iff.mp hk) with h | h
      · omega
      · rcases List.mem_cons.mp h with h2 | h2
        · omega
        · have := hfresh _ h2
          omega
    -- move to the new root
    have hscan₁ : scan { td with rootId := t.nextNodeId } (sf0 + 1 + 1)
        t.nextNodeId = some (ids₂, cnt) := by
      rw [scan_nodes_congr td { td with rootId := t.nextNodeId } rfl]
      exact hscan₂
    obtain ⟨t₂, ids₃, heval₂, hscan₃, hnn₃, hri₃, hor₃, hec₃, hkt₃, hnd₃,
      hfresh₃, hmix₃, hframe₃⟩ :=
      insertNonFull_effect ⟨key, dOff, dLen, seqn⟩
        (sf0 + 1 + 1) { td with rootId := t.nextNodeId }
        t.nextNodeId ids₂ cnt hscan₁ hnd₂ hfresh₂
        (by show 2 ≤ td.order; rw [hor₂]; exact horder)
    refine ⟨{ t₂ with entryCount := t₂.entryCount + 1 }, ids₃, ?_, ?_, hnd₃,
      hfresh₃, ?_, ?_, ?_⟩
    · rw [insert_eq t key dOff dLen seqn fuel root hroot hrf hRN, hsplit]
      simp only [Option.bind_eq_bind, Option.some_bind]
      rw [insertNonFull_le_mono _ (sf0 + 1 + 1) _ _ _ fuel (by omega) heval₂]
      simp only [Option.some_bind, Option.pure_def]
    · rw [show ({ t₂ with entryCount := t₂.entryCount + 1 } : BTree).rootId = t₂.rootId
        from rfl]
      rw [scan_nodes_congr t₂ { t₂ with entryCount := t₂.entryCount + 1 } rfl]
      rw [hri₃]
      exact hscan₃
    · show t₂.order = t.order
      rw [hor₃]
      show td.order = t.order
      rw [hor₂]
      rfl
    · show t₂.keyType = t.keyType
      rw [hkt₃]
      show td.keyType = t.keyType
      rw [hkt₂]
      rfl
    · show t₂.entryCount + 1 = t.entryCount + 1
      rw [hec₃]
      show td.entryCount + 1 = t.entryCount + 1
      rw [hec₂]
      rfl
  · -- no root split
    obtain ⟨t₂, ids₃, heval₂, hscan₃, hnn₃, hri₃, hor₃, hec₃, hkt₃, hnd₃, hfresh₃,
      hmix₃, hframe₃⟩ :=
      insertNonFull_effect ⟨key, dOff, dLen, seqn⟩
        (sf0 + 1) t t.rootId ids cnt hscan hnodup hfresh horder
    refine ⟨{ t₂ with entryCount := t₂.entryCount + 1 }, ids₃, ?_, ?_, hnd₃, hfresh₃,
      ?_, ?_, ?_⟩
    · rw [BTree.insert]
      simp only [Option.bind_eq_bind, hroot, Option.some_bind, if_neg hrf,
        Option.pure_def, Option.some_bind]
      rw [insertNonFull_le_mono _ (sf0 + 1) _ _ _ fuel (by omega) heval₂]
      simp only [Option.some_bind]
    · rw [show ({ t₂ with entryCount := t₂.entryCount + 1 } : BTree).rootId = t₂.rootId
        from rfl]
      rw [scan_nodes_congr t₂ { t₂ with entryCount := t₂.entryCount + 1 } rfl]
      rw [hri₃]
      exact scan_le_mono t₂ (sf0 + 1) (sf0 + 1 + 1) (by omega) _ _ hscan₃
    · show t₂.order = t.order
      exact hor₃
    · show t₂.keyType = t.keyType
      exact hkt₃
    · show t₂.entryCount + 1 = t.entryCount + 1
      rw [hec₃]

/-- Every tree reachable through the public API is well formed: its entry
counter equals the number of inserts since construction or the last clear,
and its root subtree scans successfully with fresh, duplicate-free ids. -/
theorem Built_WF (t : BTree) (n : Nat) (hb : Built t n) :
    t.entryCount = n ∧ 2 ≤ t.order ∧
    ∃ sf ids, scan t sf t.rootId = some (ids, n) ∧ ids.Nodup ∧
      (∀ i ∈ ids, i < t.nextNodeId) := by
  induction hb with
  | base keyType order horder =>
      refine ⟨rfl, horder, 1, [1], rfl, by simp, ?_⟩
      intro i hi
      simp at hi
      subst hi
      show 1 < 2
      omega
  | step t n key dOff dLen seqn fuel t' hb hi ih =>
      obtain ⟨hec, hor, sf, ids, hscan, hnd, hfr⟩ := ih
      obtain ⟨t'', ids', heval, hscan', hnd', hfr', hor', hkt', hec'⟩ :=
        insert_effect t key dOff dLen seqn sf (max (sf + 1) fuel) ids n hscan hnd hfr
          hor (le_max_left _ _)
      have hmono := insert_le_mono t key dOff dLen seqn fuel (max (sf + 1) fuel) t'
        (le_max_right _ _) hi
      rw [heval] at hmono
      have ht := Option.some.inj hmono
      subst ht
      exact ⟨by rw [hec', hec], by rw [hor']; exact hor, sf + 1, ids', hscan',
        hnd', hfr'⟩
  | clearStep t n hb ih =>
      refine ⟨rfl, ?_, 1, [1], rfl, by simp, ?_⟩
      · show 2 ≤ t.order
        exact ih.2.1
      · intro i hi
        simp at hi
        subst hi
        show 1 < 2
        omega

/-- `searchNode` cannot fail on a subtree that scans successfully. -/
theorem searchNode_succeeds (t : BTree) (key : Value) :
    ∀ f nid ids cnt, scan t f nid = some (ids, cnt) →
      ∃ res, BTree.searchNode t key f nid = some res := by
  intro f
  induction f with
  | zero =>
      intro nid ids cnt h
      simp [scan] at h
  | succ n ih =>
      intro nid ids cnt h
      obtain ⟨node, hnode⟩ := scan_getNode t (n + 1) nid (ids, cnt) h
      rw [BTree.searchNode]
      simp only [Option.bind_eq_bind, hnode, Option.some_bind]
      by_cases hl : node.isLeaf = true
      · rw [if_pos hl]
        exact ⟨_, rfl⟩
      · have hlf : node.isLeaf = false := by simpa using hl
        obtain ⟨ha, ⟨Jp, sp⟩, hsc, hids, hcnt⟩ :=
          scan_internal_elim t n nid node ids cnt h hnode hlf
        rw [if_neg hl]
        have hcidx : (node.entries.takeWhile
            (fun e => decide (compareValues key e.key > 0))).length <
            node.children.length := by
          have h0 : (node.entries.takeWhile
              (fun e => decide (compareValues key e.key > 0))).length ≤
              node.entries.length := (List.takeWhile_sublist _).length_le
          omega
        rw [List.get?_eq_get hcidx]
        simp only [Option.some_bind]
        obtain ⟨⟨Jc, sc⟩, hcscan, -⟩ :=
          scanChildren_mem_scan t n node.children (Jp, sp) hsc _
            (List.get_mem node.children _ hcidx)
        obtain ⟨sub, hsub⟩ := ih _ Jc sc hcscan
        rw [hsub]
        exact ⟨_, rfl⟩

/-- `searchNodeFirstInt` cannot fail on a subtree that scans successfully. -/
theorem searchNodeFirstInt_succeeds (t : BTree) (keyInt : Int) :
    ∀ f nid ids cnt, scan t f nid = some (ids, cnt) →
      ∃ res, BTree.searchNodeFirstInt t keyInt f nid = some res := by
  intro f
  induction f with
  | zero =>
      intro nid ids cnt h
      simp [scan] at h
  | succ n ih =>
      intro nid ids cnt h
      obtain ⟨node, hnode⟩ := scan_getNode t (n + 1) nid (ids, cnt) h
      rw [BTree.searchNodeFirstInt]
      simp only [Option.bind_eq_bind, hnode, Option.some_bind]
      by_cases h1 : BTree.bsearchLoop (fun m => decide (keyInt ≤ BTree.entryIntAt node.entries m))
          0 node.entries.length < node.entries.length ∧
          keyInt = BTree.entryIntAt node.entries (BTree.bsearchLoop
            (fun m => decide (keyInt ≤ BTree.entryIntAt node.entries m))
            0 node.entries.length)
      · rw [if_pos h1]
        exact ⟨_, rfl⟩
      · rw [if_neg h1]
        by_cases h2 : (!node.isLeaf &&
            decide (BTree.bsearchLoop (fun m => decide (keyInt ≤ BTree.entryIntAt node.entries m))
              0 node.entries.length < node.children.length)) = true
        · rw [if_pos h2]
          simp only [Bool.and_eq_true, Bool.not_eq_true', decide_eq_true_eq] at h2
          have hlf : node.isLeaf = false := h2.1
          have hlt : BTree.bsearchLoop (fun m => decide (keyInt ≤ BTree.entryIntAt node.entries m))
              0 node.entries.length < node.children.length := h2.2
          obtain ⟨ha, ⟨Jp, sp⟩, hsc, hids, hcnt⟩ :=
            scan_internal_elim t n nid node ids cnt h hnode hlf
          rw [List.get?_eq_get hlt]
          simp only [Option.some_bind]
          obtain ⟨⟨Jc, sc⟩, hcscan, -⟩ :=
            scanChildren_mem_scan t n node.children (Jp, sp) hsc _
              (List.get_mem node.children _ hlt)
          exact ih _ Jc sc hcscan
        · rw [if_neg h2]
          exact ⟨_, rfl⟩

/-- `searchNodeFirst` cannot fail on a subtree that scans successfully. -/
theorem searchNodeFirst_succeeds (t : BTree) (key : Value) :
    ∀ f nid ids cnt, scan t f nid = some (ids, cnt) →
      ∃ res, BTree.searchNodeFirst t key f nid = some res := by
  intro f
  induction f with
  | zero =>
      intro nid ids cnt h
      simp [scan] at h
  | succ n ih =>
      intro nid ids cnt h
      obtain ⟨node, hnode⟩ := scan_getNode t (n + 1) nid (ids, cnt) h
      rw [BTree.searchNodeFirst]
      cases htry : tryGetInt64 key with
      | some keyInt => exact searchNodeFirstInt_succeeds t keyInt (n + 1) nid ids cnt h
      | none =>
          simp only [Option.bind_eq_bind, hnode, Option.some_bind]
          by_cases h1 : BTree.bsearchLoop (fun m => decide
              (compareValues key (node.entries.getD m default).key ≤ 0))
              0 node.entries.length < node.entries.length ∧
              compareValues key ((node.entries.getD (BTree.bsearchLoop (fun m => decide
                (compareValues key (node.entries.getD m default).key ≤ 0))
                0 node.entries.length) default)).key = 0
          · rw [if_pos h1]
            exact ⟨_, rfl⟩
          · rw [if_neg h1]
            by_cases h2 : (!node.isLeaf &&
                decide (BTree.bsearchLoop (fun m => decide
                  (compareValues key (node.entries.getD m default).key ≤ 0))
                  0 node.entries.length < node.children.length)) = true
            · rw [if_pos h2]
              simp only [Bool.and_eq_true, Bool.not_eq_true', decide_eq_true_eq] at h2
              have hlf : node.isLeaf = false := h2.1
              have hlt : BTree.bsearchLoop (fun m => decide
                  (compareValues key (node.entries.getD m default).key ≤ 0))
                  0 node.entries.length < node.children.length := h2.2
              obtain ⟨ha, ⟨Jp, sp⟩, hsc, hids, hcnt⟩ :=
                scan_internal_elim t n nid node ids cnt h hnode hlf
              rw [List.get?_eq_get hlt]
              simp only [Option.some_bind]
              obtain ⟨⟨Jc, sc⟩, hcscan, -⟩ :=
                scanChildren_mem_scan t n node.children (Jp, sp) hsc _
                  (List.get_mem node.children _ hlt)
              exact ih _ Jc sc hcscan
            · rw [if_neg h2]
              exact ⟨_, rfl⟩

/-- `BTree.rangeLoop` cannot fail when every child visit succeeds. -/
theorem rangeLoop_succeeds (visit : Nat → Option (List IndexEntry))
    (node : BTreeNode) (minKey maxKey : Value)
    (hvisit : ∀ cid ∈ node.children, ∃ r, visit cid = some r) :
    ∀ es i, ∃ res, BTree.rangeLoop visit node minKey maxKey es i = some res := by
  intro es
  induction es with
  | nil =>
      intro i
      rw [BTree.rangeLoop]
      by_cases hcond : (!node.isLeaf && decide (i < node.children.length)) = true
      · rw [if_pos hcond]
        simp only [Bool.and_eq_true, Bool.not_eq_true', decide_eq_true_eq] at hcond
        rw [List.get?_eq_get hcond.2]
        simp only [Option.bind_eq_bind, Option.some_bind]
        exact hvisit _ (List.get_mem node.children _ hcond.2)
      · rw [if_neg hcond]
        exact ⟨_, rfl⟩
  | cons entry rest ih =>
      intro i
      rw [BTree.rangeLoop]
      simp only [Option.bind_eq_bind]
      by_cases hcond : (!node.isLeaf &&
          decide (0 ≤ compareValues entry.key minKey) &&
          decide (i < node.children.length)) = true
      · rw [if_pos hcond]
        simp only [Bool.and_eq_true, Bool.not_eq_true', decide_eq_true_eq] at hcond
        rw [List.get?_eq_get hcond.2]
        simp only [Option.some_bind]
        obtain ⟨r, hr⟩ := hvisit _ (List.get_mem node.children _ hcond.2)
        rw [hr]
        simp only [Option.some_bind]
        by_cases hmax : 0 < compareValues entry.key maxKey
        · rw [if_pos hmax]
          exact ⟨_, rfl⟩
        · rw [if_neg hmax]
          obtain ⟨tail, htail⟩ := ih (i + 1)
          rw [htail]
          simp only [Option.some_bind]
          exact ⟨_, rfl⟩
      · rw [if_neg hcond]
        simp only [Option.pure_def, Option.some_bind]
        by_cases hmax : 0 < compareValues entry.key maxKey
        · rw [if_pos hmax]
          exact ⟨_, rfl⟩
        · rw [if_neg hmax]
          obtain ⟨tail, htail⟩ := ih (i + 1)
          rw [htail]
          simp only [Option.some_bind]
          exact ⟨_, rfl⟩

/-- `rangeNode` cannot fail on a subtree that scans successfully. -/
theorem rangeNode_succeeds (t : BTree) (minKey maxKey : Value) :
    ∀ f nid ids cnt, scan t f nid = some (ids, cnt) →
      ∃ res, BTree.rangeNode t minKey maxKey f nid = some res := by
  intro f
  induction f with
  | zero =>
      intro nid ids cnt h
      simp [scan] at h
  | succ n ih =>
      intro nid ids cnt h
      obtain ⟨node, hnode⟩ := scan_getNode t (n + 1) nid (ids, cnt) h
      rw [BTree.rangeNode]
      simp only [Option.bind_eq_bind, hnode, Option.some_bind]
      have hvisit : ∀ cid ∈ node.children, ∃ r,
          BTree.rangeNode t minKey maxKey n cid = some r := by
        intro cid hcid
        by_cases hl : node.isLeaf = true
        · obtain ⟨hcc, -, -⟩ := scan_leaf_elim t n nid node ids cnt h hnode hl
          rw [hcc] at hcid
          simp at hcid
        · have hlf : node.isLeaf = false := by simpa using hl
          obtain ⟨ha, ⟨Jp, sp⟩, hsc, -, -⟩ :=
            scan_internal_elim t n nid node ids cnt h hnode hlf
          obtain ⟨⟨Jc, sc⟩, hcscan, -⟩ :=
            scanChildren_mem_scan t n node.children (Jp, sp) hsc cid hcid
          exact ih cid Jc sc hcscan
      exact rangeLoop_succeeds _ node minKey maxKey hvisit node.entries 0

/-- `BTree.collectLoop` on a leaf returns the remaining entries unchanged. -/
theorem collectLoop_leaf (visit : Nat → Option (List IndexEntry))
    (node : BTreeNode) (hl : node.isLeaf = true) :
    ∀ es i, BTree.collectLoop visit node es i = some es := by
  intro es
  induction es with
  | nil =>
      intro i
      rw [BTree.collectLoop, if_neg (by simp [hl])]
      rfl
  | cons entry rest ih =>
      intro i
      rw [BTree.collectLoop]
      simp only [Option.bind_eq_bind, hl, Bool.not_true, Bool.false_and,
        Bool.false_eq_true, if_false, Option.pure_def, Option.some_bind, ih (i + 1),
        List.nil_append]

/-- `BTree.collectLoop` on an internal node emits every remaining entry and the
full contents of every remaining child subtree. -/
theorem collectLoop_spec (t : BTree) (g : Nat) (node : BTreeNode)
    (hlf : node.isLeaf = false)
    (ha : node.children.length = node.entries.length + 1)
    (hvis : ∀ cid ids cnt, scan t g cid = some (ids, cnt) →
      ∃ res, BTree.collectNode t g cid = some res ∧ res.length = cnt) :
    ∀ es i, es = node.entries.drop i → i ≤ node.entries.length →
      ∀ JD sD, scanChildren (scan t g) (node.children.drop i) = some (JD, sD) →
      ∃ res, BTree.collectLoop (fun cid => BTree.collectNode t g cid) node es i = some res ∧
        res.length = (node.entries.length - i) + sD := by
  intro es
  induction es with
  | nil =>
      intro i hes hile JD sD hdrop
      have hieq : i = node.entries.length := by
        have := congrArg List.length hes
        simp [List.length_drop] at this
        omega
      subst hieq
      rw [BTree.collectLoop, if_pos (by simp [hlf]; omega)]
      have hlast : node.children.get? (node.children.length - 1) =
          some (node.children.get ⟨node.children.length - 1, by omega⟩) :=
        List.get?_eq_get (by omega)
      simp only [Option.bind_eq_bind, hlast, Option.some_bind]
      have hmemd : node.children.get ⟨node.children.length - 1, by omega⟩ ∈
          node.children.drop node.entries.length := by
        have h0 : (node.children.drop node.entries.length).get? 0 =
            some (node.children.get ⟨node.children.length - 1, by omega⟩) := by
          rw [List.get?_drop]
          have : node.entries.length + 0 = node.children.length - 1 := by omega
          rw [this]
          exact hlast
        exact List.get?_mem h0
      obtain ⟨⟨Jc, sc⟩, hcscan, hsub⟩ :=
        scanChildren_mem_scan t g (node.children.drop node.entries.length)
          (JD, sD) hdrop _ hmemd
      obtain ⟨res, hres, hlen⟩ := hvis _ Jc sc hcscan
      refine ⟨res, hres, ?_⟩
      -- the dropped tail is exactly the last child
      have hdlen : (node.children.drop node.entries.length).length = 1 := by
        rw [List.length_drop]; omega
      have hone : node.children.drop node.entries.length =
          [node.children.get ⟨node.children.length - 1, by omega⟩] := by
        cases hd : node.children.drop node.entries.length with
        | nil => rw [hd] at hdlen; simp at hdlen
        | cons a l =>
            rw [hd] at hdlen
            simp at hdlen
            subst hdlen
            have h0 : (node.children.drop node.entries.length).get? 0 = some a := by
              rw [hd]; rfl
            rw [List.get?_drop] at h0
            have heq : node.entries.length + 0 = node.children.length - 1 := by omega
            rw [heq, hlast] at h0
            simp at h0
            rw [← h0]
            rfl
      rw [hone] at hdrop
      simp only [scanChildren, Option.bind_eq_bind, hcscan, Option.some_bind,
        Option.pure_def, Option.some.injEq, Prod.mk.injEq, List.append_nil] at hdrop
      omega
  | cons entry rest ih =>
      intro i hes hile JD sD hdrop
      have hilt : i < node.entries.length := by
        have := congrArg List.length hes
        simp [List.length_drop] at this
        omega
      have hiltc : i < node.children.length := by omega
      -- decompose the remaining children
      have hdropc : node.children.drop i =
          node.children.get ⟨i, hiltc⟩ :: node.children.drop (i + 1) := by
        have h0 : (node.children.drop i).get? 0 =
            some (node.children.get ⟨i, hiltc⟩) := by
          rw [List.get?_drop]
          simpa using List.get?_eq_get hiltc
        cases hd : node.children.drop i with
        | nil => rw [hd] at h0; simp at h0
        | cons a l =>
            rw [hd] at h0
            simp at h0
            have hl2 : l = node.children.drop (i + 1) := by
              have := congrArg (List.drop 1) hd
              simpa [List.drop_drop] using this.symm
            rw [h0, hl2]
            rfl
      rw [hdropc] at hdrop
      obtain ⟨⟨Jc, sc⟩, ⟨JD', sD'⟩, hv1, hrest1, hJ1, hS1⟩ :=
        scanChildren_cons_elim _ _ _ _ _ hdrop
      simp only at hv1 hrest1 hJ1 hS1
      obtain ⟨resc, hresc, hlenc⟩ := hvis _ Jc sc hv1
      have hrest2 : rest = node.entries.drop (i + 1) := by
        have h1 := congrArg (List.drop 1) hes
        have h2 : List.drop (i + 1) node.entries = rest := by
          simpa [List.drop_drop] using h1.symm
        exact h2.symm
      obtain ⟨tail, htail, hlent⟩ := ih (i + 1) hrest2 (by omega) JD' sD' hrest1
      rw [BTree.collectLoop]
      simp only [Option.bind_eq_bind, hlf, Bool.not_false, Bool.true_and,
        if_true, Bool.false_eq_true, if_false]
      rw [List.get?_eq_get hiltc]
      simp only [Option.some_bind, hresc, htail, Option.pure_def]
      refine ⟨_, rfl, ?_⟩
      simp only [List.length_append, List.length_cons]
      rw [hlenc, hlent, hS1]
      omega

/-- `BTree.collectNode` on a well-scanned subtree returns exactly the subtree's
entry total. -/
theorem collectNode_count (t : BTree) :
    ∀ f nid ids cnt, scan t f nid = some (ids, cnt) →
      ∃ res, BTree.collectNode t f nid = some res ∧ res.length = cnt := by
  intro f
  induction f with
  | zero =>
      intro nid ids cnt h
      simp [scan] at h
  | succ n ih =>
      intro nid ids cnt h
      obtain ⟨node, hnode⟩ := scan_getNode t (n + 1) nid (ids, cnt) h
      rw [BTree.collectNode]
      simp only [Option.bind_eq_bind, hnode, Option.some_bind]
      by_cases hl : node.isLeaf = true
      · obtain ⟨hcc, hids, hcnt⟩ := scan_leaf_elim t n nid node ids cnt h hnode hl
        rw [collectLoop_leaf _ node hl node.entries 0]
        exact ⟨node.entries, rfl, hcnt.symm⟩
      · have hlf : node.isLeaf = false := by simpa using hl
        obtain ⟨ha, ⟨Jp, sp⟩, hsc, hids, hcnt⟩ :=
          scan_internal_elim t n nid node ids cnt h hnode hlf
        obtain ⟨res, hres, hlen⟩ :=
          collectLoop_spec t n node hlf ha ih node.entries 0 (by simp) (by omega)
            Jp sp (by simpa using hsc)
        rw [hres]
        refine ⟨res, rfl, ?_⟩
        rw [hlen, hcnt]
        omega

/-! ## C6 -/

namespace StreamingFlatBufferStore

/-- One-step unfolding of `parseFrames` without the pair-match. -/
theorem parseFrames_eq (bytes : List Nat) :
    parseFrames bytes =
      if bytes.length < 4 then ([], bytes)
      else if bytes.length < 4 + readU32LE bytes then ([], bytes)
      else ((bytes.drop 4).take (readU32LE bytes) ::
              (parseFrames (bytes.drop (4 + readU32LE bytes))).1,
            (parseFrames (bytes.drop (4 + readU32LE bytes))).2) := by
  rw [parseFrames]

/-- A buffer starting with an incomplete frame parses to no frames. -/
theorem parseFrames_of_incomplete (bytes : List Nat) (h : incompleteFrame bytes) :
    parseFrames bytes = ([], bytes) := by
  rw [parseFrames_eq]
  rcases h with h | h
  · rw [if_pos h]
  · by_cases h4 : bytes.length < 4
    · rw [if_pos h4]
    · rw [if_neg h4, if_pos h]

/-- The tail of `parseFrames` is a suffix of the input located exactly at the
consumed-byte count, and it starts with an incomplete frame. -/
theorem parseFrames_rest_spec (bytes : List Nat) :
    (parseFrames bytes).2.length ≤ bytes.length ∧
    bytes.drop (bytes.length - (parseFrames bytes).2.length) = (parseFrames bytes).2 ∧
    incompleteFrame (parseFrames bytes).2 := by
  suffices H : ∀ n (bytes : List Nat), bytes.length ≤ n →
      (parseFrames bytes).2.length ≤ bytes.length ∧
      bytes.drop (bytes.length - (parseFrames bytes).2.length) = (parseFrames bytes).2 ∧
      incompleteFrame (parseFrames bytes).2 by
    exact H bytes.length bytes le_rfl
  intro n
  induction n with
  | zero =>
      intro bytes hb
      have h4 : bytes.length < 4 := by omega
      rw [parseFrames_eq, if_pos h4]
      exact ⟨le_rfl, by simp, Or.inl h4⟩
  | succ n ih =>
      intro bytes hb
      by_cases h4 : bytes.length < 4
      · rw [parseFrames_eq, if_pos h4]
        exact ⟨le_rfl, by simp, Or.inl h4⟩
      · by_cases hs : bytes.length < 4 + readU32LE bytes
        · rw [parseFrames_eq, if_neg h4, if_pos hs]
          exact ⟨le_rfl, by simp, Or.inr hs⟩
        · rw [parseFrames_eq, if_neg h4, if_neg hs]
          dsimp only
          have hrlen : (bytes.drop (4 + readU32LE bytes)).length ≤ n := by
            simp only [List.length_drop]
            omega
          obtain ⟨hlen, hdrop, hinc⟩ := ih (bytes.drop (4 + readU32LE bytes)) hrlen
          simp only [List.length_drop] at hlen
          refine ⟨by omega, ?_, hinc⟩
          have harith : bytes.length -
              (parseFrames (bytes.drop (4 + readU32LE bytes))).2.length =
              (4 + readU32LE bytes) +
                ((bytes.drop (4 + readU32LE bytes)).length -
                  (parseFrames (bytes.drop (4 + readU32LE bytes))).2.length) := by
            simp only [List.length_drop]
            omega
          rw [harith, ← List.drop_drop, hdrop]

/-- Parsing a concatenation: the complete frames of the first chunk are
consumed first, and parsing resumes on its tail glued to the second chunk. -/
theorem parseFrames_append (bytes more : List Nat) :
    parseFrames (bytes ++ more) =
      ((parseFrames bytes).1 ++ (parseFrames ((parseFrames bytes).2 ++ more)).1,
       (parseFrames ((parseFrames bytes).2 ++ more)).2) := by
  suffices H : ∀ n (bytes : List Nat), bytes.length ≤ n → ∀ more : List Nat,
      parseFrames (bytes ++ more) =
        ((parseFrames bytes).1 ++ (parseFrames ((parseFrames bytes).2 ++ more)).1,
         (parseFrames ((parseFrames bytes).2 ++ more)).2) by
    exact H bytes.length bytes le_rfl more
  intro n
  induction n with
  | zero =>
      intro bytes hb more
      have h4 : bytes.length < 4 := by omega
      have hbp : parseFrames bytes = ([], bytes) :=
        parseFrames_of_incomplete bytes (Or.inl h4)
      rw [hbp]
      simp
  | succ n ih =>
      intro bytes hb more
      by_cases h4 : bytes.length < 4
      · have hbp : parseFrames bytes = ([], bytes) :=
          parseFrames_of_incomplete bytes (Or.inl h4)
        rw [hbp]
        simp
      · by_cases hs : bytes.length < 4 + readU32LE bytes
        · have hbp : parseFrames bytes = ([], bytes) :=
            parseFrames_of_incomplete bytes (Or.inr hs)
          rw [hbp]
          simp
        · have hru : readU32LE (bytes ++ more) = readU32LE bytes := by
            unfold readU32LE
            rw [List.getD_append _ _ _ _ (by omega), List.getD_append _ _ _ _ (by omega),
              List.getD_append _ _ _ _ (by omega), List.getD_append _ _ _ _ (by omega)]
          have hlen4 : ¬ (bytes ++ more).length < 4 := by
            simp only [List.length_append]
            omega
          have hlenS : ¬ (bytes ++ more).length < 4 + readU32LE (bytes ++ more) := by
            rw [hru]
            simp only [List.length_append]
            omega
          have hdrop4 : (bytes ++ more).drop 4 = bytes.drop 4 ++ more :=
            List.drop_append_of_le_length (by omega)
          have htake : (bytes.drop 4 ++ more).take (readU32LE bytes) =
              (bytes.drop 4).take (readU32LE bytes) :=
            List.take_append_of_le_length (by simp only [List.length_drop]; omega)
          have hdropS : (bytes ++ more).drop (4 + readU32LE bytes) =
              bytes.drop (4 + readU32LE bytes) ++ more :=
            List.drop_append_of_le_length (by omega)
          have hrlen : (bytes.drop (4 + readU32LE bytes)).length ≤ n := by
            simp only [List.length_drop]
            omega
          rw [parseFrames_eq (bytes ++ more), if_neg hlen4, if_neg hlenS, hru, hdrop4,
            htake, hdropS, parseFrames_eq bytes, if_neg h4, if_neg hs,
            ih (bytes.drop (4 + readU32LE bytes)) hrlen more]
          simp

/-- Composing two `ingest` calls over a split stream reaches the same state
as one call over the whole stream. -/
theorem ingest_state_append (st : State) (bytes more : List Nat) :
    (ingest ((ingest st bytes).1) ((parseFrames bytes).2 ++ more)).1 =
      (ingest st (bytes ++ more)).1 := by
  unfold ingest
  simp only []
  rw [parseFrames_append bytes more]
  simp [List.foldl_append]

/-- The drip-feed invariant: starting from a retained buffer that has no
complete frame, feeding byte by byte reaches the same state as one call. -/
theorem dripFeed_spec (incoming : List Nat) :
    ∀ (st : State) (pending : List Nat), parseFrames pending = ([], pending) →
      dripFeed st pending incoming =
        ((ingest st (pending ++ incoming)).1, (parseFrames (pending ++ incoming)).2) := by
  induction incoming with
  | nil =>
      intro st pending hp
      rw [dripFeed]
      unfold ingest
      simp [hp]
  | cons b rest ih =>
      intro st pending hp
      rw [dripFeed]
      obtain ⟨hlen, hdrop, hinc⟩ := parseFrames_rest_spec (pending ++ [b])
      have hbufdrop : (pending ++ [b]).drop ((ingest st (pending ++ [b])).2.1) =
          (parseFrames (pending ++ [b])).2 := by
        unfold ingest
        simp only []
        exact hdrop
      rw [hbufdrop, ih _ _ (parseFrames_of_incomplete _ hinc)]
      have hassoc : pending ++ b :: rest = (pending ++ [b]) ++ rest := by
        simp
      rw [hassoc, ingest_state_append st (pending ++ [b]) rest,
        parseFrames_append (pending ++ [b]) rest]

end StreamingFlatBufferStore

/-- C6: feeding a framed byte-stream one byte at a time (retaining and
re-appending the unconsumed tail) reaches the same store state — the same
log bytes, records, and sequence numbers — as one `ingest` call on the whole
stream; each call consumes the complete `[u32 size][payload]` frames at the
front (the reported `bytesConsumed` is exactly the split point before the
unconsumed suffix), stops at the first incomplete frame, and reports one
processed record per consumed frame. -/
theorem C6_thm (st : StreamingFlatBufferStore.State) (bytes : List Nat) :
    StreamingFlatBufferStore.dripFeed st [] bytes =
      ((StreamingFlatBufferStore.ingest st bytes).1,
       (StreamingFlatBufferStore.parseFrames bytes).2) ∧
    bytes.drop ((StreamingFlatBufferStore.ingest st bytes).2.1) =
      (StreamingFlatBufferStore.parseFrames bytes).2 ∧
    StreamingFlatBufferStore.incompleteFrame
      (StreamingFlatBufferStore.parseFrames bytes).2 ∧
    (StreamingFlatBufferStore.ingest st bytes).2.2 =
      (StreamingFlatBufferStore.parseFrames bytes).1.length := by
  obtain ⟨hlen, hdrop, hinc⟩ := StreamingFlatBufferStore.parseFrames_rest_spec bytes
  refine ⟨?_, ?_, hinc, rfl⟩
  · have h := StreamingFlatBufferStore.dripFeed_spec bytes st []
      (by rw [StreamingFlatBufferStore.parseFrames_eq]; simp)
    simpa using h
  · unfold StreamingFlatBufferStore.ingest
    simp only []
    exact hdrop

/-! ## C9 and C10 -/

/-- `search` on a freshly cleared tree answers the empty list (the root is an
empty leaf). -/
theorem search_clear (t : BTree) (key : Value) (m : Nat) :
    BTree.search (BTree.clear t) key (m + 1) = some [] := by
  show BTree.searchNode (BTree.clear t) key (m + 1) (BTree.clear t).rootId = some []
  rw [BTree.searchNode]
  rw [show BTree.getNode (BTree.clear t) (BTree.clear t).rootId =
    some { nodeId := 1, isLeaf := true, parentId := 0 } from rfl]
  simp

/-- C9: on every index built solely through the public API, the queries
`search`, `searchFirst`, `range` and `all` cannot fail once given enough
descent fuel (the embedding's stand-in for the unbounded C++ recursion):
every node lookup along every descent finds its node, so the `Corrupted`
error (`getNode` returning nothing) is unreachable. -/
theorem C9_thm (t : BTree) (n : Nat) (hb : Built t n) :
    ∃ f₀, ∀ fuel, f₀ ≤ fuel → ∀ key minKey maxKey,
      (BTree.search t key fuel).isSome ∧
      (BTree.searchFirst t key fuel).isSome ∧
      (BTree.range t minKey maxKey fuel).isSome ∧
      (BTree.all t fuel).isSome := by
  obtain ⟨hec, hor, sf, ids, hscan, hnd, hfr⟩ := Built_WF t n hb
  refine ⟨sf, ?_⟩
  intro fuel hle key minKey maxKey
  have hscan' := scan_le_mono t sf fuel hle t.rootId (ids, n) hscan
  obtain ⟨r1, h1⟩ := searchNode_succeeds t key fuel t.rootId ids n hscan'
  obtain ⟨r2, h2⟩ := searchNodeFirst_succeeds t key fuel t.rootId ids n hscan'
  obtain ⟨r3, h3⟩ := rangeNode_succeeds t minKey maxKey fuel t.rootId ids n hscan'
  obtain ⟨r4, h4, -⟩ := collectNode_count t fuel t.rootId ids n hscan'
  exact ⟨by simp [BTree.search, h1], by simp [BTree.searchFirst, h2],
    by simp [BTree.range, h3], by simp [BTree.all, h4]⟩

/-- Closed instance of C9 on the one-insert order-4 int32 tree. -/
theorem C9_thm_witness :
    ∃ f₀, ∀ fuel, f₀ ≤ fuel → ∀ key minKey maxKey,
      (BTree.search wTree key fuel).isSome ∧
      (BTree.searchFirst wTree key fuel).isSome ∧
      (BTree.range wTree minKey maxKey fuel).isSome ∧
      (BTree.all wTree fuel).isSome :=
  C9_thm wTree 1
    (Built.step (BTree.mkBTree ValueType.Int32 4) 0 (Value.int32 5) 100 50 1 10
      wTree (Built.base ValueType.Int32 4 (by omega)) (by rfl))

/-- C10: on every tree reached through the public API, `entryCount()` equals
the number of inserts since construction or the last `clear()`; `all()`
(given enough fuel) returns exactly `entryCount()` entries; and after
`clear()` the count is `0` and `search` of any key returns the empty
result. -/
theorem C10_thm (t : BTree) (n : Nat) (hb : Built t n) :
    BTree.getEntryCount t = n ∧
    (∃ f₀, ∀ fuel, f₀ ≤ fuel → ∃ res, BTree.all t fuel = some res ∧
      res.length = BTree.getEntryCount t) ∧
    BTree.getEntryCount (BTree.clear t) = 0 ∧
    (∀ key fuel, BTree.search (BTree.clear t) key (fuel + 1) = some []) := by
  obtain ⟨hec, hor, sf, ids, hscan, hnd, hfr⟩ := Built_WF t n hb
  refine ⟨hec, ⟨sf, ?_⟩, rfl, fun key fuel => search_clear t key fuel⟩
  intro fuel hle
  have hscan' := scan_le_mono t sf fuel hle t.rootId (ids, n) hscan
  obtain ⟨res, hres, hlen⟩ := collectNode_count t fuel t.rootId ids n hscan'
  refine ⟨res, hres, ?_⟩
  show res.length = t.entryCount
  rw [hec]
  exact hlen

/-! ## C4 (amended agreement) -/

theorem bindKey_ne_null (v : Value) (h : v ≠ Value.null) :
    SqliteIndex.bindKey v ≠ SqlVal.nullv := by
  intro hv
  apply h
  cases v <;> simp [SqliteIndex.bindKey] at hv <;> rfl

theorem pkInsert_mem (x r : SqliteIndex.SqlRow) :
    ∀ l, r ∈ SqliteIndex.pkInsert x l ↔ r = x ∨ r ∈ l := by
  intro l
  induction l with
  | nil => simp [SqliteIndex.pkInsert]
  | cons y ys ih =>
      rw [SqliteIndex.pkInsert]
      by_cases hlt : SqliteIndex.rowPkLt x y = true
      · rw [if_pos hlt]
        simp only [List.mem_cons]
      · rw [if_neg hlt]
        simp only [List.mem_cons, ih]
        constructor
        · rintro (h | h | h)
          · exact Or.inr (Or.inl h)
          · exact Or.inl h
          · exact Or.inr (Or.inr h)
        · rintro (h | h | h)
          · exact Or.inr (Or.inl h)
          · exact Or.inl h
          · exact Or.inr (Or.inr h)

/-- The SQLite back-end accepts every insert sequence with non-Null keys and
fresh sequence numbers, counting one entry per insert. -/
theorem sqlRun_succeeds :
    ∀ (ops : List (Value × Nat × Nat × Nat)) (st : SqliteIndex.State),
      (∀ op ∈ ops, op.1 ≠ Value.null) →
      (ops.map (fun op => op.2.2.2)).Nodup →
      (∀ r ∈ st.rows, r.sequence ∉ ops.map (fun op => op.2.2.2)) →
      ∃ st', ops.foldl (fun acc op => acc.bind
          (fun s => SqliteIndex.insert s op.1 op.2.1 op.2.2.1 op.2.2.2))
          (some st) = some st' ∧
        st'.entryCount = st.entryCount + ops.length := by
  intro ops
  induction ops with
  | nil =>
      intro st _ _ _
      exact ⟨st, rfl, by simp⟩
  | cons op rest ih =>
      intro st hkeys hnd hdisj
      simp only [List.map_cons, List.nodup_cons] at hnd
      have hk : SqliteIndex.bindKey op.1 ≠ SqlVal.nullv :=
        bindKey_ne_null op.1 (hkeys op (by simp))
      have hdup : st.rows.any (fun r =>
          decide (sqlCompare r.key (SqliteIndex.bindKey op.1) = 0) &&
          decide (r.sequence = op.2.2.2)) = false := by
        rw [List.any_eq_false]
        intro r hr
        simp only [Bool.and_eq_true, decide_eq_true_eq, not_and]
        intro _ hseq2
        exact absurd (by simp [hseq2] : r.sequence ∈ (op :: rest).map
          (fun op => op.2.2.2)) (hdisj r hr)
      have hstep : SqliteIndex.insert st op.1 op.2.1 op.2.2.1 op.2.2.2 =
          some { st with
            rows := SqliteIndex.pkInsert
              ⟨SqliteIndex.bindKey op.1, op.2.1, op.2.2.1, op.2.2.2⟩ st.rows,
            entryCount := st.entryCount + 1 } := by
        unfold SqliteIndex.insert
        rw [if_neg hk, if_neg (by rw [hdup]; simp)]
      have hdisj' : ∀ r ∈ SqliteIndex.pkInsert
          ⟨SqliteIndex.bindKey op.1, op.2.1, op.2.2.1, op.2.2.2⟩ st.rows,
          r.sequence ∉ rest.map (fun op => op.2.2.2) := by
        intro r hr
        rcases (pkInsert_mem _ r st.rows).mp hr with h | h
        · rw [h]
          exact hnd.1
        · intro hmem
          exact hdisj r h (by simp [hmem])
      obtain ⟨st', hfold, hcnt⟩ := ih { st with
          rows := SqliteIndex.pkInsert
            ⟨SqliteIndex.bindKey op.1, op.2.1, op.2.2.1, op.2.2.2⟩ st.rows,
          entryCount := st.entryCount + 1 }
        (fun o ho => hkeys o (by simp [ho])) hnd.2 hdisj'
      refine ⟨st', ?_, ?_⟩
      · simp only [List.foldl_cons, Option.bind_eq_bind, Option.some_bind, hstep]
        exact hfold
      · rw [hcnt]
        show st.entryCount + 1 + rest.length = st.entryCount + (rest.length + 1)
        omega

/-- The B-tree back-end accepts every insert sequence once each insert is
given fuel covering the (monotonically growing) scan fuel, counting one
entry per insert. -/
theorem btreeRun_succeeds (F : Nat) :
    ∀ (ops : List (Value × Nat × Nat × Nat)) (t : BTree) (sf : Nat)
      (ids : List Nat) (cnt : Nat),
      scan t sf t.rootId = some (ids, cnt) → ids.Nodup →
      (∀ i ∈ ids, i < t.nextNodeId) → 2 ≤ t.order →
      sf + ops.length ≤ F →
      ∃ t', ops.foldl (fun acc op => acc.bind
          (fun tt => BTree.insert tt op.1 op.2.1 op.2.2.1 op.2.2.2 F))
          (some t) = some t' ∧
        t'.entryCount = t.entryCount + ops.length := by
  intro ops
  induction ops with
  | nil =>
      intro t sf ids cnt _ _ _ _ _
      exact ⟨t, rfl, by simp⟩
  | cons op rest ih =>
      intro t sf ids cnt hscan hnd hfr hor hF
      obtain ⟨t₁, ids₁, heval, hscan₁, hnd₁, hfr₁, hor₁, hkt₁, hec₁⟩ :=
        insert_effect t op.1 op.2.1 op.2.2.1 op.2.2.2 sf F ids cnt hscan hnd hfr
          hor (by simp at hF; omega)
      obtain ⟨t', hfold, hcnt⟩ := ih t₁ (sf + 1) ids₁ (cnt + 1) hscan₁ hnd₁ hfr₁
        (by rw [hor₁]; exact hor) (by simp at hF ⊢; omega)
      refine ⟨t', ?_, ?_⟩
      · simp only [List.foldl_cons, Option.bind_eq_bind, Option.some_bind, heval]
        exact hfold
      · rw [hcnt, hec₁]
        show t.entryCount + 1 + rest.length = t.entryCount + (rest.length + 1)
        omega

/-- C4, amended: full query-level equivalence of the two back-ends is false
(see the counterexample), but the back-ends agree on acceptance and on the
entry count: for every insert sequence with non-Null keys and pairwise
distinct sequence numbers, both back-ends accept the whole sequence (the
B-tree side given per-insert fuel beyond the sequence length) and both end
with `entryCount()` equal to the number of inserts. -/
theorem C4_amended_thm (keyType : ValueType) (order : Nat)
    (ops : List (Value × Nat × Nat × Nat))
    (horder : 2 ≤ order)
    (hkeys : ∀ op ∈ ops, op.1 ≠ Value.null)
    (hseq : (ops.map (fun op => op.2.2.2)).Nodup) :
    ∃ t st,
      btreeRun keyType order (ops.length + 1) ops = some t ∧
      sqlRun keyType ops = some st ∧
      BTree.getEntryCount t = ops.length ∧
      SqliteIndex.getEntryCount st = ops.length := by
  obtain ⟨t, hbt, hbtc⟩ :=
    btreeRun_succeeds (ops.length + 1) ops (BTree.mkBTree keyType order) 1 [1] 0
      rfl (by simp) (by intro i hi; simp at hi; subst hi; show 1 < 2; omega)
      horder (by omega)
  obtain ⟨st, hsq, hsqc⟩ :=
    sqlRun_succeeds ops (SqliteIndex.mkState keyType) hkeys hseq (by
      intro r hr
      simp [SqliteIndex.mkState] at hr)
  refine ⟨t, st, hbt, hsq, ?_, ?_⟩
  · show t.entryCount = ops.length
    rw [hbtc]
    show 0 + ops.length = ops.length
    omega
  · show st.entryCount = ops.length
    rw [hsqc]
    show 0 + ops.length = ops.length
    omega

/-- Closed instance of the amended C4 agreement on a concrete two-insert
sequence. -/
theorem C4_amended_thm_witness :
    ∃ t st,
      btreeRun ValueType.Int32 4
        ([(Value.int32 5, 100, 50, 1), (Value.int32 7, 200, 60, 2)].length + 1)
        [(Value.int32 5, 100, 50, 1), (Value.int32 7, 200, 60, 2)] = some t ∧
      sqlRun ValueType.Int32
        [(Value.int32 5, 100, 50, 1), (Value.int32 7, 200, 60, 2)] = some st ∧
      BTree.getEntryCount t =
        [(Value.int32 5, 100, 50, 1), (Value.int32 7, 200, 60, 2)].length ∧
      SqliteIndex.getEntryCount st =
        [(Value.int32 5, 100, 50, 1), (Value.int32 7, 200, 60, 2)].length :=
  C4_amended_thm ValueType.Int32 4
    [(Value.int32 5, 100, 50, 1), (Value.int32 7, 200, 60, 2)]
    (by omega) (by decide) (by decide)

/-- Closed instance of C10 on the one-insert order-4 int32 tree. -/
theorem C10_thm_witness :
    BTree.getEntryCount wTree = 1 ∧
    (∃ f₀, ∀ fuel, f₀ ≤ fuel → ∃ res, BTree.all wTree fuel = some res ∧
      res.length = BTree.getEntryCount wTree) ∧
    BTree.getEntryCount (BTree.clear wTree) = 0 ∧
    (∀ key fuel, BTree.search (BTree.clear wTree) key (fuel + 1) = some []) :=
  C10_thm wTree 1
    (Built.step (BTree.mkBTree ValueType.Int32 4) 0 (Value.int32 5) 100 50 1 10
      wTree (Built.base ValueType.Int32 4 (by omega)) (by rfl))

end FlatSQL
